import Mathlib

/-!
Verification of the zeronet_protocol crate: a shallow embedding of the
message model (src/message/value.rs, src/message/mod.rs), the multiplexed
connection state machine (src/async_connection.rs), the ZeroConnection
façade's request-id allocator (src/zero_connection.rs), the MessagePack
encoding path, and the peer address codec (src/address.rs).

Machine integers (u8, u16, usize) are modelled as `Nat` with explicit
bounds where they matter; byte strings are `List Nat` with elements
below 256.  The Rust field and method name `to` is rendered `toId`
because `to` is a reserved word in Lean.
-/

/-! ## Message model

`Value` mirrors `src/message/value.rs`: a serde_json-like sum with a
distinct byte-string constructor (`serde_bytes::ByteBuf`).  `Number` is
modelled as `Int` (covering the u64/i64 cases of `serde_json::Number`;
floating-point payloads are outside the model).  `HashMap<String, Value>`
is modelled as an association list. -/

inductive Value where
  | null : Value
  | bool (b : Bool) : Value
  | num (n : Int) : Value
  | str (s : String) : Value
  | bytes (bs : List Nat) : Value
  | arr (xs : List Value) : Value
  | obj (kvs : List (String × Value)) : Value

mutual

def Value.beq : Value → Value → Bool
  | Value.null, Value.null => true
  | Value.bool a, Value.bool b => a == b
  | Value.num a, Value.num b => a == b
  | Value.str a, Value.str b => a == b
  | Value.bytes a, Value.bytes b => a == b
  | Value.arr xs, Value.arr ys => Value.beqList xs ys
  | Value.obj xs, Value.obj ys => Value.beqKVs xs ys
  | _, _ => false

def Value.beqList : List Value → List Value → Bool
  | [], [] => true
  | x :: xs, y :: ys => Value.beq x y && Value.beqList xs ys
  | _, _ => false

def Value.beqKVs : List (String × Value) → List (String × Value) → Bool
  | [], [] => true
  | (k, v) :: xs, (l, w) :: ys => k == l && (Value.beq v w && Value.beqKVs xs ys)
  | _, _ => false

end

mutual

theorem Value.beq_iff : ∀ a b : Value, Value.beq a b = true ↔ a = b
  | Value.null, Value.null => by simp [Value.beq]
  | Value.bool a, Value.bool b => by simp [Value.beq]
  | Value.num a, Value.num b => by simp [Value.beq]
  | Value.str a, Value.str b => by simp [Value.beq]
  | Value.bytes a, Value.bytes b => by simp [Value.beq]
  | Value.arr xs, Value.arr ys => by
      simp only [Value.beq, Value.arr.injEq]
      exact Value.beqList_iff xs ys
  | Value.obj xs, Value.obj ys => by
      simp only [Value.beq, Value.obj.injEq]
      exact Value.beqKVs_iff xs ys
  | Value.null, Value.bool _ => by simp [Value.beq]
  | Value.null, Value.num _ => by simp [Value.beq]
  | Value.null, Value.str _ => by simp [Value.beq]
  | Value.null, Value.bytes _ => by simp [Value.beq]
  | Value.null, Value.arr _ => by simp [Value.beq]
  | Value.null, Value.obj _ => by simp [Value.beq]
  | Value.bool _, Value.null => by simp [Value.beq]
  | Value.bool _, Value.num _ => by simp [Value.beq]
  | Value.bool _, Value.str _ => by simp [Value.beq]
  | Value.bool _, Value.bytes _ => by simp [Value.beq]
  | Value.bool _, Value.arr _ => by simp [Value.beq]
  | Value.bool _, Value.obj _ => by simp [Value.beq]
  | Value.num _, Value.null => by simp [Value.beq]
  | Value.num _, Value.bool _ => by simp [Value.beq]
  | Value.num _, Value.str _ => by simp [Value.beq]
  | Value.num _, Value.bytes _ => by simp [Value.beq]
  | Value.num _, Value.arr _ => by simp [Value.beq]
  | Value.num _, Value.obj _ => by simp [Value.beq]
  | Value.str _, Value.null => by simp [Value.beq]
  | Value.str _, Value.bool _ => by simp [Value.beq]
  | Value.str _, Value.num _ => by simp [Value.beq]
  | Value.str _, Value.bytes _ => by simp [Value.beq]
  | Value.str _, Value.arr _ => by simp [Value.beq]
  | Value.str _, Value.obj _ => by simp [Value.beq]
  | Value.bytes _, Value.null => by simp [Value.beq]
  | Value.bytes _, Value.bool _ => by simp [Value.beq]
  | Value.bytes _, Value.num _ => by simp [Value.beq]
  | Value.bytes _, Value.str _ => by simp [Value.beq]
  | Value.bytes _, Value.arr _ => by simp [Value.beq]
  | Value.bytes _, Value.obj _ => by simp [Value.beq]
  | Value.arr _, Value.null => by simp [Value.beq]
  | Value.arr _, Value.bool _ => by simp [Value.beq]
  | Value.arr _, Value.num _ => by simp [Value.beq]
  | Value.arr _, Value.str _ => by simp [Value.beq]
  | Value.arr _, Value.bytes _ => by simp [Value.beq]
  | Value.arr _, Value.obj _ => by simp [Value.beq]
  | Value.obj _, Value.null => by simp [Value.beq]
  | Value.obj _, Value.bool _ => by simp [Value.beq]
  | Value.obj _, Value.num _ => by simp [Value.beq]
  | Value.obj _, Value.str _ => by simp [Value.beq]
  | Value.obj _, Value.bytes _ => by simp [Value.beq]
  | Value.obj _, Value.arr _ => by simp [Value.beq]

theorem Value.beqList_iff : ∀ xs ys : List Value, Value.beqList xs ys = true ↔ xs = ys
  | [], [] => by simp [Value.beqList]
  | x :: xs, y :: ys => by
      simp only [Value.beqList, Bool.and_eq_true, List.cons.injEq]
      exact and_congr (Value.beq_iff x y) (Value.beqList_iff xs ys)
  | [], _ :: _ => by simp [Value.beqList]
  | _ :: _, [] => by simp [Value.beqList]

theorem Value.beqKVs_iff : ∀ xs ys : List (String × Value),
    Value.beqKVs xs ys = true ↔ xs = ys
  | [], [] => by simp [Value.beqKVs]
  | (k, v) :: xs, (l, w) :: ys => by
      simp only [Value.beqKVs, Bool.and_eq_true, List.cons.injEq, Prod.mk.injEq,
        beq_iff_eq]
      rw [Value.beq_iff v w, Value.beqKVs_iff xs ys, and_assoc]
  | [], _ :: _ => by simp [Value.beqKVs]
  | _ :: _, [] => by simp [Value.beqKVs]

end

instance : DecidableEq Value := fun a b =>
  decidable_of_iff (Value.beq a b = true) (Value.beq_iff a b)

/-- `Request { cmd, req_id, params }` from src/message/mod.rs. -/
structure Request where
  cmd : String
  req_id : Nat
  params : Value
deriving DecidableEq

/-- `Response { cmd, to, response }` from src/message/mod.rs; the
`response` field is serde-`flatten`ed on the wire. -/
structure Response where
  cmd : String
  toId : Nat
  response : Value
deriving DecidableEq

/-- `ZeroMessage` (src/message/mod.rs): untagged union, `Response` listed
first (the serde untagged decoder tries variants in this order). -/
inductive ZeroMessage where
  | response (r : Response) : ZeroMessage
  | request (q : Request) : ZeroMessage
deriving DecidableEq

/-- The `Requestable` trait from src/requestable.rs (`to` is rendered
`toId`). -/
class Requestable (M : Type) (K : outParam Type) where
  req_id : M → Option K
  toId : M → Option K

/-- `impl Requestable for ZeroMessage` (src/message/mod.rs, lines 73-86). -/
instance : Requestable ZeroMessage Nat where
  req_id m := match m with
    | ZeroMessage.request q => some q.req_id
    | ZeroMessage.response _ => none
  toId m := match m with
    | ZeroMessage.response r => some r.toId
    | ZeroMessage.request _ => none

/-- The connection error type, as used by src/async_connection.rs
(`Error::ConnectionClosed`, `Error::MissingReqId`, encode/decode and
other errors from src/error.rs). -/
inductive Err where
  | connectionClosed : Err
  | missingReqId : Err
  | encodeError : Err
  | decodeError : Err
  | io (s : String) : Err
  | other (s : String) : Err
deriving DecidableEq

deriving instance DecidableEq for Except

/-! ## Multiplexed connection state (src/async_connection.rs)

`SharedState` holds the pending-request map `requests`
(`HashMap<T::Key, (Arc<Mutex<Option<Result<T, Error>>>>, Option<Waker>)>`),
the inbox `values` (`Vec<Result<T, Error>>`, pushed at the end and popped
from the end), the receiver wakers `wakers` (`Vec<Waker>`, also
push/pop at the end), and the `closed` flag.  Wakers are modelled as
`Nat` identifiers; a pending entry's single-shot cell plus waker is a
`Slot`. -/

structure Slot (M : Type) where
  value : Option (Except Err M)
  waker : Option Nat

structure ConnState (M K : Type) where
  requests : List (K × Slot M)
  values : List (Except Err M)
  wakers : List Nat
  closed : Bool

/-- `HashMap::remove`: take the entry with the given key out of the map,
returning it together with the remaining map. -/
def removeKey {M K : Type} [DecidableEq K] (k : K) :
    List (K × Slot M) → Option (Slot M × List (K × Slot M))
  | [] => none
  | (k', s) :: rest =>
    if k = k' then some (s, rest)
    else (removeKey k rest).map (fun p => (p.1, (k', s) :: p.2))

/-- The dispatch of one decoded incoming message `r`, from the reader
worker in `recv` (src/async_connection.rs, lines 186-211).

* `r.to() == Some(t)`: the code runs `requests.remove(&to).unwrap()`;
  a missing entry makes the `unwrap` panic, modelled as `none`.
  Otherwise the entry is removed, `Ok(r)` is written into its cell
  (recorded in the returned write list) and its waker is woken.
* `r.to() == None`: `Ok(r)` is pushed onto the end of the inbox and one
  receiver waker is popped from the END of `wakers` (`Vec::pop`) and
  woken; with no registered waker the current future's waker is woken.

Returns `(new state, cell writes performed, wakers woken)`. -/
def dispatch {M K : Type} [Requestable M K] [DecidableEq K]
    (st : ConnState M K) (curWaker : Nat) (r : M) :
    Option (ConnState M K × List (K × Except Err M) × List Nat) :=
  match Requestable.toId (K := K) r with
  | some t =>
    match removeKey t st.requests with
    | none => none
    | some (slot, rest) =>
      some ({ st with requests := rest },
            [(t, Except.ok r)],
            match slot.waker with
            | some w => [w]
            | none => [])
  | none =>
    let vals := st.values ++ [Except.ok r]
    match st.wakers.getLast? with
    | some w =>
      some ({ st with values := vals, wakers := st.wakers.dropLast }, [], [w])
    | none =>
      some ({ st with values := vals }, [], [curWaker])

/-- Fill a pending slot that is still empty with `Err(ConnectionClosed)`;
a slot that already holds a result is left unchanged
(src/async_connection.rs, lines 226-233). -/
def fillSlot {M : Type} (s : Slot M) : Slot M :=
  { s with value :=
      match s.value with
      | none => some (Except.error Err.connectionClosed)
      | some v => some v }

/-- `close_connection` (src/async_connection.rs, lines 223-243): set
`closed`, fill every still-empty pending slot with
`Err(ConnectionClosed)` and wake its waker, then pop every receiver
waker (from the end of the `Vec`), pushing one `Err(ConnectionClosed)`
onto the inbox per waker and waking it. -/
def closeConnection {M K : Type} (st : ConnState M K) :
    ConnState M K × List (K × Except Err M) × List Nat :=
  let requests' := st.requests.map (fun p => (p.1, fillSlot p.2))
  let writes := st.requests.filterMap (fun p =>
    match p.2.value with
    | none => some (p.1, (Except.error Err.connectionClosed : Except Err M))
    | some _ => none)
  let reqWoken := st.requests.filterMap (fun p => p.2.waker)
  ({ requests := requests',
     values := st.values ++ List.replicate st.wakers.length (Except.error Err.connectionClosed),
     wakers := [],
     closed := true },
   writes, reqWoken ++ st.wakers.reverse)

/-- One completed read on the connection (the body of the spawned reader
in `recv`, src/async_connection.rs, lines 175-211): a failed decode
closes the connection, a decoded message is dispatched. -/
def recvStep {M K : Type} [Requestable M K] [DecidableEq K]
    (st : ConnState M K) (curWaker : Nat) (read : Except Err M) :
    Option (ConnState M K × List (K × Except Err M) × List Nat) :=
  match read with
  | Except.error _ => some (closeConnection st)
  | Except.ok r => dispatch st curWaker r

/-- The fast path of `ReceiveFuture::poll` (src/async_connection.rs,
lines 97-103): `values.pop()` takes the LAST element of the inbox
`Vec` if any. -/
def receivePoll {M K : Type} (st : ConnState M K) :
    Option (Except Err M) × ConnState M K :=
  match st.values.getLast? with
  | some v => (some v, { st with values := st.values.dropLast })
  | none => (none, st)

/-- The registration performed by `Connection::request`
(src/async_connection.rs, lines 302-310): insert a fresh empty slot
under the message's `req_id` (`HashMap::insert` replaces any previous
entry). -/
def registerRequest {M K : Type} [DecidableEq K]
    (st : ConnState M K) (k : K) (waker : Option Nat) : ConnState M K :=
  { st with requests :=
      (k, ⟨none, waker⟩) :: (removeKey k st.requests).elim st.requests Prod.snd }

/-- The operations that touch the shared connection state. -/
inductive ConnOp (M K : Type) where
  | register (k : K) (waker : Option Nat) : ConnOp M K
  | arrive (curWaker : Nat) (read : Except Err M) : ConnOp M K

/-- Apply one operation to the shared state, returning the new state,
the pending-cell writes performed and the wakers woken (`none` models a
panic). -/
def applyOp {M K : Type} [Requestable M K] [DecidableEq K]
    (st : ConnState M K) : ConnOp M K →
    Option (ConnState M K × List (K × Except Err M) × List Nat)
  | ConnOp.register k w => some (registerRequest st k w, [], [])
  | ConnOp.arrive cw read => recvStep st cw read

/-- The `SendFuture` worker (src/async_connection.rs, lines 51-75,
reached from `Connection::send`, lines 275-291): serialize the message
(JSON indirection then named-key MessagePack) and write the bytes.
The worker reads neither the `closed` flag nor any other shared
connection state: `st` is taken as an argument to make that fact a
statement about this function, and is not consulted.  Returns the
result stored in `SendState.result` and the bytes written. -/
def sendPoll {M K : Type} (st : ConnState M K)
    (encode : M → Except Err (List Nat)) (m : M) :
    Except Err Unit × List Nat :=
  match st.closed, encode m with
  | _, Except.ok bs => (Except.ok (), bs)
  | _, Except.error e => (Except.error e, [])

/-! ## ZeroConnection façade (src/zero_connection.rs) -/

/-- The initial value of the shared `next_req_id` counter
(`Arc::new(Mutex::new(0))` in `ZeroConnection::new`, line 64). -/
def ZeroConnection.new_next_req_id : Nat := 0

/-- `ZeroConnection::req_id` (src/zero_connection.rs, lines 150-154):
`*next_req_id += 1; *next_req_id - 1` — returns the old counter value
and leaves the counter incremented. -/
def ZeroConnection.req_id (next_req_id : Nat) : Nat × Nat :=
  (next_req_id, next_req_id + 1)

/-- `ZeroConnection::last_req_id` (src/zero_connection.rs, lines
145-148): `*next_req_id - 1` on `usize`.  When the counter is 0 the
subtraction underflows, which panics in a debug build; this is modelled
as `none`. -/
def ZeroConnection.last_req_id (next_req_id : Nat) : Option Nat :=
  if next_req_id = 0 then none else some (next_req_id - 1)

/-- `n` successive calls of `ZeroConnection::req_id` against the shared
counter (all cloned handles of one façade share the single counter, so
any interleaving of calls is some such sequence). -/
def allocIds : Nat → Nat → List Nat × Nat
  | 0, next => ([], next)
  | Nat.succ n, next =>
    let p := ZeroConnection.req_id next
    let q := allocIds n p.2
    (p.1 :: q.1, q.2)

/-! ## MessagePack wire form

The send path (src/async_connection.rs, lines 56-73) serializes a
message with `serde_json::to_value`, re-reads it as a
`serde_json::Value`, and emits it with `rmp_serde::encode::write_named`.
The receive path decodes with `rmp_serde::from_read` into the untagged
message type.  The encoder below follows rmp's minimal-size integer,
str8/16/32, bin8/16/32, array and map formats; `write_named` only
affects structs, and a `serde_json::Value` map is emitted as a
MessagePack map with string keys either way.  Floats and MessagePack
ext types are outside the model (the parser rejects their markers). -/

/-- `k` bytes, big-endian, of `n % 256^k`. -/
def beBytes : Nat → Nat → List Nat
  | 0, _ => []
  | Nat.succ k, n => beBytes k (n / 256) ++ [n % 256]

/-- Big-endian value of a byte list. -/
def ofBE (bs : List Nat) : Nat := bs.foldl (fun acc b => acc * 256 + b) 0

/-- Take exactly `n` bytes from the front, or fail. -/
def readBytes (n : Nat) (bs : List Nat) : Option (List Nat × List Nat) :=
  if n ≤ bs.length then some (bs.take n, bs.drop n) else none

/-- UTF-8 encoding of one scalar value (Rust `String` bytes). -/
def utf8EncodeChar (c : Char) : List Nat :=
  if c.toNat < 128 then [c.toNat]
  else if c.toNat < 2048 then [192 + c.toNat / 64, 128 + c.toNat % 64]
  else if c.toNat < 65536 then
    [224 + c.toNat / 4096, 128 + c.toNat / 64 % 64, 128 + c.toNat % 64]
  else
    [240 + c.toNat / 262144, 128 + c.toNat / 4096 % 64,
     128 + c.toNat / 64 % 64, 128 + c.toNat % 64]

/-- The UTF-8 bytes of a string. -/
def strBytes (s : String) : List Nat := (s.data.map utf8EncodeChar).flatten

/-- Decode one UTF-8 scalar value from the front (strict: continuation
ranges, no overlong forms, no surrogates), as rmp_serde's str
validation performs. -/
def utf8DecodeStep : List Nat → Option (Char × List Nat)
  | [] => none
  | b0 :: rest =>
    if b0 < 128 then some (Char.ofNat b0, rest)
    else if b0 < 192 then none
    else if b0 < 224 then
      match rest with
      | b1 :: rest1 =>
        if 128 ≤ b1 ∧ b1 < 192 then
          if 128 ≤ (b0 - 192) * 64 + (b1 - 128) then
            some (Char.ofNat ((b0 - 192) * 64 + (b1 - 128)), rest1)
          else none
        else none
      | [] => none
    else if b0 < 240 then
      match rest with
      | b1 :: b2 :: rest2 =>
        if 128 ≤ b1 ∧ b1 < 192 ∧ 128 ≤ b2 ∧ b2 < 192 then
          if 2048 ≤ (b0 - 224) * 4096 + (b1 - 128) * 64 + (b2 - 128) ∧
              Nat.isValidChar ((b0 - 224) * 4096 + (b1 - 128) * 64 + (b2 - 128)) then
            some (Char.ofNat ((b0 - 224) * 4096 + (b1 - 128) * 64 + (b2 - 128)), rest2)
          else none
        else none
      | _ => none
    else if b0 < 248 then
      match rest with
      | b1 :: b2 :: b3 :: rest3 =>
        if 128 ≤ b1 ∧ b1 < 192 ∧ 128 ≤ b2 ∧ b2 < 192 ∧ 128 ≤ b3 ∧ b3 < 192 then
          if 65536 ≤ (b0 - 240) * 262144 + (b1 - 128) * 4096 +
                (b2 - 128) * 64 + (b3 - 128) ∧
              (b0 - 240) * 262144 + (b1 - 128) * 4096 + (b2 - 128) * 64 + (b3 - 128) <
                1114112 then
            some (Char.ofNat ((b0 - 240) * 262144 + (b1 - 128) * 4096 +
              (b2 - 128) * 64 + (b3 - 128)), rest3)
          else none
        else none
      | _ => none
    else none

/-- Decode a whole byte list as UTF-8; `fuel` bounds the number of
characters, and `bs.length` always suffices because every character
consumes at least one byte. -/
def utf8DecodeLoop : Nat → List Nat → Option (List Char)
  | 0, bs => if bs.isEmpty then some [] else none
  | Nat.succ fuel, bs =>
    if bs.isEmpty then some []
    else
      match utf8DecodeStep bs with
      | some (c, rest) => (utf8DecodeLoop fuel rest).map (fun cs => c :: cs)
      | none => none

/-- UTF-8 decoding of a full byte string. -/
def utf8Decode (bs : List Nat) : Option (List Char) := utf8DecodeLoop bs.length bs

/-- rmp `write_uint`: minimal unsigned representation. -/
def encodeUInt (n : Nat) : List Nat :=
  if n < 128 then [n]
  else if n < 256 then [204, n]
  else if n < 65536 then 205 :: beBytes 2 n
  else if n < 4294967296 then 206 :: beBytes 4 n
  else 207 :: beBytes 8 n

/-- rmp `write_sint` on an i64 / serde_json integer: non-negative
values through the unsigned forms, negatives through fixneg and
int8/16/32/64. -/
def encodeInt (n : Int) : List Nat :=
  if 0 ≤ n then encodeUInt n.toNat
  else if -32 ≤ n then [(n + 256).toNat]
  else if -128 ≤ n then [208, (n + 256).toNat]
  else if -32768 ≤ n then 209 :: beBytes 2 (n + 65536).toNat
  else if -2147483648 ≤ n then 210 :: beBytes 4 (n + 4294967296).toNat
  else 211 :: beBytes 8 (n + 18446744073709551616).toNat

/-- MessagePack str header (fixstr, str8, str16, str32). -/
def strHeader (len : Nat) : List Nat :=
  if len < 32 then [160 + len]
  else if len < 256 then [217, len]
  else if len < 65536 then 218 :: beBytes 2 len
  else 219 :: beBytes 4 len

/-- MessagePack bin header (bin8, bin16, bin32), used by
`serde_bytes::ByteBuf`. -/
def binHeader (len : Nat) : List Nat :=
  if len < 256 then [196, len]
  else if len < 65536 then 197 :: beBytes 2 len
  else 198 :: beBytes 4 len

/-- MessagePack array header (fixarray, array16, array32). -/
def arrHeader (len : Nat) : List Nat :=
  if len < 16 then [144 + len]
  else if len < 65536 then 220 :: beBytes 2 len
  else 221 :: beBytes 4 len

/-- MessagePack map header (fixmap, map16, map32). -/
def mapHeader (len : Nat) : List Nat :=
  if len < 16 then [128 + len]
  else if len < 65536 then 222 :: beBytes 2 len
  else 223 :: beBytes 4 len

mutual

/-- rmp serialization of a `serde_json::Value` (no `bytes` appears on
the JSON path) or of a value with `serde_bytes::ByteBuf` leaves (which
serialize as `bin`). -/
def encodeValue : Value → List Nat
  | Value.null => [192]
  | Value.bool false => [194]
  | Value.bool true => [195]
  | Value.num n => encodeInt n
  | Value.str s => strHeader (strBytes s).length ++ strBytes s
  | Value.bytes bs => binHeader bs.length ++ bs
  | Value.arr xs => arrHeader xs.length ++ encodeValueList xs
  | Value.obj kvs => mapHeader kvs.length ++ encodeValueKVs kvs

def encodeValueList : List Value → List Nat
  | [] => []
  | x :: xs => encodeValue x ++ encodeValueList xs

def encodeValueKVs : List (String × Value) → List Nat
  | [] => []
  | (k, v) :: kvs =>
    strHeader (strBytes k).length ++ strBytes k ++ encodeValue v ++ encodeValueKVs kvs

end

/-- Read a `k`-byte big-endian length. -/
def readLen (k : Nat) (bs : List Nat) : Option (Nat × List Nat) :=
  (readBytes k bs).map (fun p => (ofBE p.1, p.2))

/-- Parse the body of a `k`-byte unsigned integer. -/
def parseUIntBody (k : Nat) (bs : List Nat) : Option (Value × List Nat) :=
  (readBytes k bs).map (fun p => (Value.num (Int.ofNat (ofBE p.1)), p.2))

/-- Parse the body of a `k`-byte two's-complement signed integer. -/
def parseSIntBody (k : Nat) (bs : List Nat) : Option (Value × List Nat) :=
  (readBytes k bs).map (fun p =>
    let n := ofBE p.1
    (Value.num (if n < 2 ^ (8 * k - 1) then (n : Int) else (n : Int) - 2 ^ (8 * k)), p.2))

/-- Parse an `n`-byte str payload (must be valid UTF-8). -/
def parseStrBody (n : Nat) (bs : List Nat) : Option (Value × List Nat) :=
  match readBytes n bs with
  | some (sb, rest) =>
    match utf8Decode sb with
    | some cs => some (Value.str (String.mk cs), rest)
    | none => none
  | none => none

/-- Parse an `n`-byte bin payload. -/
def parseBinBody (n : Nat) (bs : List Nat) : Option (Value × List Nat) :=
  (readBytes n bs).map (fun p => (Value.bytes p.1, p.2))

/-- Parse `n` consecutive values (an array body), each with the given
element parser. -/
def parseListWith (p : List Nat → Option (Value × List Nat)) :
    Nat → List Nat → Option (List Value × List Nat)
  | 0, bs => some ([], bs)
  | Nat.succ n, bs =>
    match p bs with
    | some (v, rest) =>
      match parseListWith p n rest with
      | some (vs, rest1) => some (v :: vs, rest1)
      | none => none
    | none => none

/-- Parse `n` consecutive string-keyed pairs (a map body).  Map keys
must be strings (the message types deserialize maps into
`HashMap<String, _>` / named struct fields). -/
def parseKVsWith (p : List Nat → Option (Value × List Nat)) :
    Nat → List Nat → Option (List (String × Value) × List Nat)
  | 0, bs => some ([], bs)
  | Nat.succ n, bs =>
    match p bs with
    | some (Value.str k, rest) =>
      match p rest with
      | some (v, rest1) =>
        match parseKVsWith p n rest1 with
        | some (kvs, rest2) => some ((k, v) :: kvs, rest2)
        | none => none
      | none => none
    | some _ => none
    | none => none

set_option maxRecDepth 4000 in
/-- One MessagePack value, as `rmp_serde::from_read` reads it while
buffering serde `Content` for the untagged deserializer.  `fuel` bounds
the nesting depth; `parseMp (bytes.length + 1) bytes` never exhausts it
because every nesting level consumes at least one header byte.  Floats
(0xCA/0xCB) and ext types are outside the model. -/
def parseMp : Nat → List Nat → Option (Value × List Nat)
  | 0, _ => none
  | Nat.succ _, [] => none
  | Nat.succ fuel, b :: bs =>
    if b < 128 then some (Value.num (Int.ofNat b), bs)
    else if b < 144 then
      (parseKVsWith (parseMp fuel) (b - 128) bs).map (fun p => (Value.obj p.1, p.2))
    else if b < 160 then
      (parseListWith (parseMp fuel) (b - 144) bs).map (fun p => (Value.arr p.1, p.2))
    else if b < 192 then parseStrBody (b - 160) bs
    else if b = 192 then some (Value.null, bs)
    else if b = 194 then some (Value.bool false, bs)
    else if b = 195 then some (Value.bool true, bs)
    else if b = 196 then
      match readLen 1 bs with
      | some (n, rest) => parseBinBody n rest
      | none => none
    else if b = 197 then
      match readLen 2 bs with
      | some (n, rest) => parseBinBody n rest
      | none => none
    else if b = 198 then
      match readLen 4 bs with
      | some (n, rest) => parseBinBody n rest
      | none => none
    else if b = 204 then parseUIntBody 1 bs
    else if b = 205 then parseUIntBody 2 bs
    else if b = 206 then parseUIntBody 4 bs
    else if b = 207 then parseUIntBody 8 bs
    else if b = 208 then parseSIntBody 1 bs
    else if b = 209 then parseSIntBody 2 bs
    else if b = 210 then parseSIntBody 4 bs
    else if b = 211 then parseSIntBody 8 bs
    else if b = 217 then
      match readLen 1 bs with
      | some (n, rest) => parseStrBody n rest
      | none => none
    else if b = 218 then
      match readLen 2 bs with
      | some (n, rest) => parseStrBody n rest
      | none => none
    else if b = 219 then
      match readLen 4 bs with
      | some (n, rest) => parseStrBody n rest
      | none => none
    else if b = 220 then
      match readLen 2 bs with
      | some (n, rest) =>
        (parseListWith (parseMp fuel) n rest).map (fun p => (Value.arr p.1, p.2))
      | none => none
    else if b = 221 then
      match readLen 4 bs with
      | some (n, rest) =>
        (parseListWith (parseMp fuel) n rest).map (fun p => (Value.arr p.1, p.2))
      | none => none
    else if b = 222 then
      match readLen 2 bs with
      | some (n, rest) =>
        (parseKVsWith (parseMp fuel) n rest).map (fun p => (Value.obj p.1, p.2))
      | none => none
    else if b = 223 then
      match readLen 4 bs with
      | some (n, rest) =>
        (parseKVsWith (parseMp fuel) n rest).map (fun p => (Value.obj p.1, p.2))
      | none => none
    else if 224 <= b ∧ b < 256 then some (Value.num ((b : Int) - 256), bs)
    else none

/-- Whether a buffered element deserializes as one byte of a
`serde_bytes::ByteBuf` (an integer in 0..=255). -/
def isByteNum : Value → Bool
  | Value.num n => decide (0 ≤ n ∧ n < 256)
  | _ => false

/-- The byte value of such an element. -/
def byteOfNum : Value → Nat
  | Value.num n => n.toNat
  | _ => 0

mutual

/-- The untagged deserialization of the repo's `Value` enum from the
buffered MessagePack content.  Serde tries the variants in declaration
order (Null, Bool, Number, String, Bytes, Array, Object); crucially
`Bytes(ByteBuf)` is tried BEFORE `Array`, and serde's
`ContentDeserializer` feeds a buffered sequence to
`deserialize_byte_buf`, whose `serde_bytes` visitor accepts any
sequence of integers in 0..=255 (including the empty sequence).  So an
array whose elements are all byte-ranged integers becomes
`Value::Bytes`, and only other arrays become `Value::Array`. -/
def untagValue : Value → Value
  | Value.null => Value.null
  | Value.bool b => Value.bool b
  | Value.num n => Value.num n
  | Value.str s => Value.str s
  | Value.bytes bs => Value.bytes bs
  | Value.arr xs =>
    if xs.all isByteNum then Value.bytes (xs.map byteOfNum)
    else Value.arr (untagList xs)
  | Value.obj kvs => Value.obj (untagKVs kvs)

def untagList : List Value → List Value
  | [] => []
  | x :: xs => untagValue x :: untagList xs

def untagKVs : List (String × Value) → List (String × Value)
  | [] => []
  | (k, v) :: kvs => (k, untagValue v) :: untagKVs kvs

end

/-- Rust `String` ordering: lexicographic byte order, which on UTF-8
equals lexicographic scalar-value order. -/
def charsLt : List Char → List Char → Bool
  | [], [] => false
  | [], _ :: _ => true
  | _ :: _, [] => false
  | a :: as, b :: bs =>
    if a.toNat < b.toNat then true
    else if b.toNat < a.toNat then false
    else charsLt as bs

def strLt (s t : String) : Bool := charsLt s.data t.data

/-- `BTreeMap::insert` into a key-sorted association list: replaces the
value at an equal key. -/
def insertKV (k : String) (v : Value) : List (String × Value) → List (String × Value)
  | [] => [(k, v)]
  | (k', v') :: rest =>
    if strLt k k' then (k, v) :: (k', v') :: rest
    else if k = k' then (k, v) :: rest
    else (k', v') :: insertKV k v rest

/-- Collect entries into a `serde_json::Map` (a `BTreeMap`: key-sorted,
later inserts replacing earlier ones). -/
def sortKVs (kvs : List (String × Value)) : List (String × Value) :=
  kvs.foldl (fun acc kv => insertKV kv.1 kv.2 acc) []

mutual

/-- `serde_json::to_value` of a repo `Value`: `serde_bytes::ByteBuf`
has no JSON form, so serde_json serializes it as an array of integers;
maps become `serde_json::Map` (sorted). -/
def toJson : Value → Value
  | Value.null => Value.null
  | Value.bool b => Value.bool b
  | Value.num n => Value.num n
  | Value.str s => Value.str s
  | Value.bytes bs => Value.arr (bs.map (fun b => Value.num (Int.ofNat b)))
  | Value.arr xs => Value.arr (toJsonList xs)
  | Value.obj kvs => Value.obj (sortKVs (toJsonKVs kvs))

def toJsonList : List Value → List Value
  | [] => []
  | x :: xs => toJson x :: toJsonList xs

def toJsonKVs : List (String × Value) → List (String × Value)
  | [] => []
  | (k, v) :: kvs => (k, toJson v) :: toJsonKVs kvs

end

/-- `serde_json::to_value` of a `Request` (src/message/mod.rs, lines
19-25): fields `cmd`, `req_id`, and `params` unless it is the default
(`Value::Null`, skipped by `skip_serializing_if = "is_default"`),
collected into a sorted `serde_json::Map`. -/
def requestToJson (q : Request) : Value :=
  if q.params = Value.null then
    Value.obj (sortKVs [("cmd", Value.str q.cmd),
                        ("req_id", Value.num (Int.ofNat q.req_id))])
  else
    Value.obj (sortKVs [("cmd", Value.str q.cmd),
                        ("req_id", Value.num (Int.ofNat q.req_id)),
                        ("params", toJson q.params)])

/-- `serde_json::to_value` of a `Response` (src/message/mod.rs, lines
11-17): fields `cmd` and `to` plus the `#[serde(flatten)]` body, whose
entries become siblings.  Serde can only flatten maps: a non-map body
makes serialization fail. -/
def responseToJson (r : Response) : Option Value :=
  match toJson r.response with
  | Value.obj kvs =>
    some (Value.obj (sortKVs (("cmd", Value.str r.cmd) ::
      ("to", Value.num (Int.ofNat r.toId)) :: kvs)))
  | _ => none

/-- `serde_json::to_value` of an untagged `ZeroMessage`. -/
def ZeroMessage.toJsonValue : ZeroMessage → Option Value
  | ZeroMessage.request q => some (requestToJson q)
  | ZeroMessage.response r => responseToJson r

/-- The full encoding path of the send worker
(src/async_connection.rs, lines 56-73): `serde_json::to_value`, then
`rmp_serde::encode::write_named` of the resulting JSON value. -/
def encodeZeroMessage (m : ZeroMessage) : Except Err (List Nat) :=
  match ZeroMessage.toJsonValue m with
  | some j => Except.ok (encodeValue j)
  | none => Except.error Err.encodeError

/-- First value stored under a key in a decoded wire map. -/
def lookupKV (kvs : List (String × Value)) (k : String) : Option Value :=
  match kvs with
  | [] => none
  | (k', v) :: rest => if k' = k then some v else lookupKV rest k

/-- Drop every entry with the given key. -/
def removeKV (kvs : List (String × Value)) (k : String) : List (String × Value) :=
  kvs.filter (fun kv => kv.1 ≠ k)

/-- Deserialize a `usize` field from buffered content. -/
def asU64 : Option Value → Option Nat
  | some (Value.num n) =>
    if 0 ≤ n ∧ n < 18446744073709551616 then some n.toNat else none
  | _ => none

/-- Deserialize a `String` field from buffered content. -/
def asStr : Option Value → Option String
  | some (Value.str s) => some s
  | _ => none

/-- Try the `Response` variant: requires a string `cmd` and an unsigned
`to`; all remaining keys are collected by the `flatten` field into the
(untagged) `response` value, a map. -/
def tryResponse (kvs : List (String × Value)) : Option Response :=
  match asStr (lookupKV kvs "cmd"), asU64 (lookupKV kvs "to") with
  | some cmd, some t =>
    some ⟨cmd, t, untagValue (Value.obj (removeKV (removeKV kvs "cmd") "to"))⟩
  | _, _ => none

/-- Try the `Request` variant: requires a string `cmd` and an unsigned
`req_id`; `params` defaults to `Value::Null` when absent; unknown keys
are ignored. -/
def tryRequest (kvs : List (String × Value)) : Option Request :=
  match asStr (lookupKV kvs "cmd"), asU64 (lookupKV kvs "req_id") with
  | some cmd, some rid =>
    match lookupKV kvs "params" with
    | some p => some ⟨cmd, rid, untagValue p⟩
    | none => some ⟨cmd, rid, Value.null⟩
  | _, _ => none

/-- The untagged `ZeroMessage` deserializer: `Response` is tried first,
then `Request`; a non-map value fits neither. -/
def interpretMessage : Value → Option ZeroMessage
  | Value.obj kvs =>
    match tryResponse kvs with
    | some r => some (ZeroMessage.response r)
    | none => (tryRequest kvs).map ZeroMessage.request
  | _ => none

/-- `rmp_serde::from_read::<ZeroMessage>` on a byte stream: read one
MessagePack value and interpret it. -/
def decodeZeroMessage (bytes : List Nat) : Option ZeroMessage :=
  match parseMp (bytes.length + 1) bytes with
  | some (v, _) => interpretMessage v
  | none => none

/-- `rmp_serde::to_vec(&bytes)` for `bytes: Vec<u8>`: serde has no u8
specialization for plain vectors, so it is a MessagePack array of
integers. -/
def serializeVecU8 (bs : List Nat) : List Nat :=
  arrHeader bs.length ++ (bs.map encodeUInt).flatten

/-- `rmp_serde::to_vec(&ByteBuf::from(bytes))`: the byte-buffer type
serializes as MessagePack `bin`. -/
def serializeByteBuf (bs : List Nat) : List Nat :=
  binHeader bs.length ++ bs

/-- `rmp_serde::to_vec(&serde_json::to_value(&bytes))`: the
JSON-equivalent indirection used by the send path. -/
def serializeJsonEquiv (bs : List Nat) : List Nat :=
  encodeValue (toJson (Value.bytes bs))


/-- Strictly ascending (hence distinct) keys, the canonical shape a
`BTreeMap`-backed `serde_json::Map` produces and the shape under which
a `HashMap` equals its own re-collection. -/
def keysStrictSorted : List (String × Value) → Bool
  | [] => true
  | kv :: rest => rest.all (fun kv2 => strLt kv.1 kv2.1) && keysStrictSorted rest

mutual

/-- The representability bounds under which a value survives the wire:
integers within the serde_json i64/u64 range, str/bin/array/map sizes
within their 32-bit headers. -/
def wireOk : Value → Bool
  | Value.null => true
  | Value.bool _ => true
  | Value.num n => decide (-(2 : Int) ^ 63 ≤ n) && decide (n < 2 ^ 64)
  | Value.str s => decide ((strBytes s).length < 2 ^ 32)
  | Value.bytes bs => decide (bs.length < 2 ^ 32)
  | Value.arr xs => decide (xs.length < 2 ^ 32) && wireOkList xs
  | Value.obj kvs => decide (kvs.length < 2 ^ 32) && wireOkKVs kvs

def wireOkList : List Value → Bool
  | [] => true
  | x :: xs => wireOk x && wireOkList xs

def wireOkKVs : List (String × Value) → Bool
  | [] => true
  | (k, v) :: kvs =>
    decide ((strBytes k).length < 2 ^ 32) && (wireOk v && wireOkKVs kvs)

end

mutual

/-- The payloads on which the encoding path round-trips: wire bounds,
byte-string elements in 0..=255, maps canonical (strictly sorted
distinct keys, the shape produced by `serde_json::Map` and under which
a rebuilt `HashMap` compares equal), and no array whose elements are
all integers in 0..=255 — the untagged decoder turns those (including
the empty array) into byte strings. -/
def normalValue : Value → Bool
  | Value.null => true
  | Value.bool _ => true
  | Value.num n => decide (-(2 : Int) ^ 63 ≤ n) && decide (n < 2 ^ 64)
  | Value.str s => decide ((strBytes s).length < 2 ^ 32)
  | Value.bytes bs => bs.all (fun b => decide (b < 256)) && decide (bs.length < 2 ^ 32)
  | Value.arr xs => !(xs.all isByteNum) && (decide (xs.length < 2 ^ 32) && normalList xs)
  | Value.obj kvs => keysStrictSorted kvs && (decide (kvs.length < 2 ^ 32) && normalKVs kvs)

def normalList : List Value → Bool
  | [] => true
  | x :: xs => normalValue x && normalList xs

def normalKVs : List (String × Value) → Bool
  | [] => true
  | (k, v) :: kvs =>
    decide ((strBytes k).length < 2 ^ 32) && (normalValue v && normalKVs kvs)

end

/-- The messages on which `decode (encode m) = m`: normal payloads,
ids within `u64`, and (for responses, whose body is flattened) a map
body whose keys avoid the struct keys `cmd` and `to`. -/
def normalMessage : ZeroMessage → Bool
  | ZeroMessage.request q =>
    decide ((strBytes q.cmd).length < 2 ^ 32) &&
      (decide (q.req_id < 2 ^ 64) && normalValue q.params)
  | ZeroMessage.response r =>
    match r.response with
    | Value.obj kvs =>
      decide ((strBytes r.cmd).length < 2 ^ 32) &&
        (decide (r.toId < 2 ^ 64) &&
          (decide (kvs.length + 2 < 2 ^ 32) &&
            (normalValue (Value.obj kvs) &&
              kvs.all (fun kv => !(kv.1 == "cmd") && !(kv.1 == "to")))))
    | _ => false


/-! ### Peer addresses (src/address.rs)

`PeerAddr` (src/address.rs, lines 137-149) with the variants compiled
under the `tor` and `i2p` features (the `loki` variant has no packed
form: `pack` is `unimplemented!`).  IPs are octet lists, ports are
`u16` values, overlay labels are the stored `String`s.  The base32
codec is the `koibumi_base32` crate, specified as the lowercase
RFC 4648 alphabet without padding; `SocketAddr` formatting and parsing
follow the standard library (dotted quads; bracketed IPv6 with `::`
compression, `::`/`::1`/IPv4-mapped special cases; `host:port`). -/

inductive PeerAddr where
  | IPV4 : List Nat → Nat → PeerAddr
  | IPV6 : List Nat → Nat → PeerAddr
  | OnionV2 : String → Nat → PeerAddr
  | OnionV3 : String → Nat → PeerAddr
  | I2PB32 : String → Nat → PeerAddr
deriving DecidableEq

/-- Bits of a byte, most significant first. -/
def byteBits (b : Nat) : List Bool :=
  [decide (b / 128 % 2 = 1), decide (b / 64 % 2 = 1), decide (b / 32 % 2 = 1),
   decide (b / 16 % 2 = 1), decide (b / 8 % 2 = 1), decide (b / 4 % 2 = 1),
   decide (b / 2 % 2 = 1), decide (b % 2 = 1)]

def bytesToBits : List Nat → List Bool
  | [] => []
  | b :: rest => byteBits b ++ bytesToBits rest

def bitVal (b : Bool) : Nat := if b then 1 else 0

/-- Group a bit string into 5-bit values, most significant first;
a trailing group of fewer than five bits is dropped. -/
def chunk5 : List Bool → List Nat
  | a :: b :: c :: d :: e :: rest =>
    (16 * bitVal a + 8 * bitVal b + 4 * bitVal c + 2 * bitVal d + bitVal e) ::
      chunk5 rest
  | _ => []

/-- Reassemble bytes from bits, most significant first; a trailing
group of fewer than eight bits is dropped. -/
def bitsToBytes : List Bool → List Nat
  | a :: b :: c :: d :: e :: f :: g :: h :: rest =>
    (128 * bitVal a + 64 * bitVal b + 32 * bitVal c + 16 * bitVal d +
      8 * bitVal e + 4 * bitVal f + 2 * bitVal g + bitVal h) :: bitsToBytes rest
  | _ => []

def bits5 (v : Nat) : List Bool :=
  [decide (v / 16 % 2 = 1), decide (v / 8 % 2 = 1), decide (v / 4 % 2 = 1),
   decide (v / 2 % 2 = 1), decide (v % 2 = 1)]

/-- The lowercase RFC 4648 base32 alphabet. -/
def b32Char (v : Nat) : Char := "abcdefghijklmnopqrstuvwxyz234567".data.getD v 'a'

/-- Value of a base32 character; the decoder accepts lowercase only. -/
def b32Val (c : Char) : Option Nat :=
  if 97 ≤ c.toNat ∧ c.toNat ≤ 122 then some (c.toNat - 97)
  else if 50 ≤ c.toNat ∧ c.toNat ≤ 55 then some (c.toNat - 50 + 26)
  else none

/-- `koibumi_base32::encode`: 5-bit groups of the byte string, zero
padded on the right to a whole group, no `=` padding. -/
def base32Encode (bs : List Nat) : String :=
  let bits := bytesToBits bs
  let padded := bits ++ List.replicate ((5 - bits.length % 5) % 5) false
  ⟨(chunk5 padded).map b32Char⟩

def b32Vals : List Char → Option (List Nat)
  | [] => some []
  | c :: cs =>
    match b32Val c with
    | some v => (b32Vals cs).map (v :: ·)
    | none => none

/-- `koibumi_base32::decode`: each character contributes five bits; a
trailing partial byte is dropped. -/
def base32Decode (s : String) : Option (List Nat) :=
  (b32Vals s.data).map (fun vs => bitsToBytes (vs.map bits5).flatten)

/-- ASCII lowercasing, as `str::to_lowercase` acts on ASCII labels. -/
def toLowerChar (c : Char) : Char :=
  if 65 ≤ c.toNat ∧ c.toNat ≤ 90 then Char.ofNat (c.toNat + 32) else c

def strToLower (s : String) : String := ⟨s.data.map toLowerChar⟩

/-- `u16::to_le_bytes`. -/
def lePort (p : Nat) : List Nat := [p % 256, p / 256 % 256]

/-- `PeerAddr::pack` (src/address.rs, lines 305-347): IPs append the
little-endian port to the octets; overlay labels are lowercased and
base32-decoded (`none` models the `unwrap` panic on invalid base32). -/
def PeerAddr.pack : PeerAddr → Option (List Nat)
  | PeerAddr.IPV4 oct port => some (oct ++ lePort port)
  | PeerAddr.IPV6 oct port => some (oct ++ lePort port)
  | PeerAddr.OnionV2 s port => (base32Decode (strToLower s)).map (· ++ lePort port)
  | PeerAddr.OnionV3 s port => (base32Decode (strToLower s)).map (· ++ lePort port)
  | PeerAddr.I2PB32 s port => (base32Decode (strToLower s)).map (· ++ lePort port)

/-- `PeerAddr::unpack` (src/address.rs, lines 250-294): dispatch on
the byte count; overlay bodies are base32-encoded back to a label. -/
def PeerAddr.unpack (bytes : List Nat) : Option PeerAddr :=
  match bytes.length with
  | 6 => some (PeerAddr.IPV4 (bytes.take 4) (bytes.getD 4 0 + 256 * bytes.getD 5 0))
  | 18 => some (PeerAddr.IPV6 (bytes.take 16) (bytes.getD 16 0 + 256 * bytes.getD 17 0))
  | 12 => some (PeerAddr.OnionV2 (base32Encode (bytes.take 10))
      (bytes.getD 10 0 + 256 * bytes.getD 11 0))
  | 34 => some (PeerAddr.I2PB32 (base32Encode (bytes.take 32))
      (bytes.getD 32 0 + 256 * bytes.getD 33 0))
  | 37 => some (PeerAddr.OnionV3 (base32Encode (bytes.take 35))
      (bytes.getD 35 0 + 256 * bytes.getD 36 0))
  | _ => none

/-- Decimal digit character. -/
def decChar (d : Nat) : Char := Char.ofNat (48 + d)

/-- Lowercase hexadecimal digit character, as `{:x}` prints. -/
def hexChar (d : Nat) : Char :=
  if d < 10 then Char.ofNat (48 + d) else Char.ofNat (87 + d)

/-- Digit characters of `n`, most significant first; the fuel bounds
the recursion and `n + 1` is always enough. -/
def digitsAux (radix : Nat) (dchar : Nat → Char) : Nat → Nat → List Char
  | 0, _ => []
  | f + 1, n =>
    if n < radix then [dchar n]
    else digitsAux radix dchar f (n / radix) ++ [dchar (n % radix)]

def decStr (n : Nat) : List Char := digitsAux 10 decChar (n + 1) n

def hexStr (n : Nat) : List Char := digitsAux 16 hexChar (n + 1) n

/-- Digit values of `n`, most significant first (the value list
`digitsAux` renders). -/
def natDigits (radix : Nat) : Nat → Nat → List Nat
  | 0, _ => []
  | f + 1, n =>
    if n < radix then [n]
    else natDigits radix f (n / radix) ++ [n % radix]

/-- `char::to_digit`. -/
def digitVal (radix : Nat) (c : Char) : Option Nat :=
  let v :=
    if 48 ≤ c.toNat ∧ c.toNat ≤ 57 then some (c.toNat - 48)
    else if 97 ≤ c.toNat ∧ c.toNat ≤ 122 then some (c.toNat - 87)
    else if 65 ≤ c.toNat ∧ c.toNat ≤ 90 then some (c.toNat - 55)
    else none
  match v with
  | some d => if d < radix then some d else none
  | none => none

/-- Consume the leading digits of a character stream. -/
def takeDigits (radix : Nat) : List Char → List Nat × List Char
  | [] => ([], [])
  | c :: cs =>
    match digitVal radix c with
    | some d =>
      let p := takeDigits radix cs
      (d :: p.1, p.2)
    | none => ([], c :: cs)

/-- `Parser::read_number` of the standard library address parser: all
consecutive digits are consumed; no digits, more than `maxDigits`
digits, a forbidden leading zero, or overflow of the target integer
type (whose maximum is `maxVal`) fail. -/
def readNumber (radix : Nat) (maxDigits : Option Nat) (maxVal : Nat)
    (allowZeroPrefix : Bool) (cs : List Char) : Option (Nat × List Char) :=
  match takeDigits radix cs with
  | (ds, rest) =>
    if ds.length = 0 then none
    else if (match maxDigits with
             | some m => decide (m < ds.length)
             | none => false) then none
    else if !allowZeroPrefix && (ds.headD 0 == 0 && decide (1 < ds.length)) then none
    else if maxVal < ds.foldl (fun a d => a * radix + d) 0 then none
    else some (ds.foldl (fun a d => a * radix + d) 0, rest)

/-- `Parser::read_given_char`. -/
def expectChar (c : Char) (cs : List Char) : Option (List Char) :=
  match cs with
  | x :: r => if x = c then some r else none
  | [] => none

/-- `Parser::read_ipv4_addr`: four dot-separated decimal octets, at
most three digits each, no leading zeros. -/
def readIpv4 (cs : List Char) : Option (List Nat × List Char) :=
  (readNumber 10 (some 3) 255 false cs).bind fun p1 =>
    (expectChar '.' p1.2).bind fun r1 =>
      (readNumber 10 (some 3) 255 false r1).bind fun p2 =>
        (expectChar '.' p2.2).bind fun r2 =>
          (readNumber 10 (some 3) 255 false r2).bind fun p3 =>
            (expectChar '.' p3.2).bind fun r3 =>
              (readNumber 10 (some 3) 255 false r3).map fun p4 =>
                ([p1.1, p2.1, p3.1, p4.1], p4.2)

/-- One step of `read_ipv6_addr`'s `read_groups` loop: with `rem + 1`
slots left, first try a trailing embedded IPv4 address (only when at
least two slots remain), then a hexadecimal group of at most four
digits; every group but the first is preceded by `:`; reads are
atomic, failure leaves the stream as it was. -/
def sepRead (first : Bool) (cs : List Char) : Option (List Char) :=
  if first then some cs else expectChar ':' cs

def readGroupsAux : Nat → Bool → List Char → List Nat × Bool × List Char
  | 0, _, cs => ([], false, cs)
  | rem + 1, first, cs =>
    match (if 1 ≤ rem then (sepRead first cs).bind readIpv4 else none) with
    | some (oct, rest) =>
      ([256 * oct.getD 0 0 + oct.getD 1 0, 256 * oct.getD 2 0 + oct.getD 3 0],
        true, rest)
    | none =>
      match (sepRead first cs).bind (readNumber 16 (some 4) 65535 true) with
      | some (g, rest) =>
        match readGroupsAux rem false rest with
        | (gs, usedIpv4, rest2) => (g :: gs, usedIpv4, rest2)
      | none => ([], false, cs)

/-- `Parser::read_ipv6_addr`: up to eight groups, then an optional
`::` filling the remainder with zero groups. -/
def readIpv6 (cs : List Char) : Option (List Nat × List Char) :=
  let h := readGroupsAux 8 true cs
  if h.1.length = 8 then some (h.1, h.2.2)
  else if h.2.1 then none
  else
    match (expectChar ':' h.2.2).bind (expectChar ':') with
    | some r2 =>
      let t := readGroupsAux (8 - (h.1.length + 1)) true r2
      some (h.1 ++ List.replicate (8 - h.1.length - t.1.length) 0 ++ t.1, t.2.2)
    | none => none

/-- 16-bit segments of an IPv6 byte string, big endian. -/
def segsOfBytes : List Nat → List Nat
  | b0 :: b1 :: rest => (256 * b0 + b1) :: segsOfBytes rest
  | _ => []

def segsToBytes : List Nat → List Nat
  | [] => []
  | s :: rest => s / 256 :: s % 256 :: segsToBytes rest

/-- `FromStr` for `SocketAddr`: a V4 `ip:port`, else a V6
`[ip]:port` (with an optional `%scope`), consuming the whole string. -/
def parseSocketAddr (cs : List Char) : Option PeerAddr :=
  match readIpv4 cs with
  | some (oct, r1) =>
    (expectChar ':' r1).bind fun r2 =>
      (readNumber 10 none 65535 true r2).bind fun p =>
        if p.2 = [] then some (PeerAddr.IPV4 oct p.1) else none
  | none =>
    (expectChar '[' cs).bind fun r1 =>
      (readIpv6 r1).bind fun q =>
        let afterScope : Option (List Char) :=
          if q.2.headD ' ' = '%' then
            (readNumber 10 none 4294967295 true q.2.tail).map (·.2)
          else some q.2
        afterScope.bind fun r2 =>
          (expectChar ']' r2).bind fun r3 =>
            (expectChar ':' r3).bind fun r4 =>
              (readNumber 10 none 65535 true r4).bind fun p =>
                if p.2 = [] then some (PeerAddr.IPV6 (segsToBytes q.1) p.1) else none

/-- Dotted-quad rendering of four octets. -/
def fmtIpv4 (oct : List Nat) : List Char :=
  decStr (oct.getD 0 0) ++ '.' :: decStr (oct.getD 1 0) ++ '.' ::
    decStr (oct.getD 2 0) ++ '.' :: decStr (oct.getD 3 0)

/-- Groups joined with `:` in lowercase hex. -/
def fmtSubslice : List Nat → List Char
  | [] => []
  | [g] => hexStr g
  | g :: rest => hexStr g ++ ':' :: fmtSubslice rest

/-- First-longest run of zero segments, as the `Display`
implementation for `Ipv6Addr` computes it. -/
def zeroRunAux : List Nat → Nat → Nat × Nat → Nat × Nat → Nat × Nat
  | [], _, longest, _ => longest
  | s :: rest, i, (ls, ll), (cs, cl) =>
    if s = 0 then
      let cs2 := if cl = 0 then i else cs
      let cl2 := cl + 1
      if ll < cl2 then zeroRunAux rest (i + 1) (cs2, cl2) (cs2, cl2)
      else zeroRunAux rest (i + 1) (ls, ll) (cs2, cl2)
    else zeroRunAux rest (i + 1) (ls, ll) (0, 0)

def zeroRun (segs : List Nat) : Nat × Nat := zeroRunAux segs 0 (0, 0) (0, 0)

/-- `Display` for `Ipv6Addr`: `::`, `::1` and IPv4-mapped addresses
are special-cased; otherwise a zero run of length at least two is
compressed to `::`. -/
def fmtIpv6 (segs : List Nat) : List Char :=
  if segs = [0, 0, 0, 0, 0, 0, 0, 0] then [':', ':']
  else if segs = [0, 0, 0, 0, 0, 0, 0, 1] then [':', ':', '1']
  else if segs.take 6 = [0, 0, 0, 0, 0, 65535] then
    ':' :: ':' :: 'f' :: 'f' :: 'f' :: 'f' :: ':' ::
      fmtIpv4 [segs.getD 6 0 / 256, segs.getD 6 0 % 256,
        segs.getD 7 0 / 256, segs.getD 7 0 % 256]
  else if 1 < (zeroRun segs).2 then
    fmtSubslice (segs.take (zeroRun segs).1) ++ ':' :: ':' ::
      fmtSubslice (segs.drop ((zeroRun segs).1 + (zeroRun segs).2))
  else fmtSubslice segs

/-- `PeerAddr::to_string` (src/address.rs, lines 356-375). -/
def PeerAddr.toStr : PeerAddr → List Char
  | PeerAddr.IPV4 oct port => fmtIpv4 oct ++ ':' :: decStr port
  | PeerAddr.IPV6 oct port =>
    '[' :: fmtIpv6 (segsOfBytes oct) ++ ']' :: ':' :: decStr port
  | PeerAddr.OnionV2 s port => s.data ++ ".onion:".data ++ decStr port
  | PeerAddr.OnionV3 s port => s.data ++ ".onion:".data ++ decStr port
  | PeerAddr.I2PB32 s port => s.data ++ ".b32.i2p:".data ++ decStr port

/-- Rust `str::split(':')`. -/
def splitColon : List Char → List (List Char)
  | [] => [[]]
  | c :: rest =>
    let ps := splitColon rest
    if c = ':' then [] :: ps
    else (c :: ps.headD []) :: ps.tail

/-- `str::strip_suffix`. -/
def stripSfx (l suf : List Char) : Option (List Char) :=
  if suf.isSuffixOf l then some (l.take (l.length - suf.length)) else none

/-- `u16::from_str`: an optional `+` sign, then decimal digits,
rejecting overflow. -/
def rustParseU16 (cs : List Char) : Option Nat :=
  match takeDigits 10 (if cs.headD ' ' = '+' then cs.tail else cs) with
  | (ds, rest) =>
    if ds.length = 0 then none
    else if rest = [] then
      if 65535 < ds.foldl (fun a d => a * 10 + d) 0 then none
      else some (ds.foldl (fun a d => a * 10 + d) 0)
    else none

/-- `PeerAddr::parse` (src/address.rs, lines 207-240): a parseable
`SocketAddr` wins; otherwise split on `:`, parse `parts[1]` as the
port, and match the suffix of `parts[0]` (`.onion` labels must have
length 16 or 56). -/
def PeerAddr.parse (cs : List Char) : Option PeerAddr :=
  match parseSocketAddr cs with
  | some a => some a
  | none =>
    match (splitColon cs).get? 1 with
    | none => none
    | some portStr =>
      match rustParseU16 portStr with
      | none => none
      | some port =>
        let host := (splitColon cs).headD []
        match stripSfx host ".onion".data with
        | some label =>
          if label.length = 16 then some (PeerAddr.OnionV2 ⟨label⟩ port)
          else if label.length = 56 then some (PeerAddr.OnionV3 ⟨label⟩ port)
          else none
        | none =>
          match stripSfx host ".b32.i2p".data with
          | some label => some (PeerAddr.I2PB32 ⟨label⟩ port)
          | none => none

/-- Base32 alphabet membership, in either case (the character data of
stored overlay labels). -/
def isB32Char (c : Char) : Bool :=
  (decide (97 ≤ c.toNat) && decide (c.toNat ≤ 122)) ||
    ((decide (65 ≤ c.toNat) && decide (c.toNat ≤ 90)) ||
      (decide (50 ≤ c.toNat) && decide (c.toNat ≤ 55)))

/-- Structurally valid addresses: octet lists of the right length and
range, ports within `u16`, overlay labels over the base32 alphabet
with the length their variant requires. -/
def validAddr : PeerAddr → Bool
  | PeerAddr.IPV4 oct port =>
    decide (oct.length = 4) && (oct.all (fun b => decide (b < 256)) &&
      decide (port < 65536))
  | PeerAddr.IPV6 oct port =>
    decide (oct.length = 16) && (oct.all (fun b => decide (b < 256)) &&
      decide (port < 65536))
  | PeerAddr.OnionV2 s port =>
    s.data.all isB32Char && (decide (s.data.length = 16) && decide (port < 65536))
  | PeerAddr.OnionV3 s port =>
    s.data.all isB32Char && (decide (s.data.length = 56) && decide (port < 65536))
  | PeerAddr.I2PB32 s port => s.data.all isB32Char && decide (port < 65536)

/-- A label in the canonical (lowercase) image of the base32 encoder
for an `n`-byte body: exactly the labels `unpack` itself produces. -/
def canonicalLabel (s : String) (n : Nat) : Bool :=
  match base32Decode s with
  | some bs => decide (bs.length = n) && decide (base32Encode bs = s)
  | none => false

/-- Addresses whose packed form unpacks back to them: clearnet
addresses, and overlay addresses with a canonical label. -/
def canonicalAddr : PeerAddr → Bool
  | PeerAddr.IPV4 _ _ => true
  | PeerAddr.IPV6 _ _ => true
  | PeerAddr.OnionV2 s _ => canonicalLabel s 10
  | PeerAddr.OnionV3 s _ => canonicalLabel s 35
  | PeerAddr.I2PB32 s _ => canonicalLabel s 32

/-! ## Theorems -/

/-- Helper: `removeKey` finds nothing on the empty map. -/
theorem removeKey_nil {M K : Type} [DecidableEq K] (k : K) :
    removeKey (M := M) k [] = none := rfl

/-- C1: the claim asserts that a response whose `to` id has no pending
entry is enqueued onto the inbox and dispatch completes normally.  On
the code, `recv` runs `requests.remove(&to).unwrap()`
(src/async_connection.rs, line 190), so dispatch of a response with no
pending entry panics (modelled as `none`): at the concrete input below
(empty pending map, response with `to == 0`) dispatch does not complete
at all, and in particular nothing is enqueued. -/
theorem c1_counterexample :
    dispatch (⟨[], [], [], false⟩ : ConnState ZeroMessage Nat) 7
      (ZeroMessage.response ⟨"response", 0, Value.obj []⟩) = none := rfl

/-- C1 (amended): whenever a decoded incoming message `r` has
`to() == Some(k)`, then if the pending-request map contains an entry
for `k`, that entry is removed and `r` is delivered to it (its waker,
if any, is woken, and the inbox is untouched); otherwise (no pending
entry for `k`) the dispatch panics on the `unwrap` of
`requests.remove(&to)` — the message is NOT enqueued. -/
theorem dispatch_response_delivery {M K : Type} [Requestable M K] [DecidableEq K]
    (st : ConnState M K) (cw : Nat) (r : M) (k : K)
    (h : Requestable.toId (K := K) r = some k) :
    (removeKey k st.requests = none → dispatch st cw r = none) ∧
    (∀ slot rest, removeKey k st.requests = some (slot, rest) →
      dispatch st cw r =
        some ({ st with requests := rest }, [(k, Except.ok r)],
          match slot.waker with
          | some w => [w]
          | none => [])) := by
  constructor
  · intro hrm
    simp only [dispatch, h, hrm]
  · intro slot rest hrm
    simp only [dispatch, h, hrm]

/-- Witness for `dispatch_response_delivery` at a concrete state with a
pending entry for key 5 whose waker is 3. -/
theorem dispatch_response_delivery_witness :
    dispatch (⟨[(5, ⟨none, some 3⟩)], [], [], false⟩ : ConnState ZeroMessage Nat) 0
      (ZeroMessage.response ⟨"response", 5, Value.obj []⟩) =
      some (⟨[], [], [], false⟩,
        [(5, Except.ok (ZeroMessage.response ⟨"response", 5, Value.obj []⟩))], [3]) :=
  (dispatch_response_delivery
    (⟨[(5, ⟨none, some 3⟩)], [], [], false⟩ : ConnState ZeroMessage Nat) 0
    (ZeroMessage.response ⟨"response", 5, Value.obj []⟩) 5 rfl).2 ⟨none, some 3⟩ [] rfl

/-- C3: the claim asserts the inbox is FIFO (receive yields unsolicited
messages in wire-arrival order).  On the code the inbox is a `Vec` that
is pushed at the end by `recv` and popped from the end by
`ReceiveFuture::poll` (`values.pop()`), i.e. a LIFO stack.  Concretely:
after `ping 0` and then `ping 1` arrive unsolicited, the next
`receive()` yields `ping 1`, not the first-arrived `ping 0`. -/
theorem c3_counterexample :
    dispatch (⟨[], [], [], false⟩ : ConnState ZeroMessage Nat) 0
        (ZeroMessage.request ⟨"ping", 0, Value.null⟩) =
      some (⟨[], [Except.ok (ZeroMessage.request ⟨"ping", 0, Value.null⟩)], [], false⟩,
        [], [0]) ∧
    dispatch (⟨[], [Except.ok (ZeroMessage.request ⟨"ping", 0, Value.null⟩)], [], false⟩ :
        ConnState ZeroMessage Nat) 0
        (ZeroMessage.request ⟨"ping", 1, Value.null⟩) =
      some (⟨[], [Except.ok (ZeroMessage.request ⟨"ping", 0, Value.null⟩),
                  Except.ok (ZeroMessage.request ⟨"ping", 1, Value.null⟩)], [], false⟩,
        [], [0]) ∧
    (receivePoll (⟨[], [Except.ok (ZeroMessage.request ⟨"ping", 0, Value.null⟩),
                  Except.ok (ZeroMessage.request ⟨"ping", 1, Value.null⟩)], [], false⟩ :
        ConnState ZeroMessage Nat)).1 =
      some (Except.ok (ZeroMessage.request ⟨"ping", 1, Value.null⟩)) ∧
    ZeroMessage.request ⟨"ping", 1, Value.null⟩ ≠ ZeroMessage.request ⟨"ping", 0, Value.null⟩ :=
  ⟨rfl, rfl, rfl, by decide⟩

/-- C3 (amended): the inbox is a LIFO stack, and receive waiters are
woken in LIFO order of suspension.  After an unsolicited message `r`
is dispatched, the inbox equals the old inbox with `Ok(r)` pushed at
the end, the next `receive()` poll yields `r` (the newest message, not
the oldest), and the waker woken is the most recently pushed entry of
`wakers` (with fallback to the reading future's own waker). -/
theorem inbox_lifo {M K : Type} [Requestable M K] [DecidableEq K]
    (st : ConnState M K) (cw : Nat) (r : M)
    (h : Requestable.toId (K := K) r = none) :
    ∀ st' ws wk, dispatch st cw r = some (st', ws, wk) →
      st'.values = st.values ++ [Except.ok r] ∧
      (receivePoll st').1 = some (Except.ok r) ∧
      wk = (match st.wakers.getLast? with
            | some w => [w]
            | none => [cw]) := by
  intro st' ws wk happ
  have hpop : ∀ t : ConnState M K, t.values = st.values ++ [Except.ok r] →
      (receivePoll t).1 = some (Except.ok r) := by
    intro t ht
    simp only [receivePoll, ht, List.getLast?_append]
    rfl
  simp only [dispatch, h] at happ
  cases hLast : st.wakers.getLast? with
  | some w =>
    rw [hLast] at happ
    cases happ
    exact ⟨rfl, hpop _ rfl, rfl⟩
  | none =>
    rw [hLast] at happ
    cases happ
    exact ⟨rfl, hpop _ rfl, rfl⟩

/-- Witness for `inbox_lifo` at a concrete state with one older inbox
entry and two suspended receivers (wakers 4 then 9): the newer message
is the one the next `receive()` yields, and waker 9 (the most recently
suspended) is the one woken. -/
theorem inbox_lifo_witness :
    (⟨[], [Except.ok (ZeroMessage.request ⟨"a", 0, Value.null⟩),
          Except.ok (ZeroMessage.request ⟨"b", 1, Value.null⟩)], [4], false⟩ :
        ConnState ZeroMessage Nat).values =
      (⟨[], [Except.ok (ZeroMessage.request ⟨"a", 0, Value.null⟩)], [4, 9], false⟩ :
        ConnState ZeroMessage Nat).values ++
        [Except.ok (ZeroMessage.request ⟨"b", 1, Value.null⟩)] ∧
    (receivePoll (⟨[], [Except.ok (ZeroMessage.request ⟨"a", 0, Value.null⟩),
          Except.ok (ZeroMessage.request ⟨"b", 1, Value.null⟩)], [4], false⟩ :
        ConnState ZeroMessage Nat)).1 =
      some (Except.ok (ZeroMessage.request ⟨"b", 1, Value.null⟩)) ∧
    [9] = (match (⟨[], [Except.ok (ZeroMessage.request ⟨"a", 0, Value.null⟩)], [4, 9],
            false⟩ : ConnState ZeroMessage Nat).wakers.getLast? with
           | some w => [w]
           | none => [0]) :=
  inbox_lifo
    (⟨[], [Except.ok (ZeroMessage.request ⟨"a", 0, Value.null⟩)], [4, 9], false⟩ :
      ConnState ZeroMessage Nat) 0
    (ZeroMessage.request ⟨"b", 1, Value.null⟩) rfl
    (⟨[], [Except.ok (ZeroMessage.request ⟨"a", 0, Value.null⟩),
          Except.ok (ZeroMessage.request ⟨"b", 1, Value.null⟩)], [4], false⟩ :
      ConnState ZeroMessage Nat) [] [9] rfl

/-- C7: whenever a pending-request cell registered under key `k` is
written with `Ok(r)` by any operation on the shared connection state,
the message satisfies `r.to() == Some(k)`; hence a `request(m)` future
(whose cell is registered under `m.req_id()`) that resolves to `Ok(r)`
has `r.to() == m.req_id()`.  (The only other writes are
`Err(ConnectionClosed)` at close.) -/
theorem request_response_matches {M K : Type} [Requestable M K] [DecidableEq K]
    (st st' : ConnState M K) (op : ConnOp M K)
    (ws : List (K × Except Err M)) (wk : List Nat) (m r : M) (k : K)
    (hm : Requestable.req_id (K := K) m = some k)
    (happ : applyOp st op = some (st', ws, wk))
    (hw : (k, Except.ok r) ∈ ws) :
    Requestable.toId (K := K) r = Requestable.req_id (K := K) m := by
  rw [hm]
  cases op with
  | register k' w =>
    simp only [applyOp, Option.some.injEq, Prod.mk.injEq] at happ
    obtain ⟨-, hws, -⟩ := happ
    rw [← hws] at hw
    simp at hw
  | arrive cw read =>
    cases read with
    | error e =>
      simp only [applyOp, recvStep, closeConnection, Option.some.injEq,
        Prod.mk.injEq] at happ
      obtain ⟨-, hws, -⟩ := happ
      rw [← hws] at hw
      simp only [List.mem_filterMap] at hw
      obtain ⟨p, -, hp⟩ := hw
      cases hv : p.2.value with
      | none => rw [hv] at hp; simp at hp
      | some v => rw [hv] at hp; simp at hp
    | ok r' =>
      cases hto : Requestable.toId (K := K) r' with
      | none =>
        cases hLast : st.wakers.getLast? with
        | some w =>
          simp only [applyOp, recvStep, dispatch, hto, hLast, Option.some.injEq,
            Prod.mk.injEq] at happ
          obtain ⟨-, hws, -⟩ := happ
          rw [← hws] at hw
          simp at hw
        | none =>
          simp only [applyOp, recvStep, dispatch, hto, hLast, Option.some.injEq,
            Prod.mk.injEq] at happ
          obtain ⟨-, hws, -⟩ := happ
          rw [← hws] at hw
          simp at hw
      | some t =>
        cases hrm : removeKey t st.requests with
        | none =>
          simp only [applyOp, recvStep, dispatch, hto, hrm] at happ
          exact absurd happ (by simp)
        | some p =>
          simp only [applyOp, recvStep, dispatch, hto, hrm, Option.some.injEq,
            Prod.mk.injEq] at happ
          obtain ⟨-, hws, -⟩ := happ
          rw [← hws] at hw
          simp only [List.mem_singleton, Prod.mk.injEq, Except.ok.injEq] at hw
          obtain ⟨rfl, rfl⟩ := hw
          exact hto

/-- Witness for `request_response_matches`: a response with `to == 5`
dispatched into a state with a pending entry for key 5 is written into
that entry, and its `to` equals the req_id of the request that
registered it. -/
theorem request_response_matches_witness :
    Requestable.toId (K := Nat) (ZeroMessage.response ⟨"response", 5, Value.obj []⟩) =
      Requestable.req_id (K := Nat) (ZeroMessage.request ⟨"ping", 5, Value.null⟩) :=
  request_response_matches
    (⟨[(5, ⟨none, none⟩)], [], [], false⟩ : ConnState ZeroMessage Nat)
    (⟨[], [], [], false⟩ : ConnState ZeroMessage Nat)
    (ConnOp.arrive 0 (Except.ok (ZeroMessage.response ⟨"response", 5, Value.obj []⟩)))
    [(5, Except.ok (ZeroMessage.response ⟨"response", 5, Value.obj []⟩))] []
    (ZeroMessage.request ⟨"ping", 5, Value.null⟩)
    (ZeroMessage.response ⟨"response", 5, Value.obj []⟩) 5
    rfl rfl (List.mem_singleton.mpr rfl)

/-- C8: when a read on the connection fails, the closed flag is set,
every pending slot that is still empty is filled with
`Err(ConnectionClosed)` and its waker woken, every registered receive
waiter gets one `Err(ConnectionClosed)` pushed onto the inbox and is
woken, and a pending slot that already holds a result is left
unchanged. -/
theorem read_failure_closes {M K : Type} [Requestable M K] [DecidableEq K]
    (st : ConnState M K) (cw : Nat) (e : Err) :
    recvStep st cw (Except.error e) = some (closeConnection st) ∧
    (closeConnection st).1.closed = true ∧
    (closeConnection st).1.values =
      st.values ++ List.replicate st.wakers.length (Except.error Err.connectionClosed) ∧
    (closeConnection st).1.wakers = [] ∧
    (∀ k s, (k, s) ∈ st.requests → s.value = none →
      (k, Slot.mk (some (Except.error Err.connectionClosed)) s.waker) ∈
        (closeConnection st).1.requests ∧
      (k, (Except.error Err.connectionClosed : Except Err M)) ∈ (closeConnection st).2.1) ∧
    (∀ k s, (k, s) ∈ st.requests → s.value ≠ none → (k, s) ∈ (closeConnection st).1.requests) ∧
    (∀ k s w, (k, s) ∈ st.requests → s.waker = some w → w ∈ (closeConnection st).2.2) ∧
    (∀ w, w ∈ st.wakers → w ∈ (closeConnection st).2.2) := by
  refine ⟨rfl, rfl, rfl, rfl, ?_, ?_, ?_, ?_⟩
  · intro k s hmem hv
    constructor
    · simp only [closeConnection, List.mem_map]
      exact ⟨(k, s), hmem, by simp [fillSlot, hv]⟩
    · simp only [closeConnection, List.mem_filterMap]
      exact ⟨(k, s), hmem, by simp [hv]⟩
  · intro k s hmem hv
    obtain ⟨sv, sw⟩ := s
    cases sv with
    | none => exact absurd rfl hv
    | some v =>
      simp only [closeConnection, List.mem_map]
      exact ⟨(k, ⟨some v, sw⟩), hmem, by simp [fillSlot]⟩
  · intro k s w hmem hwk
    simp only [closeConnection, List.mem_append, List.mem_filterMap]
    exact Or.inl ⟨(k, s), hmem, hwk⟩
  · intro w hmem
    simp only [closeConnection, List.mem_append, List.mem_reverse]
    exact Or.inr hmem

/-- Witness for `read_failure_closes`: a concrete state with one
still-empty pending slot (key 2, waker 6), one already-filled pending
slot (key 3), and one receive waiter (waker 8). -/
theorem read_failure_closes_witness :
    (2, Slot.mk (M := ZeroMessage) (some (Except.error Err.connectionClosed)) (some 6)) ∈
      (closeConnection (⟨[(2, ⟨none, some 6⟩),
        (3, ⟨some (Except.ok (ZeroMessage.request ⟨"ping", 0, Value.null⟩)), none⟩)],
        [], [8], false⟩ : ConnState ZeroMessage Nat)).1.requests ∧
    (3, Slot.mk (M := ZeroMessage)
        (some (Except.ok (ZeroMessage.request ⟨"ping", 0, Value.null⟩))) none) ∈
      (closeConnection (⟨[(2, ⟨none, some 6⟩),
        (3, ⟨some (Except.ok (ZeroMessage.request ⟨"ping", 0, Value.null⟩)), none⟩)],
        [], [8], false⟩ : ConnState ZeroMessage Nat)).1.requests ∧
    (6 : Nat) ∈ (closeConnection (⟨[(2, ⟨none, some 6⟩),
        (3, ⟨some (Except.ok (ZeroMessage.request ⟨"ping", 0, Value.null⟩)), none⟩)],
        [], [8], false⟩ : ConnState ZeroMessage Nat)).2.2 ∧
    (8 : Nat) ∈ (closeConnection (⟨[(2, ⟨none, some 6⟩),
        (3, ⟨some (Except.ok (ZeroMessage.request ⟨"ping", 0, Value.null⟩)), none⟩)],
        [], [8], false⟩ : ConnState ZeroMessage Nat)).2.2 := by
  have h := read_failure_closes
    (⟨[(2, ⟨none, some 6⟩),
      (3, ⟨some (Except.ok (ZeroMessage.request ⟨"ping", 0, Value.null⟩)), none⟩)],
      [], [8], false⟩ : ConnState ZeroMessage Nat) 0 Err.decodeError
  refine ⟨(h.2.2.2.2.1 2 ⟨none, some 6⟩ (by simp) rfl).1,
    h.2.2.2.2.2.1 3 _ (by simp) (by simp),
    h.2.2.2.2.2.2.1 2 ⟨none, some 6⟩ 6 (by simp) rfl,
    h.2.2.2.2.2.2.2 8 (by simp)⟩

/-- Helper: allocation from an arbitrary counter value yields the
consecutive ids starting there. -/
theorem allocIds_eq (n c : Nat) : allocIds n c = (List.range' c n, c + n) := by
  induction n generalizing c with
  | zero => simp [allocIds]
  | succ n ih =>
    simp only [allocIds, ZeroConnection.req_id, ih (c + 1), List.range'_succ]
    exact Prod.ext rfl (by omega)

/-- C9: the façade's request-id allocator returns 0 on its first call
and the previous value plus one on each subsequent call — `n` calls
against the shared counter (which all cloned handles of one façade
share, so every interleaving of their calls is such a sequence) yield
exactly `0, 1, …, n-1`, with no gaps and no repeats, leaving the
counter at `n`; and `last_req_id` then returns the most recently
allocated id. -/
theorem req_id_allocation (n : Nat) :
    allocIds n ZeroConnection.new_next_req_id = (List.range n, n) ∧
    (List.range n).Nodup ∧
    (0 < n →
      ZeroConnection.last_req_id (allocIds n ZeroConnection.new_next_req_id).2 =
        some (n - 1) ∧
      (allocIds n ZeroConnection.new_next_req_id).1.getLast? = some (n - 1)) := by
  have h : allocIds n ZeroConnection.new_next_req_id = (List.range n, n) := by
    rw [ZeroConnection.new_next_req_id, allocIds_eq, List.range_eq_range', Nat.zero_add]
  refine ⟨h, List.nodup_range n, ?_⟩
  intro hn
  rw [h]
  refine ⟨by simp [ZeroConnection.last_req_id, Nat.pos_iff_ne_zero.mp hn], ?_⟩
  rw [List.getLast?_eq_getElem?, List.length_range, List.getElem?_range (by omega)]

/-- Witness for `req_id_allocation` at `n = 3`: ids 0, 1, 2 are
allocated in order and `last_req_id` afterwards returns 2. -/
theorem req_id_allocation_witness :
    allocIds 3 ZeroConnection.new_next_req_id = (List.range 3, 3) ∧
    ZeroConnection.last_req_id (allocIds 3 ZeroConnection.new_next_req_id).2 = some 2 :=
  ⟨(req_id_allocation 3).1, ((req_id_allocation 3).2.2 (by decide)).1⟩

/-- C10: `last_req_id` on a freshly created ZeroConnection
(`next_req_id == 0`) evaluates `*next_req_id - 1` on a `usize`,
underflowing (a panic in debug builds, modelled as `none`); it is
well-defined exactly when at least one request id has been allocated,
and after the first allocation it returns that id. -/
theorem last_req_id_fresh_underflows :
    ZeroConnection.last_req_id ZeroConnection.new_next_req_id = none ∧
    (∀ next, 0 < next → (ZeroConnection.last_req_id next).isSome = true) ∧
    ZeroConnection.last_req_id
        (ZeroConnection.req_id ZeroConnection.new_next_req_id).2 =
      some (ZeroConnection.req_id ZeroConnection.new_next_req_id).1 := by
  refine ⟨rfl, ?_, rfl⟩
  intro next hn
  simp [ZeroConnection.last_req_id, Nat.pos_iff_ne_zero.mp hn]

/-- Witness for `last_req_id_fresh_underflows` at counter value 5. -/
theorem last_req_id_fresh_underflows_witness :
    ZeroConnection.last_req_id ZeroConnection.new_next_req_id = none ∧
    (ZeroConnection.last_req_id 5).isSome = true :=
  ⟨last_req_id_fresh_underflows.1, last_req_id_fresh_underflows.2.1 5 (by decide)⟩

/-- C2: the claim asserts that a send issued after close resolves with
`Err(ConnectionClosed)` and writes nothing.  On the code, neither
`Connection::send` nor `SendFuture::poll` consults the `closed` flag:
at the concrete closed state below, sending a ping request succeeds
and writes its 18 encoded bytes. -/
theorem c2_counterexample :
    sendPoll (⟨[], [], [], true⟩ : ConnState ZeroMessage Nat) encodeZeroMessage
        (ZeroMessage.request ⟨"ping", 0, Value.null⟩) =
      (Except.ok (),
        [130, 163, 99, 109, 100, 164, 112, 105, 110, 103,
         166, 114, 101, 113, 95, 105, 100, 0]) ∧
    (⟨[], [], [], true⟩ : ConnState ZeroMessage Nat).closed = true ∧
    sendPoll (⟨[], [], [], true⟩ : ConnState ZeroMessage Nat) encodeZeroMessage
        (ZeroMessage.request ⟨"ping", 0, Value.null⟩) ≠
      (Except.error Err.connectionClosed, []) := by
  refine ⟨rfl, rfl, ?_⟩
  decide

/-- C2 (amended): after the closed flag is true, operations that go
through the read path observe `ConnectionClosed` (see
`read_failure_closes`), but a send started after close is NOT
short-circuited: the send worker never reads the `closed` flag, so it
encodes the message, writes the bytes to the writer, and resolves with
the write result (`Ok` whenever the writer still accepts the bytes). -/
theorem send_after_close_still_writes {M K : Type} (st : ConnState M K)
    (encode : M → Except Err (List Nat)) (m : M) (bs : List Nat)
    (hclosed : st.closed = true) (henc : encode m = Except.ok bs) :
    sendPoll st encode m = (Except.ok (), bs) := by
  simp only [sendPoll, henc]

/-- Witness for `send_after_close_still_writes` at a concrete closed
connection and a concrete ping request. -/
theorem send_after_close_still_writes_witness :
    sendPoll (⟨[], [], [], true⟩ : ConnState ZeroMessage Nat) encodeZeroMessage
        (ZeroMessage.request ⟨"ping", 1, Value.null⟩) =
      (Except.ok (),
        [130, 163, 99, 109, 100, 164, 112, 105, 110, 103,
         166, 114, 101, 113, 95, 105, 100, 1]) :=
  send_after_close_still_writes _ encodeZeroMessage
    (ZeroMessage.request ⟨"ping", 1, Value.null⟩) _ rfl rfl

/-- C5: the claim asserts the byte-buffer serialization is identical to
the JSON-equivalent path.  The code's own test
(`test_bytevec_vs_bytebuf`, src/address.rs lines 458-485) asserts the
opposite: at the packed address `[127, 0, 0, 1, 65, 31]`
(`"127.0.0.1:8001"` packed), the `ByteBuf` form (`bin8`) differs from
the JSON-equivalent form (an array of integers), and it is the plain
`[u8]` vector form that coincides with the JSON-equivalent form. -/
theorem c5_counterexample :
    serializeByteBuf [127, 0, 0, 1, 65, 31] ≠ serializeJsonEquiv [127, 0, 0, 1, 65, 31] ∧
    serializeVecU8 [127, 0, 0, 1, 65, 31] = serializeJsonEquiv [127, 0, 0, 1, 65, 31] ∧
    serializeVecU8 [127, 0, 0, 1, 65, 31] ≠ serializeByteBuf [127, 0, 0, 1, 65, 31] := by
  refine ⟨?_, rfl, ?_⟩ <;> decide

/-- Helper: the first byte of an array header is 220, 221 or a fixarray
marker in 144..159. -/
theorem arrHeader_head (n : Nat) :
    ∃ h t, arrHeader n = h :: t ∧ (h = 220 ∨ h = 221 ∨ (144 ≤ h ∧ h < 160)) := by
  unfold arrHeader
  split_ifs with h1 h2
  · exact ⟨144 + n, [], rfl, Or.inr (Or.inr (by omega))⟩
  · exact ⟨220, beBytes 2 n, rfl, Or.inl rfl⟩
  · exact ⟨221, beBytes 4 n, rfl, Or.inr (Or.inl rfl)⟩

/-- Helper: the first byte of a bin header is 196, 197 or 198. -/
theorem binHeader_head (n : Nat) :
    ∃ h t, binHeader n = h :: t ∧ (h = 196 ∨ h = 197 ∨ h = 198) := by
  unfold binHeader
  split_ifs with h1 h2
  · exact ⟨196, [n], rfl, Or.inl rfl⟩
  · exact ⟨197, beBytes 2 n, rfl, Or.inr (Or.inl rfl)⟩
  · exact ⟨198, beBytes 4 n, rfl, Or.inr (Or.inr rfl)⟩

/-- Helper: serializing `Vec<u8>` directly equals the JSON-equivalent
path (`serde_json::to_value` turns the bytes into an array of
integers, which MessagePack-encodes the same way). -/
theorem serializeVecU8_eq_jsonEquiv (bs : List Nat) :
    serializeVecU8 bs = serializeJsonEquiv bs := by
  unfold serializeVecU8 serializeJsonEquiv toJson encodeValue
  rw [List.length_map]
  congr 1
  induction bs with
  | nil => rfl
  | cons b rest ih =>
    simp only [List.map_cons, List.flatten_cons, encodeValueList, encodeValue, encodeInt,
      Int.ofNat_eq_natCast]
    rw [if_pos (by omega : (0 : Int) ≤ (b : Int)), Int.toNat_natCast, ih]
    rfl

/-- C5 (amended): a `[u8]` vector serialized directly produces a
different byte sequence from the byte-buffer (`ByteBuf`) form, and it
is the `[u8]`-vector form — not the byte-buffer form — that is
identical to the JSON-equivalent path; the byte-buffer form differs
from both. -/
theorem bytes_vs_bytebuf (bs : List Nat) :
    serializeVecU8 bs ≠ serializeByteBuf bs ∧
    serializeVecU8 bs = serializeJsonEquiv bs ∧
    serializeByteBuf bs ≠ serializeJsonEquiv bs := by
  have hne : serializeVecU8 bs ≠ serializeByteBuf bs := by
    obtain ⟨ha, ta, hae, hav⟩ := arrHeader_head bs.length
    obtain ⟨hb, tb, hbe, hbv⟩ := binHeader_head bs.length
    intro h
    have hh : (serializeVecU8 bs).head? = (serializeByteBuf bs).head? := by rw [h]
    unfold serializeVecU8 serializeByteBuf at hh
    rw [hae, hbe] at hh
    simp only [List.cons_append, List.head?_cons, Option.some.injEq] at hh
    omega
  exact ⟨hne, serializeVecU8_eq_jsonEquiv bs,
    fun h => hne (h ▸ serializeVecU8_eq_jsonEquiv bs)⟩

/-! ### MessagePack round-trip lemmas -/

theorem beBytes_length (k n : Nat) : (beBytes k n).length = k := by
  induction k generalizing n with
  | zero => rfl
  | succ k ih => simp [beBytes, ih]

theorem ofBE_append_singleton (xs : List Nat) (b : Nat) :
    ofBE (xs ++ [b]) = ofBE xs * 256 + b := by
  simp [ofBE]

theorem ofBE_beBytes (k n : Nat) (h : n < 256 ^ k) : ofBE (beBytes k n) = n := by
  induction k generalizing n with
  | zero =>
    simp only [Nat.pow_zero, Nat.lt_one_iff] at h
    simp [beBytes, ofBE, h]
  | succ k ih =>
    rw [beBytes, ofBE_append_singleton, ih (n / 256) (by
      have : 256 ^ (k + 1) = 256 ^ k * 256 := by ring
      omega)]
    omega

theorem readBytes_exact (xs rest : List Nat) :
    readBytes xs.length (xs ++ rest) = some (xs, rest) := by
  simp [readBytes]

theorem readLen_exact (k n : Nat) (rest : List Nat) (h : n < 256 ^ k) :
    readLen k (beBytes k n ++ rest) = some (n, rest) := by
  have h2 := readBytes_exact (beBytes k n) rest
  rw [beBytes_length] at h2
  rw [readLen, h2]
  simp [ofBE_beBytes k n h]

theorem utf8EncodeChar_ne_nil (c : Char) : utf8EncodeChar c ≠ [] := by
  unfold utf8EncodeChar
  split_ifs <;> simp

/-- `Char` scalar values are valid Unicode scalar values. -/
theorem char_toNat_isValidChar (c : Char) : Nat.isValidChar c.toNat := c.valid

theorem utf8DecodeStep_encodeChar (c : Char) (bs : List Nat) :
    utf8DecodeStep (utf8EncodeChar c ++ bs) = some (c, bs) := by
  have hv := char_toNat_isValidChar c
  have hlt : c.toNat < 1114112 := by
    rcases hv with h | ⟨-, h⟩ <;> omega
  unfold utf8EncodeChar
  by_cases h1 : c.toNat < 128
  · rw [if_pos h1]
    show utf8DecodeStep (c.toNat :: ([] ++ bs)) = _
    rw [List.nil_append, utf8DecodeStep.eq_def]
    dsimp only
    rw [if_pos h1, Char.ofNat_toNat]
  · rw [if_neg h1]
    by_cases h2 : c.toNat < 2048
    · rw [if_pos h2]
      show utf8DecodeStep ((192 + c.toNat / 64) :: (128 + c.toNat % 64) :: bs) = _
      rw [utf8DecodeStep.eq_def]
      dsimp only
      rw [if_neg (by omega), if_neg (by omega), if_pos (by omega)]
      simp only [if_pos (show 128 ≤ 128 + c.toNat % 64 ∧ 128 + c.toNat % 64 < 192 by
        constructor <;> omega)]
      have hn : (192 + c.toNat / 64 - 192) * 64 + (128 + c.toNat % 64 - 128) = c.toNat := by
        omega
      rw [hn, if_pos (by omega), Char.ofNat_toNat]
    · rw [if_neg h2]
      by_cases h3 : c.toNat < 65536
      · rw [if_pos h3]
        show utf8DecodeStep ((224 + c.toNat / 4096) :: (128 + c.toNat / 64 % 64) ::
          (128 + c.toNat % 64) :: bs) = _
        rw [utf8DecodeStep.eq_def]
        dsimp only
        rw [if_neg (by omega), if_neg (by omega), if_neg (by omega), if_pos (by omega)]
        simp only [if_pos (show 128 ≤ 128 + c.toNat / 64 % 64 ∧ 128 + c.toNat / 64 % 64 < 192 ∧
          128 ≤ 128 + c.toNat % 64 ∧ 128 + c.toNat % 64 < 192 by
            refine ⟨by omega, by omega, by omega, by omega⟩)]
        have hn : (224 + c.toNat / 4096 - 224) * 4096 +
            (128 + c.toNat / 64 % 64 - 128) * 64 + (128 + c.toNat % 64 - 128) = c.toNat := by
          omega
        rw [hn, if_pos ⟨by omega, hv⟩, Char.ofNat_toNat]
      · rw [if_neg h3]
        show utf8DecodeStep ((240 + c.toNat / 262144) :: (128 + c.toNat / 4096 % 64) ::
          (128 + c.toNat / 64 % 64) :: (128 + c.toNat % 64) :: bs) = _
        rw [utf8DecodeStep.eq_def]
        dsimp only
        rw [if_neg (by omega), if_neg (by omega), if_neg (by omega), if_neg (by omega),
          if_pos (by omega)]
        simp only [if_pos (show 128 ≤ 128 + c.toNat / 4096 % 64 ∧
          128 + c.toNat / 4096 % 64 < 192 ∧ 128 ≤ 128 + c.toNat / 64 % 64 ∧
          128 + c.toNat / 64 % 64 < 192 ∧ 128 ≤ 128 + c.toNat % 64 ∧
          128 + c.toNat % 64 < 192 by
            refine ⟨by omega, by omega, by omega, by omega, by omega, by omega⟩)]
        have hn : (240 + c.toNat / 262144 - 240) * 262144 +
            (128 + c.toNat / 4096 % 64 - 128) * 4096 +
            (128 + c.toNat / 64 % 64 - 128) * 64 + (128 + c.toNat % 64 - 128) = c.toNat := by
          omega
        rw [hn, if_pos ⟨by omega, hlt⟩, Char.ofNat_toNat]

theorem utf8DecodeLoop_chars (cs : List Char) :
    ∀ fuel, ((cs.map utf8EncodeChar).flatten).length ≤ fuel →
      utf8DecodeLoop fuel ((cs.map utf8EncodeChar).flatten) = some cs := by
  induction cs with
  | nil => intro fuel _; cases fuel <;> rfl
  | cons c rest ih =>
    intro fuel hf
    have hne : utf8EncodeChar c ≠ [] := utf8EncodeChar_ne_nil c
    have hlen : 1 ≤ (utf8EncodeChar c).length := by
      cases he : utf8EncodeChar c with
      | nil => exact absurd he hne
      | cons a l => simp
    simp only [List.map_cons, List.flatten_cons] at hf ⊢
    rw [List.length_append] at hf
    cases fuel with
    | zero => omega
    | succ f =>
      rw [utf8DecodeLoop]
      rw [if_neg (by
        cases he : utf8EncodeChar c with
        | nil => exact absurd he hne
        | cons a l => simp)]
      rw [utf8DecodeStep_encodeChar]
      dsimp only
      rw [ih f (by omega)]
      rfl

theorem utf8Decode_strBytes (s : String) : utf8Decode (strBytes s) = some s.data := by
  rw [utf8Decode, strBytes]
  exact utf8DecodeLoop_chars s.data _ le_rfl

theorem parseStrBody_encode (s : String) (rest : List Nat) :
    parseStrBody (strBytes s).length (strBytes s ++ rest) = some (Value.str s, rest) := by
  rw [parseStrBody, readBytes_exact]
  dsimp only
  rw [utf8Decode_strBytes]

theorem parseBinBody_encode (bs rest : List Nat) :
    parseBinBody bs.length (bs ++ rest) = some (Value.bytes bs, rest) := by
  rw [parseBinBody, readBytes_exact]
  rfl

theorem parseUIntBody_encode (k n : Nat) (rest : List Nat) (h : n < 256 ^ k) :
    parseUIntBody k (beBytes k n ++ rest) = some (Value.num (Int.ofNat n), rest) := by
  have h2 := readBytes_exact (beBytes k n) rest
  rw [beBytes_length] at h2
  rw [parseUIntBody, h2]
  simp [ofBE_beBytes k n h]

theorem parseSIntBody_encode (k u : Nat) (rest : List Nat) (h : u < 256 ^ k) :
    parseSIntBody k (beBytes k u ++ rest) =
      some (Value.num (if u < 2 ^ (8 * k - 1) then (u : Int) else (u : Int) - 2 ^ (8 * k)),
        rest) := by
  have h2 := readBytes_exact (beBytes k u) rest
  rw [beBytes_length] at h2
  rw [parseSIntBody, h2]
  simp [ofBE_beBytes k u h]

theorem readLen_one (b : Nat) (bs : List Nat) : readLen 1 (b :: bs) = some (b, bs) := by
  simp [readLen, readBytes, ofBE]

theorem parseMp_fixint (f b : Nat) (bs : List Nat) (h : b < 128) :
    parseMp (f + 1) (b :: bs) = some (Value.num (Int.ofNat b), bs) := by
  rw [parseMp, if_pos h]

theorem parseMp_fixmap (f L : Nat) (bs : List Nat) (h : L < 16) :
    parseMp (f + 1) ((128 + L) :: bs) =
      (parseKVsWith (parseMp f) L bs).map (fun p => (Value.obj p.1, p.2)) := by
  rw [parseMp, if_neg (by omega), if_pos (by omega), Nat.add_sub_cancel_left]

theorem parseMp_fixarr (f L : Nat) (bs : List Nat) (h : L < 16) :
    parseMp (f + 1) ((144 + L) :: bs) =
      (parseListWith (parseMp f) L bs).map (fun p => (Value.arr p.1, p.2)) := by
  rw [parseMp, if_neg (by omega), if_neg (by omega), if_pos (by omega),
    Nat.add_sub_cancel_left]

theorem parseMp_fixstr (f L : Nat) (bs : List Nat) (h : L < 32) :
    parseMp (f + 1) ((160 + L) :: bs) = parseStrBody L bs := by
  rw [parseMp, if_neg (by omega), if_neg (by omega), if_neg (by omega), if_pos (by omega),
    Nat.add_sub_cancel_left]

theorem parseMp_negfix (f b : Nat) (bs : List Nat) (h1 : 224 ≤ b) (h2 : b < 256) :
    parseMp (f + 1) (b :: bs) = some (Value.num ((b : Int) - 256), bs) := by
  rw [parseMp]
  iterate 25 rw [if_neg (by omega)]
  rw [if_pos ⟨h1, h2⟩]

theorem parseMp_m192 (f : Nat) (bs : List Nat) :
    parseMp (f + 1) (192 :: bs) = some (Value.null, bs) := rfl

theorem parseMp_m194 (f : Nat) (bs : List Nat) :
    parseMp (f + 1) (194 :: bs) = some (Value.bool false, bs) := rfl

theorem parseMp_m195 (f : Nat) (bs : List Nat) :
    parseMp (f + 1) (195 :: bs) = some (Value.bool true, bs) := rfl

theorem parseMp_m196 (f : Nat) (bs : List Nat) :
    parseMp (f + 1) (196 :: bs) =
      (match readLen 1 bs with
       | some (n, rest) => parseBinBody n rest
       | none => none) := rfl

theorem parseMp_m197 (f : Nat) (bs : List Nat) :
    parseMp (f + 1) (197 :: bs) =
      (match readLen 2 bs with
       | some (n, rest) => parseBinBody n rest
       | none => none) := rfl

theorem parseMp_m198 (f : Nat) (bs : List Nat) :
    parseMp (f + 1) (198 :: bs) =
      (match readLen 4 bs with
       | some (n, rest) => parseBinBody n rest
       | none => none) := rfl

theorem parseMp_m204 (f : Nat) (bs : List Nat) :
    parseMp (f + 1) (204 :: bs) = parseUIntBody 1 bs := rfl

theorem parseMp_m205 (f : Nat) (bs : List Nat) :
    parseMp (f + 1) (205 :: bs) = parseUIntBody 2 bs := rfl

theorem parseMp_m206 (f : Nat) (bs : List Nat) :
    parseMp (f + 1) (206 :: bs) = parseUIntBody 4 bs := rfl

theorem parseMp_m207 (f : Nat) (bs : List Nat) :
    parseMp (f + 1) (207 :: bs) = parseUIntBody 8 bs := rfl

theorem parseMp_m208 (f : Nat) (bs : List Nat) :
    parseMp (f + 1) (208 :: bs) = parseSIntBody 1 bs := rfl

theorem parseMp_m209 (f : Nat) (bs : List Nat) :
    parseMp (f + 1) (209 :: bs) = parseSIntBody 2 bs := rfl

theorem parseMp_m210 (f : Nat) (bs : List Nat) :
    parseMp (f + 1) (210 :: bs) = parseSIntBody 4 bs := rfl

theorem parseMp_m211 (f : Nat) (bs : List Nat) :
    parseMp (f + 1) (211 :: bs) = parseSIntBody 8 bs := rfl

theorem parseMp_m217 (f : Nat) (bs : List Nat) :
    parseMp (f + 1) (217 :: bs) =
      (match readLen 1 bs with
       | some (n, rest) => parseStrBody n rest
       | none => none) := rfl

theorem parseMp_m218 (f : Nat) (bs : List Nat) :
    parseMp (f + 1) (218 :: bs) =
      (match readLen 2 bs with
       | some (n, rest) => parseStrBody n rest
       | none => none) := rfl

theorem parseMp_m219 (f : Nat) (bs : List Nat) :
    parseMp (f + 1) (219 :: bs) =
      (match readLen 4 bs with
       | some (n, rest) => parseStrBody n rest
       | none => none) := rfl

theorem parseMp_m220 (f : Nat) (bs : List Nat) :
    parseMp (f + 1) (220 :: bs) =
      (match readLen 2 bs with
       | some (n, rest) =>
         (parseListWith (parseMp f) n rest).map (fun p => (Value.arr p.1, p.2))
       | none => none) := rfl

theorem parseMp_m221 (f : Nat) (bs : List Nat) :
    parseMp (f + 1) (221 :: bs) =
      (match readLen 4 bs with
       | some (n, rest) =>
         (parseListWith (parseMp f) n rest).map (fun p => (Value.arr p.1, p.2))
       | none => none) := rfl

theorem parseMp_m222 (f : Nat) (bs : List Nat) :
    parseMp (f + 1) (222 :: bs) =
      (match readLen 2 bs with
       | some (n, rest) =>
         (parseKVsWith (parseMp f) n rest).map (fun p => (Value.obj p.1, p.2))
       | none => none) := rfl

theorem parseMp_m223 (f : Nat) (bs : List Nat) :
    parseMp (f + 1) (223 :: bs) =
      (match readLen 4 bs with
       | some (n, rest) =>
         (parseKVsWith (parseMp f) n rest).map (fun p => (Value.obj p.1, p.2))
       | none => none) := rfl

theorem parseMp_encodeStr (s : String) (hs : (strBytes s).length < 2 ^ 32)
    (f : Nat) (rest : List Nat) (hf : 1 ≤ f) :
    parseMp f ((strHeader (strBytes s).length ++ strBytes s) ++ rest) =
      some (Value.str s, rest) := by
  obtain ⟨f, rfl⟩ : ∃ g, f = g + 1 := ⟨f - 1, by omega⟩
  rw [strHeader]
  split_ifs with hc1 hc2 hc3 <;>
    simp only [List.cons_append, List.nil_append, List.append_assoc]
  · rw [parseMp_fixstr f _ _ hc1, parseStrBody_encode]
  · rw [parseMp_m217, readLen_one]
    dsimp only
    rw [parseStrBody_encode]
  · rw [parseMp_m218, readLen_exact 2 _ _ (by omega)]
    dsimp only
    rw [parseStrBody_encode]
  · rw [parseMp_m219, readLen_exact 4 _ _ (by omega)]
    dsimp only
    rw [parseStrBody_encode]

theorem parseMp_encodeBin (bs : List Nat) (hlen : bs.length < 2 ^ 32)
    (f : Nat) (rest : List Nat) (hf : 1 ≤ f) :
    parseMp f ((binHeader bs.length ++ bs) ++ rest) = some (Value.bytes bs, rest) := by
  obtain ⟨f, rfl⟩ : ∃ g, f = g + 1 := ⟨f - 1, by omega⟩
  rw [binHeader]
  split_ifs with hc1 hc2 <;>
    simp only [List.cons_append, List.nil_append, List.append_assoc]
  · rw [parseMp_m196, readLen_one]
    dsimp only
    rw [parseBinBody_encode]
  · rw [parseMp_m197, readLen_exact 2 _ _ (by omega)]
    dsimp only
    rw [parseBinBody_encode]
  · rw [parseMp_m198, readLen_exact 4 _ _ (by omega)]
    dsimp only
    rw [parseBinBody_encode]

theorem beBytes_one (m : Nat) (h : m < 256) : beBytes 1 m = [m] := by
  show beBytes 0 (m / 256) ++ [m % 256] = [m]
  rw [beBytes]
  simp
  omega

theorem parseMp_encodeNum (n : Int) (hlo : -(2 : Int) ^ 63 ≤ n) (hhi : n < 2 ^ 64)
    (f : Nat) (rest : List Nat) (hf : 1 ≤ f) :
    parseMp f (encodeInt n ++ rest) = some (Value.num n, rest) := by
  obtain ⟨f, rfl⟩ : ∃ g, f = g + 1 := ⟨f - 1, by omega⟩
  by_cases h0 : 0 ≤ n
  · have htn : (n.toNat : Int) = n := Int.toNat_of_nonneg h0
    rw [encodeInt, if_pos h0, encodeUInt]
    split_ifs with hc1 hc2 hc3 hc4
    · rw [List.singleton_append, parseMp_fixint f _ _ hc1]
      simp only [Int.ofNat_eq_natCast, htn]
    · rw [List.cons_append, List.cons_append, List.nil_append, parseMp_m204]
      simp [parseUIntBody, readBytes, ofBE, Int.ofNat_eq_natCast, htn]
    · rw [List.cons_append, parseMp_m205,
        parseUIntBody_encode 2 _ _ (by norm_num; omega)]
      simp only [Int.ofNat_eq_natCast, htn]
    · rw [List.cons_append, parseMp_m206,
        parseUIntBody_encode 4 _ _ (by norm_num; omega)]
      simp only [Int.ofNat_eq_natCast, htn]
    · rw [List.cons_append, parseMp_m207,
        parseUIntBody_encode 8 _ _ (by norm_num; omega)]
      simp only [Int.ofNat_eq_natCast, htn]
  · rw [encodeInt, if_neg h0]
    split_ifs with hc1 hc2 hc3 hc4
    · have hb1 : 224 ≤ (n + 256).toNat := by omega
      have hb2 : (n + 256).toNat < 256 := by omega
      rw [List.singleton_append, parseMp_negfix f _ _ hb1 hb2]
      have ht : (((n + 256).toNat : Nat) : Int) = n + 256 := Int.toNat_of_nonneg (by omega)
      rw [ht]
      norm_num
    · have hu : (n + 256).toNat < 256 ^ 1 := by omega
      have ht : (((n + 256).toNat : Nat) : Int) = n + 256 := Int.toNat_of_nonneg (by omega)
      rw [List.cons_append, parseMp_m208, ← beBytes_one (n + 256).toNat (by omega),
        parseSIntBody_encode 1 _ _ hu,
        if_neg (by norm_num; omega), ht]
      norm_num
    · have hu : (n + 65536).toNat < 256 ^ 2 := by norm_num; omega
      have ht : (((n + 65536).toNat : Nat) : Int) = n + 65536 := Int.toNat_of_nonneg (by omega)
      rw [List.cons_append, parseMp_m209,
        parseSIntBody_encode 2 _ _ hu,
        if_neg (by norm_num; omega), ht]
      norm_num
    · have hu : (n + 4294967296).toNat < 256 ^ 4 := by norm_num; omega
      have ht : (((n + 4294967296).toNat : Nat) : Int) = n + 4294967296 :=
        Int.toNat_of_nonneg (by omega)
      rw [List.cons_append, parseMp_m210,
        parseSIntBody_encode 4 _ _ hu,
        if_neg (by norm_num; omega), ht]
      norm_num
    · have hu : (n + 18446744073709551616).toNat < 256 ^ 8 := by norm_num; omega
      have ht : (((n + 18446744073709551616).toNat : Nat) : Int) = n + 18446744073709551616 :=
        Int.toNat_of_nonneg (by omega)
      rw [List.cons_append, parseMp_m211,
        parseSIntBody_encode 8 _ _ hu,
        if_neg (by norm_num; omega), ht]
      norm_num

/-- Structural induction over `Value` with membership hypotheses for
the nested lists. -/
theorem Value.inductionOn (P : Value → Prop)
    (hnull : P Value.null) (hbool : ∀ b, P (Value.bool b))
    (hnum : ∀ n, P (Value.num n)) (hstr : ∀ s, P (Value.str s))
    (hbytes : ∀ bs, P (Value.bytes bs))
    (harr : ∀ xs, (∀ x, x ∈ xs → P x) → P (Value.arr xs))
    (hobj : ∀ kvs, (∀ kv, kv ∈ kvs → P kv.2) → P (Value.obj kvs)) :
    ∀ v, P v
  | Value.null => hnull
  | Value.bool b => hbool b
  | Value.num n => hnum n
  | Value.str s => hstr s
  | Value.bytes bs => hbytes bs
  | Value.arr xs => harr xs (fun x hx =>
      Value.inductionOn P hnull hbool hnum hstr hbytes harr hobj x)
  | Value.obj kvs => hobj kvs (fun kv hkv =>
      Value.inductionOn P hnull hbool hnum hstr hbytes harr hobj kv.2)
termination_by v => sizeOf v
decreasing_by
  · have := List.sizeOf_lt_of_mem hx
    simp only [Value.arr.sizeOf_spec]
    omega
  · have h1 := List.sizeOf_lt_of_mem hkv
    have h2 : sizeOf kv.2 < sizeOf kv := by
      obtain ⟨a, b⟩ := kv
      simp only [Prod.mk.sizeOf_spec]
      omega
    simp only [Value.obj.sizeOf_spec]
    omega

theorem encodeValue_length_pos (v : Value) : 1 ≤ (encodeValue v).length := by
  cases v with
  | null => simp [encodeValue]
  | bool b => cases b <;> simp [encodeValue]
  | num n =>
    rw [encodeValue, encodeInt]
    split_ifs with h0
    · rw [encodeUInt]
      split_ifs <;> simp
    all_goals simp
  | str s =>
    rw [encodeValue, strHeader]
    split_ifs <;> simp
  | bytes bs =>
    rw [encodeValue, binHeader]
    split_ifs <;> simp
  | arr xs =>
    rw [encodeValue, arrHeader]
    split_ifs <;> simp
  | obj kvs =>
    rw [encodeValue, mapHeader]
    split_ifs <;> simp

theorem encodeValueList_mem_le (xs : List Value) (x : Value) (hx : x ∈ xs) :
    (encodeValue x).length ≤ (encodeValueList xs).length := by
  induction xs with
  | nil => cases hx
  | cons y ys ih =>
    rw [encodeValueList, List.length_append]
    rcases List.mem_cons.mp hx with rfl | h
    · omega
    · have := ih h
      omega

theorem encodeValueKVs_mem_le (kvs : List (String × Value)) (kv : String × Value)
    (hkv : kv ∈ kvs) :
    (encodeValue kv.2).length ≤ (encodeValueKVs kvs).length ∧
    (strHeader (strBytes kv.1).length ++ strBytes kv.1).length ≤
      (encodeValueKVs kvs).length := by
  induction kvs with
  | nil => cases hkv
  | cons p ps ih =>
    obtain ⟨k, v⟩ := p
    rw [encodeValueKVs]
    simp only [List.length_append]
    rcases List.mem_cons.mp hkv with rfl | h
    · simp only [List.length_append]
      omega
    · obtain ⟨h1, h2⟩ := ih h
      rw [List.length_append] at h2
      omega

theorem wireOkList_mem (xs : List Value) (x : Value) (hm : x ∈ xs)
    (h : wireOkList xs = true) : wireOk x = true := by
  induction xs with
  | nil => cases hm
  | cons y ys ih =>
    rw [wireOkList, Bool.and_eq_true] at h
    rcases List.mem_cons.mp hm with rfl | hm2
    · exact h.1
    · exact ih hm2 h.2

theorem wireOkKVs_mem (kvs : List (String × Value)) (kv : String × Value) (hm : kv ∈ kvs)
    (h : wireOkKVs kvs = true) :
    (strBytes kv.1).length < 2 ^ 32 ∧ wireOk kv.2 = true := by
  induction kvs with
  | nil => cases hm
  | cons p ps ih =>
    obtain ⟨k, v⟩ := p
    rw [wireOkKVs, Bool.and_eq_true, Bool.and_eq_true] at h
    rcases List.mem_cons.mp hm with rfl | hm2
    · exact ⟨by simpa using h.1, h.2.1⟩
    · exact ih hm2 h.2.2

theorem parseListWith_encode (f : Nat) (xs : List Value)
    (h : ∀ x, x ∈ xs → ∀ rest, parseMp f (encodeValue x ++ rest) = some (x, rest)) :
    ∀ rest, parseListWith (parseMp f) xs.length (encodeValueList xs ++ rest) =
      some (xs, rest) := by
  induction xs with
  | nil => intro rest; rfl
  | cons x xs ih =>
    intro rest
    show parseListWith (parseMp f) (xs.length + 1) (encodeValueList (x :: xs) ++ rest) = _
    rw [encodeValueList, List.append_assoc, parseListWith,
      h x (List.mem_cons_self x xs) _]
    dsimp only
    rw [ih (fun y hy rest2 => h y (List.mem_cons_of_mem x hy) rest2) rest]

theorem parseKVsWith_encode (f : Nat) (kvs : List (String × Value))
    (hkey : ∀ kv, kv ∈ kvs → ∀ rest,
      parseMp f ((strHeader (strBytes kv.1).length ++ strBytes kv.1) ++ rest) =
        some (Value.str kv.1, rest))
    (hval : ∀ kv, kv ∈ kvs → ∀ rest,
      parseMp f (encodeValue kv.2 ++ rest) = some (kv.2, rest)) :
    ∀ rest, parseKVsWith (parseMp f) kvs.length (encodeValueKVs kvs ++ rest) =
      some (kvs, rest) := by
  induction kvs with
  | nil => intro rest; rfl
  | cons p ps ih =>
    obtain ⟨k, v⟩ := p
    intro rest
    show parseKVsWith (parseMp f) (ps.length + 1) (encodeValueKVs ((k, v) :: ps) ++ rest) = _
    rw [encodeValueKVs]
    have hsplit :
        (strHeader (strBytes k).length ++ strBytes k ++ encodeValue v ++
            encodeValueKVs ps) ++ rest =
          (strHeader (strBytes k).length ++ strBytes k) ++
            (encodeValue v ++ (encodeValueKVs ps ++ rest)) := by
      simp [List.append_assoc]
    rw [hsplit, parseKVsWith, hkey (k, v) (List.mem_cons_self _ _) _]
    dsimp only
    rw [hval (k, v) (List.mem_cons_self _ _) _]
    dsimp only
    rw [ih (fun kv hkv rest2 => hkey kv (List.mem_cons_of_mem _ hkv) rest2)
      (fun kv hkv rest2 => hval kv (List.mem_cons_of_mem _ hkv) rest2) rest]

theorem parseMp_encodeValue (v : Value) :
    wireOk v = true →
      ∀ f rest, (encodeValue v).length ≤ f →
        parseMp f (encodeValue v ++ rest) = some (v, rest) := by
  induction v using Value.inductionOn with
  | hnull =>
    intro _ f rest hf
    obtain ⟨g, rfl⟩ : ∃ g, f = g + 1 := ⟨f - 1, by simp [encodeValue] at hf; omega⟩
    show parseMp (g + 1) ([192] ++ rest) = _
    rw [List.singleton_append, parseMp_m192]
  | hbool b =>
    intro _ f rest hf
    cases b with
    | false =>
      obtain ⟨g, rfl⟩ : ∃ g, f = g + 1 := ⟨f - 1, by simp [encodeValue] at hf; omega⟩
      show parseMp (g + 1) ([194] ++ rest) = _
      rw [List.singleton_append, parseMp_m194]
    | true =>
      obtain ⟨g, rfl⟩ : ∃ g, f = g + 1 := ⟨f - 1, by simp [encodeValue] at hf; omega⟩
      show parseMp (g + 1) ([195] ++ rest) = _
      rw [List.singleton_append, parseMp_m195]
  | hnum n =>
    intro h f rest hf
    rw [wireOk, Bool.and_eq_true, decide_eq_true_iff, decide_eq_true_iff] at h
    have hp := encodeValue_length_pos (Value.num n)
    exact parseMp_encodeNum n h.1 h.2 f rest (by omega)
  | hstr s =>
    intro h f rest hf
    rw [wireOk, decide_eq_true_iff] at h
    have hp := encodeValue_length_pos (Value.str s)
    exact parseMp_encodeStr s h f rest (by omega)
  | hbytes bs =>
    intro h f rest hf
    rw [wireOk, decide_eq_true_iff] at h
    have hp := encodeValue_length_pos (Value.bytes bs)
    exact parseMp_encodeBin bs h f rest (by omega)
  | harr xs ih =>
    intro h f rest hf
    rw [wireOk, Bool.and_eq_true, decide_eq_true_iff] at h
    obtain ⟨hlen, hlist⟩ := h
    have hp := encodeValue_length_pos (Value.arr xs)
    obtain ⟨g, rfl⟩ : ∃ g, f = g + 1 := ⟨f - 1, by omega⟩
    have hbody : (encodeValueList xs).length ≤ g := by
      rw [encodeValue, List.length_append] at hf
      have : 1 ≤ (arrHeader xs.length).length := by
        rw [arrHeader]
        split_ifs <;>
          simp only [List.length_cons, List.length_nil, beBytes_length] <;> omega
      omega
    have helems : ∀ x, x ∈ xs → ∀ rest2,
        parseMp g (encodeValue x ++ rest2) = some (x, rest2) := by
      intro x hx rest2
      exact ih x hx (wireOkList_mem xs x hx hlist) g rest2
        (le_trans (encodeValueList_mem_le xs x hx) hbody)
    show parseMp (g + 1) ((arrHeader xs.length ++ encodeValueList xs) ++ rest) = _
    rw [arrHeader]
    split_ifs with hc1 hc2 <;>
      simp only [List.cons_append, List.nil_append, List.append_assoc]
    · rw [parseMp_fixarr g _ _ hc1, parseListWith_encode g xs helems rest]
      rfl
    · rw [parseMp_m220, readLen_exact 2 _ _ (by omega)]
      dsimp only
      rw [parseListWith_encode g xs helems rest]
      rfl
    · rw [parseMp_m221, readLen_exact 4 _ _ (by omega)]
      dsimp only
      rw [parseListWith_encode g xs helems rest]
      rfl
  | hobj kvs ih =>
    intro h f rest hf
    rw [wireOk, Bool.and_eq_true, decide_eq_true_iff] at h
    obtain ⟨hlen, hkvs⟩ := h
    have hp := encodeValue_length_pos (Value.obj kvs)
    obtain ⟨g, rfl⟩ : ∃ g, f = g + 1 := ⟨f - 1, by omega⟩
    have hbody : (encodeValueKVs kvs).length ≤ g := by
      rw [encodeValue, List.length_append] at hf
      have : 1 ≤ (mapHeader kvs.length).length := by
        rw [mapHeader]
        split_ifs <;>
          simp only [List.length_cons, List.length_nil, beBytes_length] <;> omega
      omega
    have hkeys : ∀ kv, kv ∈ kvs → ∀ rest2,
        parseMp g ((strHeader (strBytes kv.1).length ++ strBytes kv.1) ++ rest2) =
          some (Value.str kv.1, rest2) := by
      intro kv hkv rest2
      have hb := (wireOkKVs_mem kvs kv hkv hkvs).1
      have hle := (encodeValueKVs_mem_le kvs kv hkv).2
      have hkp : 1 ≤ (strHeader (strBytes kv.1).length ++ strBytes kv.1).length := by
        rw [List.length_append, strHeader]
        split_ifs <;>
          simp only [List.length_cons, List.length_nil, List.length_append,
            beBytes_length] <;> omega
      exact parseMp_encodeStr kv.1 hb g rest2 (by omega)
    have hvals : ∀ kv, kv ∈ kvs → ∀ rest2,
        parseMp g (encodeValue kv.2 ++ rest2) = some (kv.2, rest2) := by
      intro kv hkv rest2
      have hw := (wireOkKVs_mem kvs kv hkv hkvs).2
      have hle := (encodeValueKVs_mem_le kvs kv hkv).1
      exact ih kv hkv hw g rest2 (by omega)
    show parseMp (g + 1) ((mapHeader kvs.length ++ encodeValueKVs kvs) ++ rest) = _
    rw [mapHeader]
    split_ifs with hc1 hc2 <;>
      simp only [List.cons_append, List.nil_append, List.append_assoc]
    · rw [parseMp_fixmap g _ _ hc1, parseKVsWith_encode g kvs hkeys hvals rest]
      rfl
    · rw [parseMp_m222, readLen_exact 2 _ _ (by omega)]
      dsimp only
      rw [parseKVsWith_encode g kvs hkeys hvals rest]
      rfl
    · rw [parseMp_m223, readLen_exact 4 _ _ (by omega)]
      dsimp only
      rw [parseKVsWith_encode g kvs hkeys hvals rest]
      rfl

/-! ### BTreeMap sorting and untagged-decode lemmas -/

theorem charsLt_irrefl (as : List Char) : charsLt as as = false := by
  induction as with
  | nil => rfl
  | cons a l ih => rw [charsLt, if_neg (by omega), if_neg (by omega)]; exact ih

theorem charsLt_asymm (as bs : List Char) (h : charsLt as bs = true) :
    charsLt bs as = false := by
  induction as generalizing bs with
  | nil =>
    cases bs with
    | nil => exact absurd h (by rw [charsLt]; simp)
    | cons b l => rfl
  | cons a l ih =>
    cases bs with
    | nil => exact absurd h (by rw [charsLt]; simp)
    | cons b m =>
      rw [charsLt] at h ⊢
      by_cases h1 : a.toNat < b.toNat
      · rw [if_neg (by omega), if_pos h1]
      · by_cases h2 : b.toNat < a.toNat
        · rw [if_pos h2]
          rw [if_neg h1, if_pos h2] at h
          exact absurd h (by simp)
        · rw [if_neg h2, if_neg h1]
          rw [if_neg h1, if_neg h2] at h
          exact ih m h

theorem char_toNat_injective (a b : Char) (h : a.toNat = b.toNat) : a = b := by
  have h2 := congrArg Char.ofNat h
  rwa [Char.ofNat_toNat, Char.ofNat_toNat] at h2

theorem charsLt_total_eq (as bs : List Char) (h1 : charsLt as bs = false)
    (h2 : charsLt bs as = false) : as = bs := by
  induction as generalizing bs with
  | nil =>
    cases bs with
    | nil => rfl
    | cons b m => exact absurd h1 (by rw [charsLt]; simp)
  | cons a l ih =>
    cases bs with
    | nil => exact absurd h2 (by rw [charsLt]; simp)
    | cons b m =>
      rw [charsLt] at h1 h2
      by_cases hc1 : a.toNat < b.toNat
      · rw [if_pos hc1] at h1
        exact absurd h1 (by simp)
      · by_cases hc2 : b.toNat < a.toNat
        · rw [if_pos hc2] at h2
          exact absurd h2 (by simp)
        · rw [if_neg hc1, if_neg hc2] at h1
          rw [if_neg hc2, if_neg hc1] at h2
          rw [char_toNat_injective a b (by omega), ih m h1 h2]

theorem strLt_asymm (s t : String) (h : strLt s t = true) : strLt t s = false :=
  charsLt_asymm s.data t.data h

theorem strLt_ne (s t : String) (h : strLt s t = true) : s ≠ t := by
  intro he
  subst he
  rw [strLt, charsLt_irrefl] at h
  exact absurd h (by simp)

theorem strLt_of_not (s t : String) (h1 : strLt s t = false) (h2 : s ≠ t) :
    strLt t s = true := by
  cases hc : strLt t s with
  | true => rfl
  | false =>
    exact absurd (congrArg String.mk (charsLt_total_eq s.data t.data h1 hc)) (by
      simpa using h2)

/-- Inserting a key greater than every key of the accumulator appends. -/
theorem insertKV_all_lt (k : String) (v : Value) (acc : List (String × Value))
    (h : ∀ p, p ∈ acc → strLt p.1 k = true) :
    insertKV k v acc = acc ++ [(k, v)] := by
  induction acc with
  | nil => rfl
  | cons p ps ih =>
    obtain ⟨k2, v2⟩ := p
    have hlt := h (k2, v2) (List.mem_cons_self _ _)
    rw [insertKV, if_neg (by simp [strLt_asymm k2 k hlt]),
      if_neg (by exact fun he => strLt_ne k2 k hlt he.symm),
      ih (fun p hp => h p (List.mem_cons_of_mem _ hp))]
    rfl

/-- Folding sorted-insert over a list whose keys strictly ascend, and
all of whose keys exceed those of the accumulator, appends it. -/
theorem foldl_insertKV_sorted (kvs : List (String × Value)) :
    ∀ acc, (∀ p, p ∈ acc → ∀ q, q ∈ kvs → strLt p.1 q.1 = true) →
      keysStrictSorted kvs = true →
      List.foldl (fun acc kv => insertKV kv.1 kv.2 acc) acc kvs = acc ++ kvs := by
  induction kvs with
  | nil => intro acc _ _; simp
  | cons p ps ih =>
    intro acc hacc hsorted
    obtain ⟨k, v⟩ := p
    rw [keysStrictSorted, Bool.and_eq_true, List.all_eq_true] at hsorted
    rw [List.foldl_cons]
    rw [show insertKV k v acc = acc ++ [(k, v)] from
      insertKV_all_lt k v acc (fun q hq => hacc q hq (k, v) (List.mem_cons_self _ _))]
    rw [ih (acc ++ [(k, v)]) (by
        intro q hq r hr
        rcases List.mem_append.mp hq with hq2 | hq2
        · exact hacc q hq2 r (List.mem_cons_of_mem _ hr)
        · rw [List.mem_singleton.mp hq2]
          exact hsorted.1 r hr)
      hsorted.2]
    simp

/-- `sortKVs` fixes an already canonically sorted association list. -/
theorem sortKVs_sorted (kvs : List (String × Value))
    (h : keysStrictSorted kvs = true) : sortKVs kvs = kvs := by
  rw [sortKVs, foldl_insertKV_sorted kvs [] (by intro p hp; cases hp) h]
  rfl

theorem charsLt_trans (as bs cs : List Char) (h1 : charsLt as bs = true)
    (h2 : charsLt bs cs = true) : charsLt as cs = true := by
  induction as generalizing bs cs with
  | nil =>
    cases cs with
    | nil =>
      cases bs with
      | nil => exact h1
      | cons b m => exact absurd h2 (by rw [charsLt]; simp)
    | cons c l => rw [charsLt]
  | cons a l ih =>
    cases bs with
    | nil => exact absurd h1 (by rw [charsLt]; simp)
    | cons b m =>
      cases cs with
      | nil => exact absurd h2 (by rw [charsLt]; simp)
      | cons c p =>
        rw [charsLt] at h1 h2 ⊢
        by_cases hab : a.toNat < b.toNat
        · by_cases hbc : b.toNat < c.toNat
          · rw [if_pos (by omega)]
          · rw [if_neg hbc] at h2
            by_cases hcb : c.toNat < b.toNat
            · rw [if_pos hcb] at h2
              exact absurd h2 (by simp)
            · rw [if_pos (by omega)]
        · rw [if_neg hab] at h1
          by_cases hba : b.toNat < a.toNat
          · rw [if_pos hba] at h1
            exact absurd h1 (by simp)
          · rw [if_neg hba] at h1
            by_cases hbc : b.toNat < c.toNat
            · rw [if_pos (by omega)]
            · rw [if_neg hbc] at h2
              by_cases hcb : c.toNat < b.toNat
              · rw [if_pos hcb] at h2
                exact absurd h2 (by simp)
              · rw [if_neg hcb] at h2
                rw [if_neg (by omega), if_neg (by omega)]
                exact ih m p h1 h2

theorem strLt_trans (s t u : String) (h1 : strLt s t = true) (h2 : strLt t u = true) :
    strLt s u = true :=
  charsLt_trans s.data t.data u.data h1 h2

theorem mem_insertKV (k : String) (v : Value) (l : List (String × Value))
    (p : String × Value) (hp : p ∈ insertKV k v l) : p = (k, v) ∨ p ∈ l := by
  induction l with
  | nil => simpa [insertKV] using hp
  | cons q qs ih =>
    obtain ⟨k2, v2⟩ := q
    rw [insertKV] at hp
    split_ifs at hp with hc1 hc2
    · rcases List.mem_cons.mp hp with h | h
      · exact Or.inl h
      · exact Or.inr h
    · rcases List.mem_cons.mp hp with h | h
      · exact Or.inl h
      · exact Or.inr (List.mem_cons_of_mem _ h)
    · rcases List.mem_cons.mp hp with h | h
      · exact Or.inr (h ▸ List.mem_cons_self _ _)
      · rcases ih h with h2 | h2
        · exact Or.inl h2
        · exact Or.inr (List.mem_cons_of_mem _ h2)

theorem insertKV_front (k : String) (v : Value) (l : List (String × Value))
    (h : ∀ p, p ∈ l → strLt k p.1 = true) : insertKV k v l = (k, v) :: l := by
  cases l with
  | nil => rfl
  | cons q qs =>
    obtain ⟨k2, v2⟩ := q
    rw [insertKV, if_pos (h (k2, v2) (List.mem_cons_self _ _))]

theorem keysStrictSorted_all_gt (l : List (String × Value))
    (h : keysStrictSorted l = true) (k : String) (v : Value)
    (hhead : ∀ p, p ∈ l → strLt k p.1 = true) :
    keysStrictSorted ((k, v) :: l) = true := by
  rw [keysStrictSorted, Bool.and_eq_true, List.all_eq_true]
  exact ⟨fun p hp => hhead p hp, h⟩

theorem insertKV_sorted (k : String) (v : Value) (l : List (String × Value))
    (h : keysStrictSorted l = true) :
    keysStrictSorted (insertKV k v l) = true := by
  induction l with
  | nil => simp [insertKV, keysStrictSorted]
  | cons q qs ih =>
    obtain ⟨k2, v2⟩ := q
    rw [keysStrictSorted, Bool.and_eq_true, List.all_eq_true] at h
    obtain ⟨hall, hqs⟩ := h
    rw [insertKV]
    split_ifs with hc1 hc2
    · refine keysStrictSorted_all_gt _ (keysStrictSorted_all_gt qs hqs k2 v2 hall) k v ?_
      intro p hp
      rcases List.mem_cons.mp hp with rfl | hp2
      · exact hc1
      · exact strLt_trans _ _ _ hc1 (hall p hp2)
    · subst hc2
      exact keysStrictSorted_all_gt qs hqs k v hall
    · have hk2k : strLt k2 k = true := strLt_of_not k k2 (by simpa using hc1) hc2
      refine keysStrictSorted_all_gt _ (ih hqs) k2 v2 ?_
      intro p hp
      rcases mem_insertKV k v qs p hp with rfl | hp2
      · exact hk2k
      · exact hall p hp2

theorem lookupKV_insertKV (k c : String) (v : Value) (l : List (String × Value)) :
    lookupKV (insertKV k v l) c = if k = c then some v else lookupKV l c := by
  induction l with
  | nil => rfl
  | cons q qs ih =>
    obtain ⟨k2, v2⟩ := q
    rw [insertKV]
    by_cases hc1 : strLt k k2 = true
    · rw [if_pos hc1]
      rfl
    · rw [if_neg hc1]
      by_cases hc2 : k = k2
      · rw [if_pos hc2]
        subst hc2
        show (if k = c then some v else lookupKV qs c) = _
        by_cases hd : k = c
        · rw [if_pos hd, if_pos hd]
        · rw [if_neg hd, if_neg hd]
          show _ = if k = c then some v2 else lookupKV qs c
          rw [if_neg hd]
      · rw [if_neg hc2]
        show (if k2 = c then some v2 else lookupKV (insertKV k v qs) c) = _
        by_cases hd : k2 = c
        · rw [if_pos hd, if_neg (fun he => hc2 (he.trans hd.symm))]
          show _ = if k2 = c then some v2 else lookupKV qs c
          rw [if_pos hd]
        · rw [if_neg hd, ih]
          by_cases he : k = c
          · rw [if_pos he, if_pos he]
          · rw [if_neg he, if_neg he]
            show _ = if k2 = c then some v2 else lookupKV qs c
            rw [if_neg hd]

theorem removeKV_cons (q : String × Value) (qs : List (String × Value)) (c : String) :
    removeKV (q :: qs) c = if q.1 = c then removeKV qs c else q :: removeKV qs c := by
  rw [removeKV, List.filter_cons]
  by_cases h : q.1 = c
  · rw [if_neg (by simpa using h), if_pos h]
    rfl
  · rw [if_pos (by simpa using h), if_neg h]
    rfl

theorem removeKV_insertKV_eq (c : String) (v : Value) (l : List (String × Value)) :
    removeKV (insertKV c v l) c = removeKV l c := by
  induction l with
  | nil => simp [insertKV, removeKV]
  | cons q qs ih =>
    obtain ⟨k2, v2⟩ := q
    rw [insertKV]
    split_ifs with hc1 hc2
    · rw [removeKV_cons, if_pos rfl]
    · subst hc2
      rw [removeKV_cons, if_pos rfl, removeKV_cons, if_pos rfl]
    · rw [removeKV_cons, removeKV_cons, ih]

theorem removeKV_insertKV_ne (k c : String) (v : Value) (l : List (String × Value))
    (hne : k ≠ c) (hs : keysStrictSorted l = true) :
    removeKV (insertKV k v l) c = insertKV k v (removeKV l c) := by
  induction l with
  | nil => simp [insertKV, removeKV, List.filter_cons, hne]
  | cons q qs ih =>
    obtain ⟨k2, v2⟩ := q
    rw [keysStrictSorted, Bool.and_eq_true, List.all_eq_true] at hs
    obtain ⟨hall, hqs⟩ := hs
    rw [insertKV]
    split_ifs with hc1 hc2
    · rw [removeKV_cons, if_neg (show ¬ ((k, v).1 = c) from by simpa using hne),
        removeKV_cons]
      by_cases hd : k2 = c
      · rw [if_pos hd]
        have hfront := insertKV_front k v (removeKV qs c) (fun p hp => by
          have hpq : p ∈ qs := List.mem_of_mem_filter hp
          exact strLt_trans _ _ _ hc1 (hall p hpq))
        rw [hfront]
      · rw [if_neg hd, insertKV, if_pos hc1]
    · subst hc2
      rw [removeKV_cons, if_neg (show ¬ ((k, v).1 = c) from by simpa using hne),
        removeKV_cons, if_neg (show ¬ ((k, v2).1 = c) from by simpa using hne),
        insertKV, if_neg (by simp [strLt, charsLt_irrefl]), if_pos rfl]
    · rw [removeKV_cons]
      by_cases hd : k2 = c
      · rw [if_pos (show (k2, v2).1 = c from hd), ih hqs, removeKV_cons,
          if_pos (show (k2, v2).1 = c from hd)]
      · rw [if_neg (show ¬ ((k2, v2).1 = c) from hd), ih hqs, removeKV_cons,
          if_neg (show ¬ ((k2, v2).1 = c) from hd), insertKV, if_neg hc1, if_neg hc2]

theorem removeKV_foldl_insert (l : List (String × Value)) (c : String) :
    ∀ acc, keysStrictSorted acc = true →
      removeKV (List.foldl (fun acc kv => insertKV kv.1 kv.2 acc) acc l) c =
        List.foldl (fun acc kv => insertKV kv.1 kv.2 acc) (removeKV acc c) (removeKV l c) := by
  induction l with
  | nil => intro acc _; rfl
  | cons q l ih =>
    intro acc hacc
    obtain ⟨k, v⟩ := q
    rw [List.foldl_cons, removeKV_cons]
    by_cases hd : k = c
    · rw [if_pos (show (k, v).1 = c from hd)]
      rw [ih (insertKV k v acc) (insertKV_sorted k v acc hacc)]
      subst hd
      rw [removeKV_insertKV_eq]
    · rw [if_neg (show ¬ ((k, v).1 = c) from hd)]
      rw [ih (insertKV k v acc) (insertKV_sorted k v acc hacc), List.foldl_cons,
        removeKV_insertKV_ne k c v acc hd hacc]

/-- Removing a key commutes with collection into the sorted map. -/
theorem removeKV_sortKVs (l : List (String × Value)) (c : String) :
    removeKV (sortKVs l) c = sortKVs (removeKV l c) := by
  rw [sortKVs, sortKVs, removeKV_foldl_insert l c [] rfl]
  rfl

theorem lookupKV_foldl_insert (l : List (String × Value)) (c : String)
    (hl : ∀ kv, kv ∈ l → kv.1 ≠ c) :
    ∀ acc, lookupKV (List.foldl (fun acc kv => insertKV kv.1 kv.2 acc) acc l) c =
      lookupKV acc c := by
  induction l with
  | nil => intro acc; rfl
  | cons q l ih =>
    intro acc
    obtain ⟨k, v⟩ := q
    rw [List.foldl_cons,
      ih (fun kv hkv => hl kv (List.mem_cons_of_mem _ hkv)) (insertKV k v acc),
      lookupKV_insertKV, if_neg (hl (k, v) (List.mem_cons_self _ _))]

theorem removeKV_not_mem (l : List (String × Value)) (c : String)
    (h : ∀ kv, kv ∈ l → kv.1 ≠ c) : removeKV l c = l := by
  induction l with
  | nil => rfl
  | cons q l ih =>
    rw [removeKV_cons, if_neg (h q (List.mem_cons_self _ _)),
      ih (fun kv hkv => h kv (List.mem_cons_of_mem _ hkv))]

theorem isByteNum_toJson (x : Value) : isByteNum (toJson x) = isByteNum x := by
  cases x <;> rfl

theorem all_isByteNum_toJsonList (xs : List Value) :
    (toJsonList xs).all isByteNum = xs.all isByteNum := by
  induction xs with
  | nil => rfl
  | cons x l ih =>
    rw [toJsonList, List.all_cons, List.all_cons, isByteNum_toJson, ih]

theorem untagList_toJsonList (xs : List Value)
    (h : ∀ x, x ∈ xs → normalValue x = true → untagValue (toJson x) = x)
    (hn : normalList xs = true) : untagList (toJsonList xs) = xs := by
  induction xs with
  | nil => rfl
  | cons x l ih =>
    rw [normalList, Bool.and_eq_true] at hn
    rw [toJsonList, untagList, h x (List.mem_cons_self _ _) hn.1,
      ih (fun y hy => h y (List.mem_cons_of_mem _ hy)) hn.2]

theorem untagKVs_toJsonKVs (kvs : List (String × Value))
    (h : ∀ kv, kv ∈ kvs → normalValue kv.2 = true → untagValue (toJson kv.2) = kv.2)
    (hn : normalKVs kvs = true) : untagKVs (toJsonKVs kvs) = kvs := by
  induction kvs with
  | nil => rfl
  | cons q qs ih =>
    obtain ⟨k, v⟩ := q
    rw [normalKVs, Bool.and_eq_true, Bool.and_eq_true] at hn
    rw [toJsonKVs, untagKVs, h (k, v) (List.mem_cons_self _ _) hn.2.1,
      ih (fun kv hkv => h kv (List.mem_cons_of_mem _ hkv)) hn.2.2]

theorem all_keys_toJsonKVs (k : String) (rest : List (String × Value)) :
    (toJsonKVs rest).all (fun kv2 => strLt k kv2.1) =
      rest.all (fun kv2 => strLt k kv2.1) := by
  induction rest with
  | nil => rfl
  | cons q qs ih =>
    obtain ⟨k2, v2⟩ := q
    rw [toJsonKVs, List.all_cons, List.all_cons, ih]

theorem keysStrictSorted_toJsonKVs (kvs : List (String × Value)) :
    keysStrictSorted (toJsonKVs kvs) = keysStrictSorted kvs := by
  induction kvs with
  | nil => rfl
  | cons q qs ih =>
    obtain ⟨k, v⟩ := q
    rw [toJsonKVs, keysStrictSorted, keysStrictSorted, ih, all_keys_toJsonKVs]

/-- The untagged decoder is a left inverse of the JSON indirection on
normal payloads. -/
theorem untagValue_toJson (v : Value) (h : normalValue v = true) :
    untagValue (toJson v) = v := by
  induction v using Value.inductionOn with
  | hnull => rfl
  | hbool b => rfl
  | hnum n => rfl
  | hstr s => rfl
  | hbytes bs =>
    rw [normalValue, Bool.and_eq_true, List.all_eq_true] at h
    rw [toJson, untagValue, if_pos (by
      rw [List.all_eq_true]
      intro x hx
      obtain ⟨b, hb, rfl⟩ := List.mem_map.mp hx
      have := h.1 b hb
      rw [isByteNum]
      simp only [decide_eq_true_iff, Int.ofNat_eq_natCast] at this ⊢
      omega)]
    rw [List.map_map]
    congr 1
    rw [show (byteOfNum ∘ fun b => Value.num (Int.ofNat b)) = id from ?_, List.map_id]
    funext b
    simp [byteOfNum, Function.comp]
  | harr xs ih =>
    rw [normalValue, Bool.and_eq_true, Bool.and_eq_true] at h
    obtain ⟨hnb, hlen, hnl⟩ := h
    rw [Bool.not_eq_true'] at hnb
    rw [toJson, untagValue, if_neg (by rw [all_isByteNum_toJsonList, hnb]; simp),
      untagList_toJsonList xs ih hnl]
  | hobj kvs ih =>
    rw [normalValue, Bool.and_eq_true, Bool.and_eq_true] at h
    obtain ⟨hsorted, hlen, hnk⟩ := h
    rw [toJson, sortKVs_sorted _ (by rw [keysStrictSorted_toJsonKVs]; exact hsorted),
      untagValue, untagKVs_toJsonKVs kvs ih hnk]

theorem toJsonList_length (xs : List Value) : (toJsonList xs).length = xs.length := by
  induction xs with
  | nil => rfl
  | cons x l ih => rw [toJsonList, List.length_cons, List.length_cons, ih]

theorem toJsonKVs_length (kvs : List (String × Value)) :
    (toJsonKVs kvs).length = kvs.length := by
  induction kvs with
  | nil => rfl
  | cons q qs ih =>
    obtain ⟨k, v⟩ := q
    rw [toJsonKVs, List.length_cons, List.length_cons, ih]

theorem insertKV_length (k : String) (v : Value) (l : List (String × Value)) :
    (insertKV k v l).length ≤ l.length + 1 := by
  induction l with
  | nil => simp [insertKV]
  | cons q qs ih =>
    obtain ⟨k2, v2⟩ := q
    rw [insertKV]
    split_ifs <;> simp only [List.length_cons] <;> omega

theorem foldl_insertKV_length (l : List (String × Value)) :
    ∀ acc, (List.foldl (fun acc kv => insertKV kv.1 kv.2 acc) acc l).length ≤
      acc.length + l.length := by
  induction l with
  | nil => intro acc; simp
  | cons q qs ih =>
    intro acc
    rw [List.foldl_cons]
    have h1 := ih (insertKV q.1 q.2 acc)
    have h2 := insertKV_length q.1 q.2 acc
    rw [List.length_cons]
    omega

theorem sortKVs_length_le (l : List (String × Value)) :
    (sortKVs l).length ≤ l.length := by
  have := foldl_insertKV_length l []
  rw [sortKVs]
  simpa using this

theorem mem_foldl_insertKV (l : List (String × Value)) (p : String × Value) :
    ∀ acc, p ∈ List.foldl (fun acc kv => insertKV kv.1 kv.2 acc) acc l →
      p ∈ acc ∨ p ∈ l := by
  induction l with
  | nil => intro acc hp; exact Or.inl hp
  | cons q qs ih =>
    intro acc hp
    rw [List.foldl_cons] at hp
    rcases ih (insertKV q.1 q.2 acc) hp with h | h
    · rcases mem_insertKV q.1 q.2 acc p h with h2 | h2
      · exact Or.inr (by rw [h2]; exact List.mem_cons_self _ _)
      · exact Or.inl h2
    · exact Or.inr (List.mem_cons_of_mem _ h)

theorem mem_sortKVs (l : List (String × Value)) (p : String × Value)
    (hp : p ∈ sortKVs l) : p ∈ l := by
  rcases mem_foldl_insertKV l p [] hp with h | h
  · cases h
  · exact h

theorem mem_toJsonKVs (kvs : List (String × Value)) (p : String × Value)
    (hp : p ∈ toJsonKVs kvs) : ∃ kv, kv ∈ kvs ∧ p = (kv.1, toJson kv.2) := by
  induction kvs with
  | nil => cases hp
  | cons q qs ih =>
    obtain ⟨k, v⟩ := q
    rw [toJsonKVs] at hp
    rcases List.mem_cons.mp hp with h | h
    · exact ⟨(k, v), List.mem_cons_self _ _, h⟩
    · obtain ⟨kv, hkv, he⟩ := ih h
      exact ⟨kv, List.mem_cons_of_mem _ hkv, he⟩

theorem normalKVs_mem (kvs : List (String × Value)) (kv : String × Value)
    (hm : kv ∈ kvs) (h : normalKVs kvs = true) :
    (strBytes kv.1).length < 2 ^ 32 ∧ normalValue kv.2 = true := by
  induction kvs with
  | nil => cases hm
  | cons p ps ih =>
    obtain ⟨k, v⟩ := p
    rw [normalKVs, Bool.and_eq_true, Bool.and_eq_true] at h
    rcases List.mem_cons.mp hm with rfl | hm2
    · exact ⟨by simpa using h.1, h.2.1⟩
    · exact ih hm2 h.2.2

theorem wireOkKVs_of_forall (l : List (String × Value))
    (h : ∀ kv, kv ∈ l → (strBytes kv.1).length < 2 ^ 32 ∧ wireOk kv.2 = true) :
    wireOkKVs l = true := by
  induction l with
  | nil => rfl
  | cons q qs ih =>
    obtain ⟨k, v⟩ := q
    have hq := h (k, v) (List.mem_cons_self _ _)
    rw [wireOkKVs, Bool.and_eq_true, Bool.and_eq_true]
    exact ⟨by simpa using hq.1, hq.2,
      ih (fun kv hkv => h kv (List.mem_cons_of_mem _ hkv))⟩

theorem wireOkList_map_num (bs : List Nat) (h : ∀ b, b ∈ bs → b < 256) :
    wireOkList (bs.map (fun b => Value.num (Int.ofNat b))) = true := by
  induction bs with
  | nil => rfl
  | cons b l ih =>
    rw [List.map_cons, wireOkList, Bool.and_eq_true]
    refine ⟨?_, ih (fun b2 hb2 => h b2 (List.mem_cons_of_mem _ hb2))⟩
    have := h b (List.mem_cons_self _ _)
    rw [wireOk, Bool.and_eq_true]
    constructor <;> simp only [decide_eq_true_iff, Int.ofNat_eq_natCast] <;> omega

theorem wireOkList_toJsonList (xs : List Value)
    (h : ∀ x, x ∈ xs → normalValue x = true → wireOk (toJson x) = true)
    (hn : normalList xs = true) : wireOkList (toJsonList xs) = true := by
  induction xs with
  | nil => rfl
  | cons x l ih =>
    rw [normalList, Bool.and_eq_true] at hn
    rw [toJsonList, wireOkList, Bool.and_eq_true]
    exact ⟨h x (List.mem_cons_self _ _) hn.1,
      ih (fun y hy => h y (List.mem_cons_of_mem _ hy)) hn.2⟩

/-- Normal payloads stay within the wire bounds after the JSON
indirection. -/
theorem wireOk_toJson (v : Value) (h : normalValue v = true) :
    wireOk (toJson v) = true := by
  induction v using Value.inductionOn with
  | hnull => rfl
  | hbool b => rfl
  | hnum n =>
    rw [toJson, wireOk]
    rw [normalValue] at h
    exact h
  | hstr s =>
    rw [toJson, wireOk]
    rw [normalValue] at h
    exact h
  | hbytes bs =>
    rw [normalValue, Bool.and_eq_true, List.all_eq_true] at h
    rw [toJson, wireOk, Bool.and_eq_true]
    refine ⟨by
      rw [List.length_map]
      simpa using h.2, ?_⟩
    exact wireOkList_map_num bs (fun b hb => by simpa using h.1 b hb)
  | harr xs ih =>
    rw [normalValue, Bool.and_eq_true, Bool.and_eq_true] at h
    obtain ⟨-, hlen, hnl⟩ := h
    rw [toJson, wireOk, Bool.and_eq_true]
    refine ⟨by rw [toJsonList_length]; exact hlen, ?_⟩
    exact wireOkList_toJsonList xs ih hnl
  | hobj kvs ih =>
    rw [normalValue, Bool.and_eq_true, Bool.and_eq_true] at h
    obtain ⟨-, hlen, hnk⟩ := h
    rw [toJson, wireOk, Bool.and_eq_true]
    constructor
    · have h1 := sortKVs_length_le (toJsonKVs kvs)
      rw [toJsonKVs_length] at h1
      simp only [decide_eq_true_iff] at hlen ⊢
      omega
    · refine wireOkKVs_of_forall _ ?_
      intro kv hkv
      obtain ⟨kv2, hkv2, rfl⟩ := mem_toJsonKVs kvs kv (mem_sortKVs _ kv hkv)
      obtain ⟨hkey, hval⟩ := normalKVs_mem kvs kv2 hkv2 hnk
      exact ⟨hkey, ih kv2 hkv2 hval⟩

theorem asU64_ofNat (n : Nat) (h : n < 2 ^ 64) :
    asU64 (some (Value.num (Int.ofNat n))) = some n := by
  show (if 0 ≤ Int.ofNat n ∧ Int.ofNat n < 18446744073709551616 then
    some (Int.ofNat n).toNat else none) = some n
  rw [if_pos (by constructor <;> simp only [Int.ofNat_eq_natCast] <;> omega)]
  rw [Int.ofNat_eq_natCast, Int.toNat_natCast]

/-- C4 (amended): on normal messages — wire-representable payloads,
canonical sorted maps, no all-byte arrays (which the untagged decoder
reads back as byte strings), ids within u64, and for responses a map
body avoiding the struct keys — the send path `serde_json::to_value`
plus `rmp_serde` encoding decodes back to the identical message. -/
theorem decode_encode_zeroMessage (m : ZeroMessage) (h : normalMessage m = true) :
    ∃ bytes, encodeZeroMessage m = Except.ok bytes ∧ decodeZeroMessage bytes = some m := by
  cases m with
  | request q =>
    obtain ⟨c, i, p⟩ := q
    simp only [normalMessage, Bool.and_eq_true, decide_eq_true_iff] at h
    obtain ⟨hc, hi, hp⟩ := h
    by_cases hnull : p = Value.null
    · subst hnull
      refine ⟨encodeValue (Value.obj [("cmd", Value.str c),
        ("req_id", Value.num (Int.ofNat i))]), ?_, ?_⟩
      · rw [encodeZeroMessage, ZeroMessage.toJsonValue]
        dsimp only
        rw [requestToJson, if_pos rfl]
        rfl
      · have hwire : wireOk (Value.obj [("cmd", Value.str c),
            ("req_id", Value.num (Int.ofNat i))]) = true := by
          rw [wireOk, Bool.and_eq_true]
          refine ⟨by simp only [decide_eq_true_iff, List.length_cons, List.length_nil]
            <;> omega, ?_⟩
          rw [wireOkKVs, Bool.and_eq_true, Bool.and_eq_true]
          refine ⟨by decide, by simp only [wireOk, decide_eq_true_iff]; exact hc, ?_⟩
          rw [wireOkKVs, Bool.and_eq_true, Bool.and_eq_true]
          refine ⟨by decide, ?_, rfl⟩
          rw [wireOk, Bool.and_eq_true]
          constructor <;> simp only [decide_eq_true_iff, Int.ofNat_eq_natCast] <;> omega
        have hparse := parseMp_encodeValue _ hwire
          ((encodeValue (Value.obj [("cmd", Value.str c),
            ("req_id", Value.num (Int.ofNat i))])).length + 1) [] (by omega)
        rw [List.append_nil] at hparse
        rw [decodeZeroMessage, hparse]
        dsimp only
        rw [interpretMessage]
        rw [show tryResponse [("cmd", Value.str c),
          ("req_id", Value.num (Int.ofNat i))] = none from rfl]
        dsimp only
        rw [tryRequest]
        rw [show lookupKV [("cmd", Value.str c),
          ("req_id", Value.num (Int.ofNat i))] "cmd" = some (Value.str c) from rfl]
        rw [show lookupKV [("cmd", Value.str c),
          ("req_id", Value.num (Int.ofNat i))] "req_id" =
            some (Value.num (Int.ofNat i)) from rfl]
        rw [asU64_ofNat i hi]
        dsimp only [asStr]
        rw [show lookupKV [("cmd", Value.str c),
          ("req_id", Value.num (Int.ofNat i))] "params" = none from rfl]
        rfl
    · refine ⟨encodeValue (Value.obj [("cmd", Value.str c), ("params", toJson p),
        ("req_id", Value.num (Int.ofNat i))]), ?_, ?_⟩
      · rw [encodeZeroMessage, ZeroMessage.toJsonValue]
        dsimp only
        rw [requestToJson, if_neg hnull]
        rfl
      · have hwire : wireOk (Value.obj [("cmd", Value.str c), ("params", toJson p),
            ("req_id", Value.num (Int.ofNat i))]) = true := by
          rw [wireOk, Bool.and_eq_true]
          refine ⟨by simp only [decide_eq_true_iff, List.length_cons, List.length_nil]
            <;> omega, ?_⟩
          rw [wireOkKVs, Bool.and_eq_true, Bool.and_eq_true]
          refine ⟨by decide, by simp only [wireOk, decide_eq_true_iff]; exact hc, ?_⟩
          rw [wireOkKVs, Bool.and_eq_true, Bool.and_eq_true]
          refine ⟨by decide, wireOk_toJson p hp, ?_⟩
          rw [wireOkKVs, Bool.and_eq_true, Bool.and_eq_true]
          refine ⟨by decide, ?_, rfl⟩
          rw [wireOk, Bool.and_eq_true]
          constructor <;> simp only [decide_eq_true_iff, Int.ofNat_eq_natCast] <;> omega
        have hparse := parseMp_encodeValue _ hwire
          ((encodeValue (Value.obj [("cmd", Value.str c), ("params", toJson p),
            ("req_id", Value.num (Int.ofNat i))])).length + 1) [] (by omega)
        rw [List.append_nil] at hparse
        rw [decodeZeroMessage, hparse]
        dsimp only
        rw [interpretMessage]
        rw [show tryResponse [("cmd", Value.str c), ("params", toJson p),
          ("req_id", Value.num (Int.ofNat i))] = none from rfl]
        dsimp only
        rw [tryRequest]
        rw [show lookupKV [("cmd", Value.str c), ("params", toJson p),
          ("req_id", Value.num (Int.ofNat i))] "cmd" = some (Value.str c) from rfl]
        rw [show lookupKV [("cmd", Value.str c), ("params", toJson p),
          ("req_id", Value.num (Int.ofNat i))] "req_id" =
            some (Value.num (Int.ofNat i)) from rfl]
        rw [asU64_ofNat i hi]
        dsimp only [asStr]
        rw [show lookupKV [("cmd", Value.str c), ("params", toJson p),
          ("req_id", Value.num (Int.ofNat i))] "params" = some (toJson p) from rfl]
        dsimp only
        rw [untagValue_toJson p hp]
        rfl
  | response r =>
    obtain ⟨c, t, body⟩ := r
    cases body with
    | null => simp [normalMessage] at h
    | bool b => simp [normalMessage] at h
    | num n => simp [normalMessage] at h
    | str s => simp [normalMessage] at h
    | bytes bs => simp [normalMessage] at h
    | arr xs => simp [normalMessage] at h
    | obj kvs =>
      rw [normalMessage] at h
      simp only [Bool.and_eq_true, decide_eq_true_iff, List.all_eq_true,
        Bool.not_eq_true', beq_eq_false_iff_ne] at h
      obtain ⟨hc, ht, hlen2, hb, hkeys⟩ := h
      have hb' := hb
      simp only [normalValue, Bool.and_eq_true, decide_eq_true_iff] at hb'
      obtain ⟨hsorted, hklen, hnk⟩ := hb'
      have hBkeys : ∀ kv, kv ∈ toJsonKVs kvs → kv.1 ≠ "cmd" ∧ kv.1 ≠ "to" := by
        intro kv hkv
        obtain ⟨kv2, hkv2, rfl⟩ := mem_toJsonKVs kvs kv hkv
        exact hkeys kv2 hkv2
      have hBsorted : keysStrictSorted (toJsonKVs kvs) = true := by
        rw [keysStrictSorted_toJsonKVs]; exact hsorted
      have hjb : toJson (Value.obj kvs) = Value.obj (toJsonKVs kvs) := by
        rw [toJson, sortKVs_sorted _ hBsorted]
      have hlc : lookupKV (List.foldl (fun acc kv => insertKV kv.1 kv.2 acc)
          [("cmd", Value.str c), ("to", Value.num (Int.ofNat t))] (toJsonKVs kvs))
          "cmd" = some (Value.str c) := by
        rw [lookupKV_foldl_insert (toJsonKVs kvs) "cmd"
          (fun kv hkv => (hBkeys kv hkv).1)]
        rfl
      have hlt : lookupKV (List.foldl (fun acc kv => insertKV kv.1 kv.2 acc)
          [("cmd", Value.str c), ("to", Value.num (Int.ofNat t))] (toJsonKVs kvs))
          "to" = some (Value.num (Int.ofNat t)) := by
        rw [lookupKV_foldl_insert (toJsonKVs kvs) "to"
          (fun kv hkv => (hBkeys kv hkv).2)]
        rfl
      have hrm : removeKV (removeKV (List.foldl (fun acc kv => insertKV kv.1 kv.2 acc)
          [("cmd", Value.str c), ("to", Value.num (Int.ofNat t))] (toJsonKVs kvs))
          "cmd") "to" = toJsonKVs kvs := by
        rw [removeKV_foldl_insert (toJsonKVs kvs) "cmd"
            [("cmd", Value.str c), ("to", Value.num (Int.ofNat t))] rfl,
          removeKV_not_mem (toJsonKVs kvs) "cmd" (fun kv hkv => (hBkeys kv hkv).1),
          show removeKV [("cmd", Value.str c), ("to", Value.num (Int.ofNat t))] "cmd" =
            [("to", Value.num (Int.ofNat t))] from rfl,
          removeKV_foldl_insert (toJsonKVs kvs) "to"
            [("to", Value.num (Int.ofNat t))] rfl,
          removeKV_not_mem (toJsonKVs kvs) "to" (fun kv hkv => (hBkeys kv hkv).2),
          show removeKV [("to", Value.num (Int.ofNat t))] "to" = [] from rfl]
        show sortKVs (toJsonKVs kvs) = toJsonKVs kvs
        exact sortKVs_sorted _ hBsorted
      have huB : untagValue (Value.obj (toJsonKVs kvs)) = Value.obj kvs := by
        rw [untagValue,
          untagKVs_toJsonKVs kvs (fun kv _ hv => untagValue_toJson kv.2 hv) hnk]
      refine ⟨encodeValue (Value.obj (List.foldl (fun acc kv => insertKV kv.1 kv.2 acc)
        [("cmd", Value.str c), ("to", Value.num (Int.ofNat t))] (toJsonKVs kvs))),
        ?_, ?_⟩
      · rw [encodeZeroMessage, ZeroMessage.toJsonValue]
        rw [responseToJson]
        rw [hjb]
        rfl
      · have hwire : wireOk (Value.obj (List.foldl
            (fun acc kv => insertKV kv.1 kv.2 acc)
            [("cmd", Value.str c), ("to", Value.num (Int.ofNat t))]
            (toJsonKVs kvs))) = true := by
          rw [wireOk, Bool.and_eq_true]
          constructor
          · have h1 := foldl_insertKV_length (toJsonKVs kvs)
              [("cmd", Value.str c), ("to", Value.num (Int.ofNat t))]
            simp only [List.length_cons, List.length_nil, toJsonKVs_length] at h1
            simp only [decide_eq_true_iff]
            omega
          · refine wireOkKVs_of_forall _ ?_
            intro kv hkv
            rcases mem_foldl_insertKV (toJsonKVs kvs) kv _ hkv with h2 | h2
            · rcases List.mem_cons.mp h2 with rfl | h3
              · constructor
                · show (strBytes "cmd").length < 2 ^ 32
                  decide
                · show wireOk (Value.str c) = true
                  simp only [wireOk, decide_eq_true_iff]
                  exact hc
              · rw [List.mem_singleton.mp h3]
                constructor
                · show (strBytes "to").length < 2 ^ 32
                  decide
                · show wireOk (Value.num (Int.ofNat t)) = true
                  rw [wireOk, Bool.and_eq_true]
                  constructor <;>
                    simp only [decide_eq_true_iff, Int.ofNat_eq_natCast] <;> omega
            · obtain ⟨kv2, hkv2, rfl⟩ := mem_toJsonKVs kvs kv h2
              obtain ⟨hkey, hval⟩ := normalKVs_mem kvs kv2 hkv2 hnk
              exact ⟨hkey, wireOk_toJson kv2.2 hval⟩
        have hparse := parseMp_encodeValue _ hwire
          ((encodeValue (Value.obj (List.foldl (fun acc kv => insertKV kv.1 kv.2 acc)
            [("cmd", Value.str c), ("to", Value.num (Int.ofNat t))]
            (toJsonKVs kvs)))).length + 1) [] (by omega)
        rw [List.append_nil] at hparse
        rw [decodeZeroMessage, hparse]
        dsimp only
        rw [interpretMessage, tryResponse, hlc, hlt, asU64_ofNat t ht]
        dsimp only [asStr]
        rw [hrm, huB]

/-- C4: the claim asserts `decode(encode(m)) == m` for every message
whose payload uses the supported types, explicitly including arrays.
The request below carries the array payload `[1]`; the send path turns
it into MessagePack `[1]` via JSON, but the untagged decoder reads any
array of integers in 0..=255 back as a byte string (`serde_bytes`
accepts buffered sequence content), so the message comes back with
`params` equal to the byte string `\x01` — not the original array. -/
theorem c4_counterexample :
    encodeZeroMessage (ZeroMessage.request ⟨"x", 0, Value.arr [Value.num 1]⟩) =
      Except.ok [131, 163, 99, 109, 100, 161, 120, 166, 112, 97, 114, 97, 109, 115,
        145, 1, 166, 114, 101, 113, 95, 105, 100, 0] ∧
    decodeZeroMessage [131, 163, 99, 109, 100, 161, 120, 166, 112, 97, 114, 97, 109,
        115, 145, 1, 166, 114, 101, 113, 95, 105, 100, 0] =
      some (ZeroMessage.request ⟨"x", 0, Value.bytes [1]⟩) ∧
    ZeroMessage.request ⟨"x", 0, Value.bytes [1]⟩ ≠
      ZeroMessage.request ⟨"x", 0, Value.arr [Value.num 1]⟩ := by
  refine ⟨by decide, by decide, by decide⟩

/-- C4 witness: the round trip at a concrete normal message, a response
whose flattened body is the map `{"body": "ok"}`. -/
theorem decode_encode_zeroMessage_witness :
    normalMessage (ZeroMessage.response ⟨"response", 5,
      Value.obj [("body", Value.str "ok")]⟩) = true ∧
    ∃ bytes, encodeZeroMessage (ZeroMessage.response ⟨"response", 5,
        Value.obj [("body", Value.str "ok")]⟩) = Except.ok bytes ∧
      decodeZeroMessage bytes = some (ZeroMessage.response ⟨"response", 5,
        Value.obj [("body", Value.str "ok")]⟩) :=
  ⟨by decide, decode_encode_zeroMessage _ (by decide)⟩

theorem digitVal_decChar (d : Nat) (h : d < 10) :
    digitVal 10 (decChar d) = some d := by
  interval_cases d <;> decide

theorem digitVal_hexChar (d : Nat) (h : d < 16) :
    digitVal 16 (hexChar d) = some d := by
  interval_cases d <;> decide

theorem digitVal10_hexChar (d : Nat) (h : d < 16) :
    digitVal 10 (hexChar d) = if d < 10 then some d else none := by
  interval_cases d <;> decide

theorem natDigits_congr (radix : Nat) (hr : 2 ≤ radix) :
    ∀ f g n, n < f → n < g → natDigits radix f n = natDigits radix g n := by
  intro f
  induction f with
  | zero => intro g n h; omega
  | succ f ih =>
    intro g n hf hg
    match g with
    | g + 1 =>
      rw [natDigits, natDigits]
      by_cases hn : n < radix
      · rw [if_pos hn, if_pos hn]
      · have hdiv : n / radix < n := Nat.div_lt_self (by omega) (by omega)
        rw [if_neg hn, if_neg hn, ih g (n / radix)
          (by omega) (by omega)]

theorem digitsAux_spec (radix : Nat) (dchar : Nat → Char) (hr : 2 ≤ radix) :
    ∀ f n, n < f →
      digitsAux radix dchar f n = (natDigits radix f n).map dchar := by
  intro f
  induction f with
  | zero => intro n h; omega
  | succ f ih =>
    intro n hf
    rw [digitsAux, natDigits]
    by_cases hn : n < radix
    · rw [if_pos hn, if_pos hn]
      rfl
    · rw [if_neg hn, if_neg hn, List.map_append, ih (n / radix) (by have := Nat.div_lt_self (show 0 < n by omega) (show 1 < radix by omega); omega)]
      rfl

theorem natDigits_lt (radix : Nat) (hr : 2 ≤ radix) :
    ∀ f n, n < f → ∀ d, d ∈ natDigits radix f n → d < radix := by
  intro f
  induction f with
  | zero => intro n h; omega
  | succ f ih =>
    intro n hf d hd
    rw [natDigits] at hd
    by_cases hn : n < radix
    · rw [if_pos hn, List.mem_singleton] at hd
      omega
    · rw [if_neg hn, List.mem_append] at hd
      rcases hd with h | h
      · exact ih (n / radix) (by have := Nat.div_lt_self (show 0 < n by omega) (show 1 < radix by omega); omega) d h
      · rw [List.mem_singleton] at h
        subst h
        exact Nat.mod_lt n (by omega)

theorem natDigits_ne_nil (radix : Nat) (hr : 2 ≤ radix) :
    ∀ f n, n < f → natDigits radix f n ≠ [] := by
  intro f
  induction f with
  | zero => intro n h; omega
  | succ f ih =>
    intro n hf
    rw [natDigits]
    by_cases hn : n < radix
    · rw [if_pos hn]
      simp
    · rw [if_neg hn]
      simp

theorem natDigits_val (radix : Nat) (hr : 2 ≤ radix) :
    ∀ f n, n < f →
      (natDigits radix f n).foldl (fun a d => a * radix + d) 0 = n := by
  intro f
  induction f with
  | zero => intro n h; omega
  | succ f ih =>
    intro n hf
    rw [natDigits]
    by_cases hn : n < radix
    · rw [if_pos hn]
      simp
    · rw [if_neg hn, List.foldl_append, ih (n / radix) (by have := Nat.div_lt_self (show 0 < n by omega) (show 1 < radix by omega); omega)]
      simp only [List.foldl_cons, List.foldl_nil]
      rw [Nat.mul_comm]
      exact Nat.div_add_mod n radix

theorem natDigits_length_le (radix : Nat) (hr : 2 ≤ radix) :
    ∀ k f n, n < f → n < radix ^ k → 1 ≤ k →
      (natDigits radix f n).length ≤ k := by
  intro k
  induction k with
  | zero => intro f n _ _ h; omega
  | succ k ih =>
    intro f n hf hpow _
    match f with
    | f + 1 =>
      rw [natDigits]
      by_cases hn : n < radix
      · rw [if_pos hn]
        simp
      · rw [if_neg hn, List.length_append]
        have hk : 1 ≤ k := by
          by_contra h0
          have : k = 0 := by omega
          subst this
          simp only [pow_succ, pow_zero, one_mul] at hpow
          omega
        have : n / radix < radix ^ k := by
          rw [Nat.div_lt_iff_lt_mul (by omega)]
          calc n < radix ^ (k + 1) := hpow
          _ = radix ^ k * radix := by ring
        have := ih f (n / radix) (by have := Nat.div_lt_self (show 0 < n by omega) (show 1 < radix by omega); omega) this hk
        simp only [List.length_cons, List.length_nil]
        omega

theorem natDigits_head (radix : Nat) (hr : 2 ≤ radix) :
    ∀ f n, n < f → n ≠ 0 → (natDigits radix f n).headD 0 ≠ 0 := by
  intro f
  induction f with
  | zero => intro n h; omega
  | succ f ih =>
    intro n hf hn0
    rw [natDigits]
    by_cases hn : n < radix
    · rw [if_pos hn]
      simpa using hn0
    · rw [if_neg hn]
      have hne := natDigits_ne_nil radix hr f (n / radix) (by have := Nat.div_lt_self (show 0 < n by omega) (show 1 < radix by omega); omega)
      have hd := ih (n / radix) (by have := Nat.div_lt_self (show 0 < n by omega) (show 1 < radix by omega); omega) (by
        intro h0
        rw [Nat.div_eq_zero_iff] at h0 <;> omega)
      match hm : natDigits radix f (n / radix) with
      | [] => exact absurd hm hne
      | d :: rest =>
        rw [hm] at hd
        simpa using hd

theorem takeDigits_nonDigit (radix : Nat) (rest : List Char)
    (h : ∀ c, rest.headD ' ' = c → rest ≠ [] → digitVal radix c = none) :
    takeDigits radix rest = ([], rest) := by
  match rest with
  | [] => rfl
  | c :: rest2 =>
    rw [takeDigits, h c rfl (by simp)]

theorem takeDigits_digitsAux (radix : Nat) (dchar : Nat → Char) (hr : 2 ≤ radix)
    (hd : ∀ d, d < radix → digitVal radix (dchar d) = some d) :
    ∀ f n rest, n < f →
      takeDigits radix (digitsAux radix dchar f n ++ rest) =
        (natDigits radix f n ++ (takeDigits radix rest).1, (takeDigits radix rest).2) := by
  intro f
  induction f with
  | zero => intro n rest h; omega
  | succ f ih =>
    intro n rest hf
    rw [digitsAux, natDigits]
    by_cases hn : n < radix
    · rw [if_pos hn, if_pos hn, List.singleton_append, takeDigits,
        hd n hn]
      rfl
    · rw [if_neg hn, if_neg hn, List.append_assoc, List.singleton_append,
        ih (n / radix) (dchar (n % radix) :: rest) (by have := Nat.div_lt_self (show 0 < n by omega) (show 1 < radix by omega); omega)]
      rw [takeDigits, hd (n % radix) (Nat.mod_lt n (by omega))]
      simp

theorem takeDigits_sublist (radix : Nat) :
    ∀ cs : List Char, ∀ c, c ∈ (takeDigits radix cs).2 → c ∈ cs := by
  intro cs
  induction cs with
  | nil => intro c h; exact h
  | cons a rest ih =>
    intro c h
    rw [takeDigits] at h
    match hv : digitVal radix a with
    | some d =>
      rw [hv] at h
      dsimp only at h
      exact List.mem_cons_of_mem _ (ih c h)
    | none =>
      rw [hv] at h
      exact h

/-- The std `read_number` reads back exactly the digits `Display`
printed, leaving a stream whose head is not a digit. -/
theorem readNumber_decStr (maxDigits : Option Nat) (maxVal : Nat)
    (allowZero : Bool) (n : Nat) (rest : List Char)
    (hn : n ≤ maxVal)
    (hdig : ∀ m, maxDigits = some m → (natDigits 10 (n + 1) n).length ≤ m)
    (hzero : allowZero = true ∨ n ≠ 0 ∨ (natDigits 10 (n + 1) n).length = 1)
    (hrest : ∀ c, rest.headD ' ' = c → rest ≠ [] → digitVal 10 c = none) :
    readNumber 10 maxDigits maxVal allowZero (decStr n ++ rest) = some (n, rest) := by
  have ht := takeDigits_digitsAux 10 decChar (by omega) (fun d h => digitVal_decChar d h)
    (n + 1) n rest (by omega)
  rw [takeDigits_nonDigit 10 rest hrest] at ht
  simp only [List.append_nil] at ht
  have hne := natDigits_ne_nil 10 (by omega) (n + 1) n (by omega)
  have hlead : (!allowZero && ((natDigits 10 (n + 1) n).headD 0 == 0 &&
      decide (1 < (natDigits 10 (n + 1) n).length))) = false := by
    rcases hzero with h | h | h
    · rw [h]; rfl
    · have h2 := natDigits_head 10 (by omega) (n + 1) n (by omega) h
      match hm2 : natDigits 10 (n + 1) n with
      | [] => simp at hm2; exact absurd hm2 hne
      | d :: rest2 =>
        rw [hm2] at h2
        simp only [List.headD_cons] at h2
        simp [h2]
    · rw [h]
      simp
  have hval := natDigits_val 10 (by omega) (n + 1) n (by omega)
  rw [readNumber, decStr, ht]
  dsimp only
  rcases maxDigits with _ | m
  · rw [if_neg (by simpa using hne)]
    rw [if_neg (by simp), hlead, if_neg (by simp), hval, if_neg (by omega)]
  · have hm := hdig m rfl
    rw [if_neg (by simpa using hne)]
    rw [if_neg (by simpa using hm), hlead, if_neg (by simp), hval, if_neg (by omega)]

/-- Hex groups similarly round-trip. -/
theorem readNumber_hexStr (n : Nat) (rest : List Char) (hn : n < 65536)
    (hrest : ∀ c, rest.headD ' ' = c → rest ≠ [] → digitVal 16 c = none) :
    readNumber 16 (some 4) 65535 true (hexStr n ++ rest) = some (n, rest) := by
  rw [readNumber, hexStr]
  have ht := takeDigits_digitsAux 16 hexChar (by omega) (fun d h => digitVal_hexChar d h)
    (n + 1) n rest (by omega)
  rw [takeDigits_nonDigit 16 rest hrest] at ht
  simp only [List.append_nil] at ht
  rw [ht]
  dsimp only
  have hne := natDigits_ne_nil 16 (by omega) (n + 1) n (by omega)
  rw [if_neg (by simpa using hne)]
  have hlen := natDigits_length_le 16 (by omega) 4 (n + 1) n (by omega)
    (by norm_num; omega) (by omega)
  rw [if_neg (by simpa using hlen), if_neg (by simp)]
  rw [natDigits_val 16 (by omega) (n + 1) n (by omega), if_neg (by omega)]

theorem readNumber_octet (n : Nat) (rest : List Char) (hn : n < 256)
    (hrest : ∀ c, rest.headD ' ' = c → rest ≠ [] → digitVal 10 c = none) :
    readNumber 10 (some 3) 255 false (decStr n ++ rest) = some (n, rest) :=
  readNumber_decStr (some 3) 255 false n rest (by omega)
    (fun m hm => by
      injection hm with hm
      subst hm
      exact natDigits_length_le 10 (by omega) 3 (n + 1) n (by omega)
        (by norm_num; omega) (by omega))
    (by
      rcases eq_or_ne n 0 with rfl | h
      · exact Or.inr (Or.inr (by decide))
      · exact Or.inr (Or.inl h))
    hrest

theorem readNumber_portStr (p : Nat) (rest : List Char) (hp : p < 65536)
    (hrest : ∀ c, rest.headD ' ' = c → rest ≠ [] → digitVal 10 c = none) :
    readNumber 10 none 65535 true (decStr p ++ rest) = some (p, rest) :=
  readNumber_decStr none 65535 true p rest (by omega)
    (fun m hm => Option.noConfusion hm) (Or.inl rfl) hrest

theorem expectChar_hit (ch : Char) (r : List Char) : expectChar ch (ch :: r) = some r := by
  show (if ch = ch then some r else none) = some r
  rw [if_pos rfl]

theorem dotHeadStop (x : List Char) :
    ∀ c, ('.' :: x).headD ' ' = c → '.' :: x ≠ [] → digitVal 10 c = none := by
  intro c h _
  rw [List.headD_cons] at h
  subst h
  decide

theorem readIpv4_fmt (a b c d : Nat) (rest : List Char)
    (ha : a < 256) (hb : b < 256) (hc : c < 256) (hd : d < 256)
    (hrest : ∀ ch, rest.headD ' ' = ch → rest ≠ [] → digitVal 10 ch = none) :
    readIpv4 (fmtIpv4 [a, b, c, d] ++ rest) = some ([a, b, c, d], rest) := by
  have hshape : fmtIpv4 [a, b, c, d] ++ rest =
      decStr a ++ '.' :: (decStr b ++ '.' :: (decStr c ++ '.' :: (decStr d ++ rest))) := by
    simp only [fmtIpv4, List.getD_cons_zero, List.getD_cons_succ, List.append_assoc,
      List.cons_append]
  rw [readIpv4, hshape, readNumber_octet a _ ha (dotHeadStop _)]
  rw [Option.some_bind]
  dsimp only
  rw [expectChar_hit, Option.some_bind, readNumber_octet b _ hb (dotHeadStop _),
    Option.some_bind]
  dsimp only
  rw [expectChar_hit, Option.some_bind, readNumber_octet c _ hc (dotHeadStop _),
    Option.some_bind]
  dsimp only
  rw [expectChar_hit, Option.some_bind, readNumber_octet d _ hd hrest]
  rfl

theorem readNumber_restEq (radix : Nat) (md : Option Nat) (mv : Nat) (az : Bool)
    (cs : List Char) (v : Nat) (r : List Char)
    (h : readNumber radix md mv az cs = some (v, r)) :
    r = (takeDigits radix cs).2 := by
  rw [readNumber] at h
  generalize hp : takeDigits radix cs = q at h ⊢
  obtain ⟨ds, rest⟩ := q
  dsimp only at h
  split_ifs at h
  injection h with h5
  rw [Prod.mk.injEq] at h5
  exact h5.2.symm

theorem readIpv4_noDot (cs : List Char) (h : ¬ '.' ∈ cs) : readIpv4 cs = none := by
  cases hr : readNumber 10 (some 3) 255 false cs with
  | none => rw [readIpv4, hr]; rfl
  | some p =>
    obtain ⟨o1, r1⟩ := p
    have hr1 : r1 = (takeDigits 10 cs).2 := readNumber_restEq _ _ _ _ _ _ _ hr
    rw [readIpv4, hr]
    dsimp only [Option.bind]
    have hdot : expectChar '.' r1 = none := by
      rcases r1 with _ | ⟨ch, r2⟩
      · rfl
      · show (if ch = '.' then some r2 else none) = none
        rw [if_neg]
        intro hch
        subst hch
        have hmem : '.' ∈ '.' :: r2 := List.mem_cons_self _ _
        rw [hr1] at hmem
        exact h (takeDigits_sublist 10 cs '.' hmem)
    rw [hdot]

theorem readNumber_noDigit (radix : Nat) (md : Option Nat) (mv : Nat) (az : Bool)
    (cs : List Char)
    (h : ∀ c, cs.headD ' ' = c → cs ≠ [] → digitVal radix c = none) :
    readNumber radix md mv az cs = none := by
  rw [readNumber, takeDigits_nonDigit radix cs h]
  simp

theorem sepRead_true (cs : List Char) : sepRead true cs = some cs := rfl

theorem sepRead_false (cs : List Char) : sepRead false cs = expectChar ':' cs := rfl

theorem mem_digitsAux (radix : Nat) (dchar : Nat → Char) (hr : 2 ≤ radix) :
    ∀ f n c, c ∈ digitsAux radix dchar f n → ∃ d, d < radix ∧ c = dchar d := by
  intro f
  induction f with
  | zero => intro n c h; cases h
  | succ f ih =>
    intro n c h
    rw [digitsAux] at h
    by_cases hn : n < radix
    · rw [if_pos hn, List.mem_singleton] at h
      exact ⟨n, hn, h⟩
    · rw [if_neg hn, List.mem_append] at h
      rcases h with h | h
      · exact ih (n / radix) c h
      · rw [List.mem_singleton] at h
        exact ⟨n % radix, Nat.mod_lt n (by omega), h⟩

theorem mem_fmtSubslice (gs : List Nat) (c : Char) (h : c ∈ fmtSubslice gs) :
    c = ':' ∨ ∃ d, d < 16 ∧ c = hexChar d := by
  induction gs with
  | nil => cases h
  | cons g gs ih =>
    rcases gs with _ | ⟨q, qs⟩
    · exact Or.inr (mem_digitsAux 16 hexChar (by omega) (g + 1) g c h)
    · rw [show fmtSubslice (g :: q :: qs) = hexStr g ++ ':' :: fmtSubslice (q :: qs)
        from rfl, List.mem_append] at h
      rcases h with h | h
      · exact Or.inr (mem_digitsAux 16 hexChar (by omega) (g + 1) g c h)
      · rcases List.mem_cons.mp h with rfl | h2
        · exact Or.inl rfl
        · exact ih h2

theorem dot_not_mem_subslice (gs : List Nat) : ¬ '.' ∈ fmtSubslice gs := by
  intro h
  rcases mem_fmtSubslice gs '.' h with h2 | ⟨d, hd, h2⟩
  · exact absurd h2 (by decide)
  · revert h2
    interval_cases d <;> decide

theorem readGroupsAux_stopGen (rem : Nat) (first : Bool) (rest : List Char)
    (hip1 : first = true → readIpv4 rest = none)
    (hip2 : first = false → ∀ r, rest = ':' :: r → readIpv4 r = none)
    (h1 : first = true → ∀ c, rest.headD ' ' = c → rest ≠ [] → digitVal 16 c = none)
    (h2 : first = false → rest.headD ' ' = ':' →
      ∀ c, rest.tail.headD ' ' = c → rest.tail ≠ [] → digitVal 16 c = none) :
    readGroupsAux rem first rest = ([], false, rest) := by
  match rem with
  | 0 => rfl
  | rem + 1 =>
    rw [readGroupsAux]
    cases first with
    | true =>
      have hip : readIpv4 rest = none := hip1 rfl
      have hgp : readNumber 16 (some 4) 65535 true rest = none :=
        readNumber_noDigit 16 _ _ _ rest (h1 rfl)
      by_cases hrem : 1 ≤ rem
      · rw [if_pos hrem, sepRead_true, Option.some_bind, hip]
        dsimp only
        rw [Option.some_bind, hgp]
      · rw [if_neg hrem]
        dsimp only
        rw [sepRead_true, Option.some_bind, hgp]
    | false =>
      rcases rest with _ | ⟨c, r⟩
      · by_cases hrem : 1 ≤ rem
        · rw [if_pos hrem]
          rfl
        · rw [if_neg hrem]
          rfl
      · by_cases hcc : c = ':'
        · subst hcc
          have hsep : expectChar ':' (':' :: r) = some r := expectChar_hit ':' r
          have hip : readIpv4 r = none := hip2 rfl r rfl
          have hgp : readNumber 16 (some 4) 65535 true r = none :=
            readNumber_noDigit 16 _ _ _ r (h2 rfl (by rw [List.headD_cons]))
          by_cases hrem : 1 ≤ rem
          · rw [if_pos hrem, sepRead_false, hsep, Option.some_bind, hip]
            dsimp only
            rw [Option.some_bind, hgp]
          · rw [if_neg hrem]
            dsimp only
            rw [sepRead_false, hsep, Option.some_bind, hgp]
        · have hsep : expectChar ':' (c :: r) = none := by
            show (if c = ':' then some r else none) = none
            rw [if_neg hcc]
          by_cases hrem : 1 ≤ rem
          · rw [if_pos hrem, sepRead_false, hsep]
            rfl
          · rw [if_neg hrem]
            dsimp only
            rw [sepRead_false, hsep]
            rfl

theorem readGroupsAux_stop (rem : Nat) (first : Bool) (rest : List Char)
    (hdot : ¬ '.' ∈ rest)
    (h1 : first = true → ∀ c, rest.headD ' ' = c → rest ≠ [] → digitVal 16 c = none)
    (h2 : first = false → rest.headD ' ' = ':' →
      ∀ c, rest.tail.headD ' ' = c → rest.tail ≠ [] → digitVal 16 c = none) :
    readGroupsAux rem first rest = ([], false, rest) :=
  readGroupsAux_stopGen rem first rest
    (fun _ => readIpv4_noDot rest hdot)
    (fun _ r hr => readIpv4_noDot r (fun hm => hdot (by
      rw [hr]
      exact List.mem_cons_of_mem _ hm)))
    h1 h2

theorem readGroups_subslice :
    ∀ gs : List Nat, (∀ g, g ∈ gs → g < 65536) →
    ∀ (r : Nat) (first : Bool) (rest : List Char), gs ≠ [] → gs.length ≤ r + 1 →
      ¬ '.' ∈ rest →
      (∀ c, rest.headD ' ' = c → rest ≠ [] → digitVal 16 c = none) →
      (rest.headD ' ' = ':' →
        ∀ c, rest.tail.headD ' ' = c → rest.tail ≠ [] → digitVal 16 c = none) →
      readGroupsAux (r + 1) first
          ((if first then [] else [':']) ++ (fmtSubslice gs ++ rest)) =
        (gs, false, rest) := by
  intro gs
  induction gs with
  | nil =>
    intro _ r first rest hne
    exact absurd rfl hne
  | cons g gs ih =>
    intro hall r first rest _ hlen hdot hr0 hr2
    have hg := hall g (List.mem_cons_self _ _)
    have hsep : sepRead first
        ((if first then [] else [':']) ++ (fmtSubslice (g :: gs) ++ rest)) =
        some (fmtSubslice (g :: gs) ++ rest) := by
      cases first
      · show sepRead false (':' :: (fmtSubslice (g :: gs) ++ rest)) = _
        rw [sepRead_false]
        exact expectChar_hit _ _
      · show sepRead true (fmtSubslice (g :: gs) ++ rest) = _
        rw [sepRead_true]
    have hipv : readIpv4 (fmtSubslice (g :: gs) ++ rest) = none :=
      readIpv4_noDot _ (by
        intro hm
        rcases List.mem_append.mp hm with hm | hm
        · exact dot_not_mem_subslice _ hm
        · exact hdot hm)
    rcases gs with _ | ⟨q, qs⟩
    · have hnum : readNumber 16 (some 4) 65535 true (fmtSubslice [g] ++ rest) =
          some (g, rest) := by
        show readNumber 16 (some 4) 65535 true (hexStr g ++ rest) = _
        exact readNumber_hexStr g rest (by omega) hr0
      have hrec : readGroupsAux r false rest = ([], false, rest) :=
        readGroupsAux_stop r false rest hdot
          (fun h => absurd h (by simp)) (fun _ => hr2)
      rw [readGroupsAux]
      by_cases hrem : 1 ≤ r
      · rw [if_pos hrem, hsep, Option.some_bind, hipv]
        dsimp only
        rw [Option.some_bind, hnum]
        dsimp only
        rw [hrec]
      · rw [if_neg hrem]
        dsimp only
        rw [hsep, Option.some_bind, hnum]
        dsimp only
        rw [hrec]
    · have hshape : fmtSubslice (g :: q :: qs) ++ rest =
          hexStr g ++ ':' :: (fmtSubslice (q :: qs) ++ rest) := by
        rw [show fmtSubslice (g :: q :: qs) = hexStr g ++ ':' :: fmtSubslice (q :: qs)
          from rfl]
        simp [List.append_assoc]
      have hnum : readNumber 16 (some 4) 65535 true (fmtSubslice (g :: q :: qs) ++ rest) =
          some (g, ':' :: (fmtSubslice (q :: qs) ++ rest)) := by
        rw [hshape]
        refine readNumber_hexStr g _ (by omega) ?_
        intro c h hne2
        rw [List.headD_cons] at h
        subst h
        decide
      obtain ⟨r2, rfl⟩ : ∃ r2, r = r2 + 1 := ⟨r - 1, by
        simp only [List.length_cons] at hlen
        omega⟩
      have hrec : readGroupsAux (r2 + 1) false
          (':' :: (fmtSubslice (q :: qs) ++ rest)) = (q :: qs, false, rest) :=
        ih (fun g2 hg2 => hall g2 (List.mem_cons_of_mem _ hg2)) r2 false rest
          (by simp) (by simp only [List.length_cons] at hlen ⊢; omega) hdot hr0 hr2
      rw [readGroupsAux, if_pos (by omega), hsep, Option.some_bind, hipv]
      dsimp only
      rw [Option.some_bind, hnum]
      dsimp only
      rw [hrec]

theorem zeroRunAux_sound (original : List Nat) :
    ∀ (rest : List Nat) (i ls ll cs cl : Nat),
      original.drop i = rest →
      ls + ll ≤ original.length →
      (∀ j, j < ll → original.getD (ls + j) 1 = 0) →
      (cl = 0 ∨ cs + cl = i) →
      cs + cl ≤ original.length →
      (∀ j, j < cl → original.getD (cs + j) 1 = 0) →
      (zeroRunAux rest i (ls, ll) (cs, cl)).1 +
          (zeroRunAux rest i (ls, ll) (cs, cl)).2 ≤ original.length ∧
        ∀ j, j < (zeroRunAux rest i (ls, ll) (cs, cl)).2 →
          original.getD ((zeroRunAux rest i (ls, ll) (cs, cl)).1 + j) 1 = 0 := by
  intro rest
  induction rest with
  | nil =>
    intro i ls ll cs cl _ h1 h2 _ _ _
    exact ⟨h1, h2⟩
  | cons s rest2 ih =>
    intro i ls ll cs cl hdrop h1 h2 h3 h4 h5
    have hi : i < original.length := by
      by_contra hc
      rw [List.drop_eq_nil_of_le (by omega)] at hdrop
      exact absurd hdrop.symm (by simp)
    have hs : original.getD i 1 = s := by
      have := List.drop_eq_getElem_cons hi
      rw [hdrop] at this
      injection this with h6 _
      rw [List.getD_eq_getElem original 1 hi, h6]
    have hdrop2 : original.drop (i + 1) = rest2 := by
      have := List.drop_eq_getElem_cons hi
      rw [hdrop] at this
      injection this with _ h7
      exact h7.symm
    rw [zeroRunAux]
    by_cases hz : s = 0
    · rw [if_pos hz]
      have hcs2 : (if cl = 0 then i else cs) + (cl + 1) = i + 1 := by
        rcases h3 with h3 | h3
        · rw [if_pos h3, h3]
        · rcases Nat.eq_zero_or_pos cl with h8 | h8
          · rw [if_pos h8, h8]
          · rw [if_neg (by omega)]
            omega
      have hwin : ∀ j, j < cl + 1 →
          original.getD ((if cl = 0 then i else cs) + j) 1 = 0 := by
        intro j hj
        rcases Nat.eq_zero_or_pos cl with h8 | h8
        · rw [if_pos h8]
          have : j = 0 := by omega
          subst this
          simpa [hz] using hs
        · rw [if_neg (by omega)]
          rcases Nat.lt_or_ge j cl with h9 | h9
          · exact h5 j h9
          · have hjc : j = cl := by omega
            rw [hjc]
            have h10 : cs + cl = i := by
              rcases h3 with h3 | h3
              · omega
              · exact h3
            rw [h10]
            simpa [hz] using hs
      by_cases hbig : ll < cl + 1
      · rw [if_pos hbig]
        exact ih (i + 1) _ _ _ _ hdrop2 (by omega) hwin (Or.inr hcs2)
          (by omega) hwin
      · rw [if_neg hbig]
        exact ih (i + 1) _ _ _ _ hdrop2 h1 h2 (Or.inr hcs2) (by omega) hwin
    · rw [if_neg hz]
      exact ih (i + 1) _ _ _ _ hdrop2 h1 h2 (Or.inl rfl) (by omega)
        (by intro j hj; omega)

theorem zeroRun_sound (segs : List Nat) :
    (zeroRun segs).1 + (zeroRun segs).2 ≤ segs.length ∧
      ∀ j, j < (zeroRun segs).2 → segs.getD ((zeroRun segs).1 + j) 1 = 0 :=
  zeroRunAux_sound segs segs 0 0 0 0 0 rfl (by omega) (by omega)
    (Or.inl rfl) (by omega) (by omega)

theorem zero_window_decomp :
    ∀ (n : Nat) (l : List Nat) (s : Nat), s + n ≤ l.length →
      (∀ j, j < n → l.getD (s + j) 1 = 0) →
      l.drop s = List.replicate n 0 ++ l.drop (s + n) := by
  intro n
  induction n with
  | zero =>
    intro l s _ _
    simp
  | succ n ih =>
    intro l s hlen hwin
    have hs : s < l.length := by omega
    rw [List.drop_eq_getElem_cons hs]
    have h0 : l[s] = 0 := by
      have := hwin 0 (by omega)
      rw [Nat.add_zero, List.getD_eq_getElem l 1 hs] at this
      exact this
    rw [h0, ih l (s + 1) (by omega)
      (fun j hj => by
        have := hwin (j + 1) (by omega)
        rw [show s + (j + 1) = s + 1 + j by omega] at this
        exact this)]
    rw [show s + (n + 1) = s + 1 + n by omega]
    rfl

theorem take_replicate_drop (l : List Nat) (s n : Nat) (hlen : s + n ≤ l.length)
    (hwin : ∀ j, j < n → l.getD (s + j) 1 = 0) :
    l = l.take s ++ (List.replicate n 0 ++ l.drop (s + n)) := by
  conv_lhs => rw [← List.take_append_drop s l]
  rw [zero_window_decomp n l s hlen hwin]

theorem dot_not_mem_colons (X : List Char) (h : ¬ '.' ∈ X) :
    ¬ '.' ∈ ':' :: ':' :: X := by
  intro hm
  rcases List.mem_cons.mp hm with h2 | hm
  · exact absurd h2 (by decide)
  rcases List.mem_cons.mp hm with h2 | hm
  · exact absurd h2 (by decide)
  exact h hm

theorem colonHeadHex (X : List Char) :
    ∀ c, (':' :: X).headD ' ' = c → ':' :: X ≠ [] → digitVal 16 c = none := by
  intro c hc _
  rw [List.headD_cons] at hc
  subst hc
  decide

theorem readIpv6_compressed (pre post : List Nat) (rest : List Char)
    (hlen : pre.length + post.length ≤ 6)
    (hallpre : ∀ g, g ∈ pre → g < 65536) (hallpost : ∀ g, g ∈ post → g < 65536)
    (hdot : ¬ '.' ∈ rest)
    (hr0 : ∀ c, rest.headD ' ' = c → rest ≠ [] → digitVal 16 c = none)
    (hr2 : rest.headD ' ' = ':' →
      ∀ c, rest.tail.headD ' ' = c → rest.tail ≠ [] → digitVal 16 c = none) :
    readIpv6 ((fmtSubslice pre ++ ':' :: ':' :: fmtSubslice post) ++ rest) =
      some (pre ++ List.replicate (8 - pre.length - post.length) 0 ++ post, rest) := by
  have hdotX : ¬ '.' ∈ fmtSubslice post ++ rest := by
    intro hm
    rcases List.mem_append.mp hm with hm | hm
    · exact dot_not_mem_subslice _ hm
    · exact hdot hm
  have htail : readGroupsAux (8 - (pre.length + 1)) true (fmtSubslice post ++ rest) =
      (post, false, rest) := by
    rcases post with _ | ⟨q, qs⟩
    · exact readGroupsAux_stop _ true rest hdot (fun _ => hr0)
        (fun h => absurd h (by simp))
    · obtain ⟨r2, hr2eq⟩ : ∃ r2, 8 - (pre.length + 1) = r2 + 1 :=
        ⟨8 - (pre.length + 1) - 1, by omega⟩
      rw [hr2eq]
      have := readGroups_subslice (q :: qs) hallpost r2 true rest (by simp)
        (by simp only [List.length_cons] at hlen ⊢; omega) hdot hr0 hr2
      simpa using this
  have hstream : (fmtSubslice pre ++ ':' :: ':' :: fmtSubslice post) ++ rest =
      fmtSubslice pre ++ (':' :: ':' :: (fmtSubslice post ++ rest)) := by
    simp [List.append_assoc]
  rcases pre with _ | ⟨p, ps⟩
  · rw [hstream, show fmtSubslice ([] : List Nat) = [] from rfl, List.nil_append]
    have hhd : readGroupsAux 8 true (':' :: ':' :: (fmtSubslice post ++ rest)) =
        ([], false, ':' :: ':' :: (fmtSubslice post ++ rest)) :=
      readGroupsAux_stop 8 true _ (dot_not_mem_colons _ hdotX)
        (fun _ => colonHeadHex _) (fun h => absurd h (by simp))
    rw [readIpv6]
    dsimp only
    rw [hhd]
    dsimp only
    rw [if_neg (by decide)]
    rw [expectChar_hit, Option.some_bind, expectChar_hit]
    dsimp only
    simp only [List.length_nil] at htail ⊢
    rw [htail]
    simp
  · have hhd : readGroupsAux 8 true
        (fmtSubslice (p :: ps) ++ (':' :: ':' :: (fmtSubslice post ++ rest))) =
        (p :: ps, false, ':' :: ':' :: (fmtSubslice post ++ rest)) := by
      have := readGroups_subslice (p :: ps) hallpre 7 true
        (':' :: ':' :: (fmtSubslice post ++ rest)) (by simp)
        (by simp only [List.length_cons] at hlen ⊢; omega)
        (dot_not_mem_colons _ hdotX) (colonHeadHex _)
        (fun _ => colonHeadHex _)
      simpa using this
    rw [hstream, readIpv6]
    dsimp only
    rw [hhd]
    dsimp only
    rw [if_neg (by
      simp only [List.length_cons] at hlen ⊢
      omega)]
    rw [expectChar_hit, Option.some_bind, expectChar_hit]
    dsimp only
    rw [htail]
    simp

theorem readIpv4_noDigitHead (cs : List Char)
    (h : ∀ c, cs.headD ' ' = c → cs ≠ [] → digitVal 10 c = none) :
    readIpv4 cs = none := by
  rw [readIpv4, readNumber_noDigit 10 _ _ _ cs h]
  rfl

theorem readIpv6_mapped (g h : Nat) (rest : List Char) (hg : g < 65536)
    (hh : h < 65536)
    (hr0ten : ∀ c, rest.headD ' ' = c → rest ≠ [] → digitVal 10 c = none)
    (hr0hex : ∀ c, rest.headD ' ' = c → rest ≠ [] → digitVal 16 c = none) :
    readIpv6 ((':' :: ':' :: 'f' :: 'f' :: 'f' :: 'f' :: ':' ::
        fmtIpv4 [g / 256, g % 256, h / 256, h % 256]) ++ rest) =
      some ([0, 0, 0, 0, 0, 65535, g, h], rest) := by
  have hstream : (':' :: ':' :: 'f' :: 'f' :: 'f' :: 'f' :: ':' ::
      fmtIpv4 [g / 256, g % 256, h / 256, h % 256]) ++ rest =
      ':' :: ':' :: ('f' :: 'f' :: 'f' :: 'f' :: ':' ::
        (fmtIpv4 [g / 256, g % 256, h / 256, h % 256] ++ rest)) := by
    simp [List.cons_append]
  have hhd : readGroupsAux 8 true (':' :: ':' :: ('f' :: 'f' :: 'f' :: 'f' :: ':' ::
      (fmtIpv4 [g / 256, g % 256, h / 256, h % 256] ++ rest))) =
      ([], false, ':' :: ':' :: ('f' :: 'f' :: 'f' :: 'f' :: ':' ::
      (fmtIpv4 [g / 256, g % 256, h / 256, h % 256] ++ rest))) :=
    readGroupsAux_stopGen 8 true _
      (fun _ => readIpv4_noDigitHead _ (by
        intro c hc hne
        rw [List.headD_cons] at hc
        subst hc
        decide))
      (fun hf => absurd hf (by simp))
      (fun _ => colonHeadHex _)
      (fun hf => absurd hf (by simp))
  rw [hstream, readIpv6]
  dsimp only
  rw [hhd]
  dsimp only
  rw [if_neg (by decide), expectChar_hit, Option.some_bind, expectChar_hit]
  dsimp only
  have hoct : readIpv4 (fmtIpv4 [g / 256, g % 256, h / 256, h % 256] ++ rest) =
      some ([g / 256, g % 256, h / 256, h % 256], rest) :=
    readIpv4_fmt _ _ _ _ rest (by omega) (by omega) (by omega) (by omega) hr0ten
  have hffff : readNumber 16 (some 4) 65535 true
      ('f' :: 'f' :: 'f' :: 'f' :: ':' ::
        (fmtIpv4 [g / 256, g % 256, h / 256, h % 256] ++ rest)) =
      some (65535, ':' :: (fmtIpv4 [g / 256, g % 256, h / 256, h % 256] ++ rest)) := by
    have := readNumber_hexStr 65535
      (':' :: (fmtIpv4 [g / 256, g % 256, h / 256, h % 256] ++ rest))
      (by omega) (colonHeadHex _)
    simpa using this
  have hinner : readGroupsAux 6 false
      (':' :: (fmtIpv4 [g / 256, g % 256, h / 256, h % 256] ++ rest)) =
      ([g, h], true, rest) := by
    show readGroupsAux (5 + 1) false _ = _
    rw [readGroupsAux, if_pos (by omega), sepRead_false, expectChar_hit,
      Option.some_bind, hoct]
    dsimp only
    rw [show (256 * ([g / 256, g % 256, h / 256, h % 256].getD 0 0) +
        [g / 256, g % 256, h / 256, h % 256].getD 1 0) = g from by
      simp only [List.getD_cons_zero, List.getD_cons_succ]
      omega]
    rw [show (256 * ([g / 256, g % 256, h / 256, h % 256].getD 2 0) +
        [g / 256, g % 256, h / 256, h % 256].getD 3 0) = h from by
      simp only [List.getD_cons_zero, List.getD_cons_succ]
      omega]
  have houter : readGroupsAux 7 true
      ('f' :: 'f' :: 'f' :: 'f' :: ':' ::
        (fmtIpv4 [g / 256, g % 256, h / 256, h % 256] ++ rest)) =
      ([65535, g, h], true, rest) := by
    show readGroupsAux (6 + 1) true _ = _
    rw [readGroupsAux, if_pos (by omega), sepRead_true, Option.some_bind,
      readIpv4_noDigitHead _ (by
        intro c hc hne
        rw [List.headD_cons] at hc
        subst hc
        decide)]
    dsimp only
    rw [Option.some_bind, hffff]
    dsimp only
    rw [hinner]
  simp only [List.length_nil]
  rw [show (8 : Nat) - (0 + 1) = 7 from rfl]
  rw [houter]
  rfl

theorem readIpv6_full (segs : List Nat) (h8 : segs.length = 8)
    (hall : ∀ g, g ∈ segs → g < 65536) (rest : List Char)
    (hdot : ¬ '.' ∈ rest)
    (hr0 : ∀ c, rest.headD ' ' = c → rest ≠ [] → digitVal 16 c = none)
    (hr2 : rest.headD ' ' = ':' →
      ∀ c, rest.tail.headD ' ' = c → rest.tail ≠ [] → digitVal 16 c = none) :
    readIpv6 (fmtSubslice segs ++ rest) = some (segs, rest) := by
  have hhd : readGroupsAux 8 true (fmtSubslice segs ++ rest) = (segs, false, rest) := by
    have := readGroups_subslice segs hall 7 true rest
      (by intro h; rw [h] at h8; simp at h8) (by omega) hdot hr0 hr2
    simpa using this
  rw [readIpv6]
  dsimp only
  rw [hhd]
  dsimp only
  rw [if_pos h8]

/-- Parsing is a left inverse of the `Ipv6Addr` display on any
16-segment rendering followed by a closing bracket. -/
theorem readIpv6_fmt (segs : List Nat) (h8 : segs.length = 8)
    (hall : ∀ g, g ∈ segs → g < 65536) (rest : List Char)
    (hdot : ¬ '.' ∈ rest)
    (hr0ten : ∀ c, rest.headD ' ' = c → rest ≠ [] → digitVal 10 c = none)
    (hr0 : ∀ c, rest.headD ' ' = c → rest ≠ [] → digitVal 16 c = none)
    (hr2 : rest.headD ' ' = ':' →
      ∀ c, rest.tail.headD ' ' = c → rest.tail ≠ [] → digitVal 16 c = none) :
    readIpv6 (fmtIpv6 segs ++ rest) = some (segs, rest) := by
  rw [fmtIpv6]
  by_cases hz0 : segs = [0, 0, 0, 0, 0, 0, 0, 0]
  · rw [if_pos hz0]
    subst hz0
    have := readIpv6_compressed [] [] rest (by simp) (by simp) (by simp)
      hdot hr0 hr2
    exact this
  · rw [if_neg hz0]
    by_cases hz1 : segs = [0, 0, 0, 0, 0, 0, 0, 1]
    · rw [if_pos hz1]
      subst hz1
      have := readIpv6_compressed [] [1] rest (by simp) (by simp) (by simp)
        hdot hr0 hr2
      exact this
    · rw [if_neg hz1]
      by_cases hmap : segs.take 6 = [0, 0, 0, 0, 0, 65535]
      · rw [if_pos hmap]
        have hlen2 : (segs.drop 6).length = 2 := by
          rw [List.length_drop, h8]
        obtain ⟨g, h2, hgh⟩ : ∃ g h2, segs.drop 6 = [g, h2] := by
          match hd : segs.drop 6 with
          | [] => rw [hd] at hlen2; simp at hlen2
          | [x] => rw [hd] at hlen2; simp at hlen2
          | [x, y] => exact ⟨x, y, rfl⟩
          | x :: y :: z :: zz => rw [hd] at hlen2; simp at hlen2
        have hseg : segs = [0, 0, 0, 0, 0, 65535, g, h2] := by
          conv_lhs => rw [← List.take_append_drop 6 segs]
          rw [hmap, hgh]
          rfl
        have hg : g < 65536 := hall g (by rw [hseg]; simp)
        have hh2 : h2 < 65536 := hall h2 (by rw [hseg]; simp)
        rw [hseg]
        exact readIpv6_mapped g h2 rest hg hh2 hr0ten hr0
      · rw [if_neg hmap]
        by_cases hcomp : 1 < (zeroRun segs).2
        · rw [if_pos hcomp]
          obtain ⟨hzlen, hzwin⟩ := zeroRun_sound segs
          have hdecomp := take_replicate_drop segs (zeroRun segs).1
            (zeroRun segs).2 hzlen hzwin
          have hlength : (segs.take (zeroRun segs).1).length +
              (segs.drop ((zeroRun segs).1 + (zeroRun segs).2)).length ≤ 6 := by
            rw [List.length_take, List.length_drop, h8]
            rw [h8] at hzlen
            omega
          have := readIpv6_compressed (segs.take (zeroRun segs).1)
            (segs.drop ((zeroRun segs).1 + (zeroRun segs).2)) rest hlength
            (fun g hg => hall g (List.take_subset _ _ hg))
            (fun g hg => hall g (List.drop_subset _ _ hg))
            hdot hr0 hr2
          rw [this]
          rw [h8] at hzlen
          rw [List.length_take, List.length_drop, h8,
            show min (zeroRun segs).1 8 = (zeroRun segs).1 from by omega,
            show (8 : Nat) - (zeroRun segs).1 -
              (8 - ((zeroRun segs).1 + (zeroRun segs).2)) = (zeroRun segs).2 from by
                omega]
          exact congrArg (fun l => some (l, rest))
            ((List.append_assoc _ _ _).trans hdecomp.symm)
        · rw [if_neg hcomp]
          exact readIpv6_full segs h8 hall rest hdot hr0 hr2

theorem mem_decStr (n : Nat) (c : Char) (h : c ∈ decStr n) :
    48 ≤ c.toNat ∧ c.toNat ≤ 57 := by
  obtain ⟨d, hd, rfl⟩ := mem_digitsAux 10 decChar (by omega) (n + 1) n c h
  interval_cases d <;> decide

theorem decStr_ne_nil (n : Nat) : decStr n ≠ [] := by
  rw [decStr, digitsAux_spec 10 decChar (by omega) (n + 1) n (by omega)]
  simp only [ne_eq, List.map_eq_nil_iff]
  exact natDigits_ne_nil 10 (by omega) (n + 1) n (by omega)

theorem dot_not_mem_decStr (n : Nat) : ¬ '.' ∈ decStr n := by
  intro h
  have := mem_decStr n '.' h
  revert this
  decide

theorem colon_not_mem_decStr (n : Nat) : ¬ ':' ∈ decStr n := by
  intro h
  have := mem_decStr n ':' h
  revert this
  decide

theorem splitColon_noColon (l : List Char) (h : ¬ ':' ∈ l) : splitColon l = [l] := by
  induction l with
  | nil => rfl
  | cons c rest ih =>
    rw [splitColon]
    have hc : ¬ c = ':' := fun hc => h (by rw [hc]; exact List.mem_cons_self _ _)
    rw [if_neg hc, ih (fun hm => h (List.mem_cons_of_mem _ hm))]
    rfl

theorem splitColon_single (A B : List Char) (hA : ¬ ':' ∈ A) (hB : ¬ ':' ∈ B) :
    splitColon (A ++ ':' :: B) = [A, B] := by
  induction A with
  | nil =>
    rw [List.nil_append, splitColon, if_pos rfl, splitColon_noColon B hB]
  | cons c rest ih =>
    rw [List.cons_append, splitColon,
      if_neg (fun hc => hA (by rw [hc]; exact List.mem_cons_self _ _)),
      ih (fun hm => hA (List.mem_cons_of_mem _ hm))]
    rfl

theorem stripSfx_append (A B : List Char) : stripSfx (A ++ B) B = some A := by
  rw [stripSfx, if_pos (by
    rw [List.isSuffixOf_iff_suffix]
    exact List.suffix_append A B)]
  rw [List.length_append, Nat.add_sub_cancel, List.take_left]

theorem stripSfx_mismatch (A sfx1 sfx2 : List Char) (h1 : sfx1 ≠ [])
    (h2 : sfx1.getLast? ≠ sfx2.getLast?) (h3 : sfx2 ≠ []) :
    stripSfx (A ++ sfx1) sfx2 = none := by
  rw [stripSfx, if_neg]
  intro hsuf
  rw [List.isSuffixOf_iff_suffix] at hsuf
  obtain ⟨t, ht⟩ := hsuf
  apply h2
  rw [← List.getLast?_append_of_ne_nil A h1, ← ht,
    List.getLast?_append_of_ne_nil t h3]

theorem rustParseU16_decStr (p : Nat) (hp : p < 65536) :
    rustParseU16 (decStr p) = some p := by
  have hplus : (decStr p).headD ' ' ≠ '+' := by
    match hm : decStr p with
    | [] => exact absurd hm (decStr_ne_nil p)
    | c :: r =>
      rw [List.headD_cons]
      have hc : c ∈ decStr p := by
        rw [hm]
        exact List.mem_cons_self _ _
      have := mem_decStr p c hc
      intro he
      subst he
      revert this
      decide
  have ht : takeDigits 10 (decStr p ++ []) =
      (natDigits 10 (p + 1) p ++ (takeDigits 10 []).1, (takeDigits 10 []).2) := by
    rw [decStr]
    exact takeDigits_digitsAux 10 decChar (by omega)
      (fun d h => digitVal_decChar d h) (p + 1) p [] (by omega)
  simp only [takeDigits, List.append_nil] at ht
  rw [rustParseU16, if_neg hplus, ht]
  dsimp only
  rw [if_neg (by
    simpa using natDigits_ne_nil 10 (by omega) (p + 1) p (by omega))]
  rw [if_pos rfl, natDigits_val 10 (by omega) (p + 1) p (by omega),
    if_neg (by omega)]

theorem endStop10 : ∀ c, ([] : List Char).headD ' ' = c → ([] : List Char) ≠ [] →
    digitVal 10 c = none := fun _ _ hne => absurd rfl hne

theorem colonStop10 (x : List Char) :
    ∀ c, (':' :: x).headD ' ' = c → ':' :: x ≠ [] → digitVal 10 c = none := by
  intro c hc _
  rw [List.headD_cons] at hc
  subst hc
  decide

theorem parseSocketAddr_v4 (a b c d port : Nat) (ha : a < 256) (hb : b < 256)
    (hc : c < 256) (hd : d < 256) (hp : port < 65536) :
    parseSocketAddr (fmtIpv4 [a, b, c, d] ++ ':' :: decStr port) =
      some (PeerAddr.IPV4 [a, b, c, d] port) := by
  rw [parseSocketAddr,
    readIpv4_fmt a b c d (':' :: decStr port) ha hb hc hd (colonStop10 _)]
  dsimp only
  rw [expectChar_hit, Option.some_bind]
  have hport := readNumber_portStr port [] hp endStop10
  rw [List.append_nil] at hport
  rw [hport, Option.some_bind]
  dsimp only
  rw [if_pos rfl]

theorem segsToBytes_segsOfBytes :
    ∀ (n : Nat) (oct : List Nat), oct.length ≤ n → oct.length % 2 = 0 →
      (∀ x, x ∈ oct → x < 256) → segsToBytes (segsOfBytes oct) = oct := by
  intro n
  induction n with
  | zero =>
    intro oct hlen _ _
    rw [show oct = [] from List.length_eq_zero.mp (by omega)]
    rfl
  | succ n ih =>
    intro oct hlen heven hall
    rcases oct with _ | ⟨b0, _ | ⟨b1, rest⟩⟩
    · rfl
    · simp at heven
    · rw [segsOfBytes, segsToBytes]
      have hb1 : b1 < 256 := hall b1 (List.mem_cons_of_mem _ (List.mem_cons_self _ _))
      rw [show (256 * b0 + b1) / 256 = b0 from by omega,
        show (256 * b0 + b1) % 256 = b1 from by omega,
        ih rest (by simp only [List.length_cons] at hlen; omega)
          (by simp only [List.length_cons] at heven ⊢; omega)
          (fun x hx => hall x (List.mem_cons_of_mem _ (List.mem_cons_of_mem _ hx)))]

theorem segsOfBytes_length :
    ∀ (n : Nat) (oct : List Nat), oct.length ≤ n →
      (segsOfBytes oct).length = oct.length / 2 := by
  intro n
  induction n with
  | zero =>
    intro oct hlen
    rw [show oct = [] from List.length_eq_zero.mp (by omega)]
    rfl
  | succ n ih =>
    intro oct hlen
    rcases oct with _ | ⟨b0, _ | ⟨b1, rest⟩⟩
    · rfl
    · rw [show segsOfBytes [b0] = [] from rfl]
      norm_num
    · rw [segsOfBytes, List.length_cons,
        ih rest (by simp only [List.length_cons] at hlen; omega)]
      simp only [List.length_cons]
      omega

theorem segsOfBytes_lt :
    ∀ (n : Nat) (oct : List Nat), oct.length ≤ n → (∀ x, x ∈ oct → x < 256) →
      ∀ g, g ∈ segsOfBytes oct → g < 65536 := by
  intro n
  induction n with
  | zero =>
    intro oct hlen _ g hg
    rw [show oct = [] from List.length_eq_zero.mp (by omega)] at hg
    cases hg
  | succ n ih =>
    intro oct hlen hall g hg
    rcases oct with _ | ⟨b0, _ | ⟨b1, rest⟩⟩
    · cases hg
    · cases hg
    · rw [segsOfBytes] at hg
      rcases List.mem_cons.mp hg with rfl | hg2
      · have h0 : b0 < 256 := hall b0 (List.mem_cons_self _ _)
        have h1 : b1 < 256 := hall b1 (List.mem_cons_of_mem _ (List.mem_cons_self _ _))
        omega
      · exact ih rest (by simp only [List.length_cons] at hlen; omega)
          (fun x hx => hall x (List.mem_cons_of_mem _ (List.mem_cons_of_mem _ hx)))
          g hg2

theorem parseSocketAddr_v6 (oct : List Nat) (port : Nat) (h16 : oct.length = 16)
    (hall : ∀ x, x ∈ oct → x < 256) (hp : port < 65536) :
    parseSocketAddr (('[' :: fmtIpv6 (segsOfBytes oct)) ++ ']' :: ':' :: decStr port) =
      some (PeerAddr.IPV6 oct port) := by
  have hshape : (('[' :: fmtIpv6 (segsOfBytes oct)) ++ ']' :: ':' :: decStr port) =
      '[' :: (fmtIpv6 (segsOfBytes oct) ++ ']' :: ':' :: decStr port) := by
    rw [List.cons_append]
  have hip6 : readIpv6 (fmtIpv6 (segsOfBytes oct) ++ ']' :: ':' :: decStr port) =
      some (segsOfBytes oct, ']' :: ':' :: decStr port) := by
    refine readIpv6_fmt (segsOfBytes oct)
      (by rw [segsOfBytes_length oct.length oct le_rfl, h16])
      (segsOfBytes_lt oct.length oct le_rfl hall) _ ?_ ?_ ?_ ?_
    · intro hm
      rcases List.mem_cons.mp hm with h2 | hm
      · exact absurd h2 (by decide)
      rcases List.mem_cons.mp hm with h2 | hm
      · exact absurd h2 (by decide)
      exact dot_not_mem_decStr port hm
    · intro c hc _
      rw [List.headD_cons] at hc
      subst hc
      decide
    · intro c hc _
      rw [List.headD_cons] at hc
      subst hc
      decide
    · intro hc
      rw [List.headD_cons] at hc
      exact absurd hc (by decide)
  have hv4fail : readIpv4 ('[' :: (fmtIpv6 (segsOfBytes oct) ++
      ']' :: ':' :: decStr port)) = none :=
    readIpv4_noDigitHead _ (by
      intro c hc _
      rw [List.headD_cons] at hc
      subst hc
      decide)
  rw [hshape, parseSocketAddr, hv4fail]
  dsimp only
  rw [expectChar_hit, Option.some_bind, hip6, Option.some_bind]
  rw [if_neg (show ¬((']' :: ':' :: decStr port).headD ' ' = '%') from by
    rw [List.headD_cons]; decide)]
  rw [Option.some_bind, expectChar_hit, Option.some_bind, expectChar_hit,
    Option.some_bind]
  have hport := readNumber_portStr port [] hp endStop10
  rw [List.append_nil] at hport
  rw [hport, Option.some_bind]
  dsimp only
  rw [if_pos rfl, segsToBytes_segsOfBytes oct.length oct le_rfl (by omega) hall]

theorem takeDigits_b32 (label : List Char)
    (hlab : ∀ c, c ∈ label → isB32Char c = true) (tail : List Char)
    (htail : ∀ c, tail.headD ' ' = c → tail ≠ [] → digitVal 10 c = none) :
    (takeDigits 10 (label ++ tail)).2 = tail ∨
      ∃ c r, (takeDigits 10 (label ++ tail)).2 = c :: r ∧ isB32Char c = true ∧
        digitVal 10 c = none := by
  induction label with
  | nil =>
    left
    rw [List.nil_append, takeDigits_nonDigit 10 tail htail]
  | cons c l ih =>
    rw [List.cons_append, takeDigits]
    rcases hv : digitVal 10 c with _ | d
    · right
      exact ⟨c, l ++ tail, rfl, hlab c (List.mem_cons_self _ _), hv⟩
    · rcases ih (fun c2 h2 => hlab c2 (List.mem_cons_of_mem _ h2)) with h | ⟨c2, r, he, hb, hv2⟩
      · left
        exact h
      · right
        exact ⟨c2, r, he, hb, hv2⟩

theorem readIpv4_label (label : List Char)
    (hlab : ∀ c, c ∈ label → isB32Char c = true) (rest2 : List Char)
    (hr2 : ∀ c, rest2.headD ' ' = c → rest2 ≠ [] → digitVal 10 c = none) :
    readIpv4 (label ++ '.' :: rest2) = none := by
  rcases hn : readNumber 10 (some 3) 255 false (label ++ '.' :: rest2) with _ | ⟨o1, r1⟩
  · rw [readIpv4, hn]
    rfl
  · have hr1 : r1 = (takeDigits 10 (label ++ '.' :: rest2)).2 :=
      readNumber_restEq _ _ _ _ _ _ _ hn
    rw [readIpv4, hn, Option.some_bind]
    rcases takeDigits_b32 label hlab ('.' :: rest2) (dotHeadStop rest2) with
      h | ⟨c, r, he, hb, _⟩
    · rw [show (o1, r1).2 = r1 from rfl, hr1, h, expectChar_hit, Option.some_bind,
        readNumber_noDigit 10 _ _ _ rest2 hr2]
      rfl
    · rw [show (o1, r1).2 = r1 from rfl, hr1, he,
        show expectChar '.' (c :: r) = none from by
          show (if c = '.' then some r else none) = none
          rw [if_neg (fun hc => by
            subst hc
            exact absurd hb (by decide))]]
      rfl

theorem parseSocketAddr_overlay_none (label sfx2 : List Char) 
    (hlab : ∀ c, c ∈ label → isB32Char c = true)
    (hhd : ∀ c, sfx2.headD ' ' = c → sfx2 ≠ [] → digitVal 10 c = none) :
    parseSocketAddr (label ++ '.' :: sfx2) = none := by
  have hv4 : readIpv4 (label ++ '.' :: sfx2) = none := readIpv4_label label hlab sfx2 hhd
  rw [parseSocketAddr, hv4]
  dsimp only
  rcases label with _ | ⟨c, l⟩
  · rw [List.nil_append,
      show expectChar '[' ('.' :: sfx2) = none from by
        show (if '.' = '[' then some sfx2 else none) = none
        rw [if_neg (by decide)]]
    rfl
  · rw [List.cons_append,
      show expectChar '[' (c :: (l ++ '.' :: sfx2)) = none from by
        show (if c = '[' then some (l ++ '.' :: sfx2) else none) = none
        rw [if_neg (fun hc => by
          subst hc
          exact absurd (hlab '[' (List.mem_cons_self _ _)) (by decide))]]
    rfl

theorem parse_toStr_onionV2 (s : String) (port : Nat)
    (hlab : ∀ c, c ∈ s.data → isB32Char c = true) (hlen : s.data.length = 16)
    (hp : port < 65536) :
    PeerAddr.parse (PeerAddr.OnionV2 s port).toStr = some (PeerAddr.OnionV2 s port) := by
  have hshape1 : (PeerAddr.OnionV2 s port).toStr =
      s.data ++ '.' :: ("onion".data ++ ':' :: decStr port) := by
    show s.data ++ ".onion:".data ++ decStr port = _
    rw [show (".onion:".data : List Char) = '.' :: ("onion".data ++ [':']) from rfl]
    simp [List.append_assoc]
  have hsock : parseSocketAddr ((PeerAddr.OnionV2 s port).toStr) = none := by
    rw [hshape1]
    refine parseSocketAddr_overlay_none s.data _ hlab ?_
    intro c hc _
    rw [show ("onion".data ++ ':' :: decStr port).headD ' ' = 'o' from rfl] at hc
    subst hc
    decide
  have hshape2 : (PeerAddr.OnionV2 s port).toStr =
      (s.data ++ ".onion".data) ++ ':' :: decStr port := by
    show s.data ++ ".onion:".data ++ decStr port = _
    rw [show (".onion:".data : List Char) = ".onion".data ++ [':'] from rfl]
    simp [List.append_assoc]
  have hsplit : splitColon ((PeerAddr.OnionV2 s port).toStr) =
      [s.data ++ ".onion".data, decStr port] := by
    rw [hshape2]
    refine splitColon_single _ _ ?_ (colon_not_mem_decStr port)
    intro hm
    rcases List.mem_append.mp hm with hm | hm
    · exact absurd (hlab ':' hm) (by decide)
    · revert hm
      decide
  rw [PeerAddr.parse, hsock]
  dsimp only
  rw [hsplit]
  rw [show ([s.data ++ ".onion".data, decStr port] : List (List Char)).get? 1 =
    some (decStr port) from rfl]
  dsimp only
  rw [rustParseU16_decStr port hp]
  dsimp only
  rw [show ([s.data ++ ".onion".data, decStr port] : List (List Char)).headD [] =
    s.data ++ ".onion".data from rfl]
  rw [stripSfx_append]
  dsimp only
  rw [if_pos hlen]

theorem parse_toStr_onionV3 (s : String) (port : Nat)
    (hlab : ∀ c, c ∈ s.data → isB32Char c = true) (hlen : s.data.length = 56)
    (hp : port < 65536) :
    PeerAddr.parse (PeerAddr.OnionV3 s port).toStr = some (PeerAddr.OnionV3 s port) := by
  have hshape1 : (PeerAddr.OnionV3 s port).toStr =
      s.data ++ '.' :: ("onion".data ++ ':' :: decStr port) := by
    show s.data ++ ".onion:".data ++ decStr port = _
    rw [show (".onion:".data : List Char) = '.' :: ("onion".data ++ [':']) from rfl]
    simp [List.append_assoc]
  have hsock : parseSocketAddr ((PeerAddr.OnionV3 s port).toStr) = none := by
    rw [hshape1]
    refine parseSocketAddr_overlay_none s.data _ hlab ?_
    intro c hc _
    rw [show ("onion".data ++ ':' :: decStr port).headD ' ' = 'o' from rfl] at hc
    subst hc
    decide
  have hshape2 : (PeerAddr.OnionV3 s port).toStr =
      (s.data ++ ".onion".data) ++ ':' :: decStr port := by
    show s.data ++ ".onion:".data ++ decStr port = _
    rw [show (".onion:".data : List Char) = ".onion".data ++ [':'] from rfl]
    simp [List.append_assoc]
  have hsplit : splitColon ((PeerAddr.OnionV3 s port).toStr) =
      [s.data ++ ".onion".data, decStr port] := by
    rw [hshape2]
    refine splitColon_single _ _ ?_ (colon_not_mem_decStr port)
    intro hm
    rcases List.mem_append.mp hm with hm | hm
    · exact absurd (hlab ':' hm) (by decide)
    · revert hm
      decide
  rw [PeerAddr.parse, hsock]
  dsimp only
  rw [hsplit]
  rw [show ([s.data ++ ".onion".data, decStr port] : List (List Char)).get? 1 =
    some (decStr port) from rfl]
  dsimp only
  rw [rustParseU16_decStr port hp]
  dsimp only
  rw [show ([s.data ++ ".onion".data, decStr port] : List (List Char)).headD [] =
    s.data ++ ".onion".data from rfl]
  rw [stripSfx_append]
  dsimp only
  rw [if_neg (by omega), if_pos hlen]

theorem parse_toStr_i2p (s : String) (port : Nat)
    (hlab : ∀ c, c ∈ s.data → isB32Char c = true) (hp : port < 65536) :
    PeerAddr.parse (PeerAddr.I2PB32 s port).toStr = some (PeerAddr.I2PB32 s port) := by
  have hshape1 : (PeerAddr.I2PB32 s port).toStr =
      s.data ++ '.' :: ("b32.i2p".data ++ ':' :: decStr port) := by
    show s.data ++ ".b32.i2p:".data ++ decStr port = _
    rw [show (".b32.i2p:".data : List Char) = '.' :: ("b32.i2p".data ++ [':']) from rfl]
    simp [List.append_assoc]
  have hsock : parseSocketAddr ((PeerAddr.I2PB32 s port).toStr) = none := by
    rw [hshape1]
    refine parseSocketAddr_overlay_none s.data _ hlab ?_
    intro c hc _
    rw [show ("b32.i2p".data ++ ':' :: decStr port).headD ' ' = 'b' from rfl] at hc
    subst hc
    decide
  have hshape2 : (PeerAddr.I2PB32 s port).toStr =
      (s.data ++ ".b32.i2p".data) ++ ':' :: decStr port := by
    show s.data ++ ".b32.i2p:".data ++ decStr port = _
    rw [show (".b32.i2p:".data : List Char) = ".b32.i2p".data ++ [':'] from rfl]
    simp [List.append_assoc]
  have hsplit : splitColon ((PeerAddr.I2PB32 s port).toStr) =
      [s.data ++ ".b32.i2p".data, decStr port] := by
    rw [hshape2]
    refine splitColon_single _ _ ?_ (colon_not_mem_decStr port)
    intro hm
    rcases List.mem_append.mp hm with hm | hm
    · exact absurd (hlab ':' hm) (by decide)
    · revert hm
      decide
  rw [PeerAddr.parse, hsock]
  dsimp only
  rw [hsplit]
  rw [show ([s.data ++ ".b32.i2p".data, decStr port] : List (List Char)).get? 1 =
    some (decStr port) from rfl]
  dsimp only
  rw [rustParseU16_decStr port hp]
  dsimp only
  rw [show ([s.data ++ ".b32.i2p".data, decStr port] : List (List Char)).headD [] =
    s.data ++ ".b32.i2p".data from rfl]
  rw [stripSfx_mismatch s.data _ _ (by decide) (by decide) (by decide)]
  dsimp only
  rw [stripSfx_append]

theorem getD_append_right_nat (l1 l2 : List Nat) (n : Nat) (h : l1.length ≤ n) :
    (l1 ++ l2).getD n 0 = l2.getD (n - l1.length) 0 := by
  rw [List.getD_eq_getElem?_getD, List.getElem?_append_right h,
    ← List.getD_eq_getElem?_getD]

theorem unpack_pack_ipv4 (oct : List Nat) (port : Nat) (h4 : oct.length = 4)
    (hp : port < 65536) :
    PeerAddr.unpack (oct ++ lePort port) = some (PeerAddr.IPV4 oct port) := by
  have hlen : (oct ++ lePort port).length = 6 := by
    simp [lePort, h4]
  rw [PeerAddr.unpack, hlen]
  show some (PeerAddr.IPV4 ((oct ++ lePort port).take 4)
    ((oct ++ lePort port).getD 4 0 + 256 * (oct ++ lePort port).getD 5 0)) = _
  rw [show (oct ++ lePort port).take 4 = oct from by
    rw [← h4]
    exact List.take_left oct _]
  rw [getD_append_right_nat oct _ 4 (by omega), getD_append_right_nat oct _ 5 (by omega),
    h4]
  show some (PeerAddr.IPV4 oct ((lePort port).getD 0 0 + 256 * (lePort port).getD 1 0)) = _
  rw [show (lePort port).getD 0 0 = port % 256 from rfl,
    show (lePort port).getD 1 0 = port / 256 % 256 from rfl,
    show port % 256 + 256 * (port / 256 % 256) = port from by omega]

theorem unpack_pack_ipv6 (oct : List Nat) (port : Nat) (h16 : oct.length = 16)
    (hp : port < 65536) :
    PeerAddr.unpack (oct ++ lePort port) = some (PeerAddr.IPV6 oct port) := by
  have hlen : (oct ++ lePort port).length = 18 := by
    simp [lePort, h16]
  rw [PeerAddr.unpack, hlen]
  show some (PeerAddr.IPV6 ((oct ++ lePort port).take 16)
    ((oct ++ lePort port).getD 16 0 + 256 * (oct ++ lePort port).getD 17 0)) = _
  rw [show (oct ++ lePort port).take 16 = oct from by
    rw [← h16]
    exact List.take_left oct _]
  rw [getD_append_right_nat oct _ 16 (by omega),
    getD_append_right_nat oct _ 17 (by omega), h16]
  show some (PeerAddr.IPV6 oct ((lePort port).getD 0 0 + 256 * (lePort port).getD 1 0)) = _
  rw [show (lePort port).getD 0 0 = port % 256 from rfl,
    show (lePort port).getD 1 0 = port / 256 % 256 from rfl,
    show port % 256 + 256 * (port / 256 % 256) = port from by omega]

theorem bitVal_le (b : Bool) : bitVal b ≤ 1 := by
  cases b <;> decide

theorem mem_chunk5 :
    ∀ (n : Nat) (l : List Bool), l.length ≤ n → ∀ v, v ∈ chunk5 l → v < 32 := by
  intro n
  induction n with
  | zero =>
    intro l hlen v hv
    rw [show l = [] from List.length_eq_zero.mp (by omega)] at hv
    cases hv
  | succ n ih =>
    intro l hlen v hv
    rcases l with _ | ⟨a, _ | ⟨b, _ | ⟨c, _ | ⟨d, _ | ⟨e, rest⟩⟩⟩⟩⟩
    · cases hv
    · cases hv
    · cases hv
    · cases hv
    · cases hv
    · rw [chunk5] at hv
      rcases List.mem_cons.mp hv with rfl | hv2
      · have h1 := bitVal_le a
        have h2 := bitVal_le b
        have h3 := bitVal_le c
        have h4 := bitVal_le d
        have h5 := bitVal_le e
        omega
      · exact ih rest (by simp only [List.length_cons] at hlen; omega) v hv2

theorem toLowerChar_b32Char (v : Nat) (h : v < 32) :
    toLowerChar (b32Char v) = b32Char v := by
  have hall : ∀ x : Fin 32, toLowerChar (b32Char x.val) = b32Char x.val := by decide
  exact hall ⟨v, h⟩

theorem strToLower_base32Encode (bs : List Nat) :
    strToLower (base32Encode bs) = base32Encode bs := by
  show String.mk (((chunk5 _).map b32Char).map toLowerChar) = _
  rw [List.map_map]
  congr 1
  refine List.map_congr_left ?_
  intro v hv
  exact toLowerChar_b32Char v (mem_chunk5 _ _ le_rfl v hv)

theorem unpack_pack_onionV2 (s : String) (port : Nat)
    (hcan : canonicalLabel s 10 = true) (hp : port < 65536) :
    ∃ bs, PeerAddr.pack (PeerAddr.OnionV2 s port) = some bs ∧
      PeerAddr.unpack bs = some (PeerAddr.OnionV2 s port) := by
  rw [canonicalLabel] at hcan
  rcases hd : base32Decode s with _ | bs
  · rw [hd] at hcan
    exact absurd hcan (by simp)
  · rw [hd] at hcan
    simp only [Bool.and_eq_true, decide_eq_true_iff] at hcan
    obtain ⟨hblen, henc⟩ := hcan
    refine ⟨bs ++ lePort port, ?_, ?_⟩
    · rw [PeerAddr.pack, show strToLower s = s from by
        rw [← henc, strToLower_base32Encode], hd]
      rfl
    · have hlen : (bs ++ lePort port).length = 12 := by
        simp [lePort, hblen]
      rw [PeerAddr.unpack, hlen]
      show some (PeerAddr.OnionV2 (base32Encode ((bs ++ lePort port).take 10))
        ((bs ++ lePort port).getD 10 0 + 256 * (bs ++ lePort port).getD 11 0)) = _
      rw [show (bs ++ lePort port).take 10 = bs from by
        rw [← hblen]
        exact List.take_left bs _]
      rw [getD_append_right_nat bs _ 10 (by omega),
        getD_append_right_nat bs _ 11 (by omega), hblen, henc]
      show some (PeerAddr.OnionV2 s ((lePort port).getD 0 0 + 256 * (lePort port).getD 1 0)) = _
      rw [show (lePort port).getD 0 0 = port % 256 from rfl,
        show (lePort port).getD 1 0 = port / 256 % 256 from rfl,
        show port % 256 + 256 * (port / 256 % 256) = port from by omega]

theorem unpack_pack_onionV3 (s : String) (port : Nat)
    (hcan : canonicalLabel s 35 = true) (hp : port < 65536) :
    ∃ bs, PeerAddr.pack (PeerAddr.OnionV3 s port) = some bs ∧
      PeerAddr.unpack bs = some (PeerAddr.OnionV3 s port) := by
  rw [canonicalLabel] at hcan
  rcases hd : base32Decode s with _ | bs
  · rw [hd] at hcan
    exact absurd hcan (by simp)
  · rw [hd] at hcan
    simp only [Bool.and_eq_true, decide_eq_true_iff] at hcan
    obtain ⟨hblen, henc⟩ := hcan
    refine ⟨bs ++ lePort port, ?_, ?_⟩
    · rw [PeerAddr.pack, show strToLower s = s from by
        rw [← henc, strToLower_base32Encode], hd]
      rfl
    · have hlen : (bs ++ lePort port).length = 37 := by
        simp [lePort, hblen]
      rw [PeerAddr.unpack, hlen]
      show some (PeerAddr.OnionV3 (base32Encode ((bs ++ lePort port).take 35))
        ((bs ++ lePort port).getD 35 0 + 256 * (bs ++ lePort port).getD 36 0)) = _
      rw [show (bs ++ lePort port).take 35 = bs from by
        rw [← hblen]
        exact List.take_left bs _]
      rw [getD_append_right_nat bs _ 35 (by omega),
        getD_append_right_nat bs _ 36 (by omega), hblen, henc]
      show some (PeerAddr.OnionV3 s ((lePort port).getD 0 0 + 256 * (lePort port).getD 1 0)) = _
      rw [show (lePort port).getD 0 0 = port % 256 from rfl,
        show (lePort port).getD 1 0 = port / 256 % 256 from rfl,
        show port % 256 + 256 * (port / 256 % 256) = port from by omega]

theorem unpack_pack_i2p (s : String) (port : Nat)
    (hcan : canonicalLabel s 32 = true) (hp : port < 65536) :
    ∃ bs, PeerAddr.pack (PeerAddr.I2PB32 s port) = some bs ∧
      PeerAddr.unpack bs = some (PeerAddr.I2PB32 s port) := by
  rw [canonicalLabel] at hcan
  rcases hd : base32Decode s with _ | bs
  · rw [hd] at hcan
    exact absurd hcan (by simp)
  · rw [hd] at hcan
    simp only [Bool.and_eq_true, decide_eq_true_iff] at hcan
    obtain ⟨hblen, henc⟩ := hcan
    refine ⟨bs ++ lePort port, ?_, ?_⟩
    · rw [PeerAddr.pack, show strToLower s = s from by
        rw [← henc, strToLower_base32Encode], hd]
      rfl
    · have hlen : (bs ++ lePort port).length = 34 := by
        simp [lePort, hblen]
      rw [PeerAddr.unpack, hlen]
      show some (PeerAddr.I2PB32 (base32Encode ((bs ++ lePort port).take 32))
        ((bs ++ lePort port).getD 32 0 + 256 * (bs ++ lePort port).getD 33 0)) = _
      rw [show (bs ++ lePort port).take 32 = bs from by
        rw [← hblen]
        exact List.take_left bs _]
      rw [getD_append_right_nat bs _ 32 (by omega),
        getD_append_right_nat bs _ 33 (by omega), hblen, henc]
      show some (PeerAddr.I2PB32 s ((lePort port).getD 0 0 + 256 * (lePort port).getD 1 0)) = _
      rw [show (lePort port).getD 0 0 = port % 256 from rfl,
        show (lePort port).getD 1 0 = port / 256 % 256 from rfl,
        show port % 256 + 256 * (port / 256 % 256) = port from by omega]

/-- C6 (amended): for every structurally valid address, the string
round trip `parse(to_string(a)) = a` holds — including overlay labels
stored with uppercase base32 characters — and the binary round trip
`unpack(pack(a)) = a` holds for clearnet addresses and for overlay
addresses whose stored label is canonical, i.e. exactly the lowercase
base32 encoding of a body of the variant's size (the labels `unpack`
itself produces).  `pack` lowercases the label before decoding and
`unpack` re-encodes it in lowercase, so a non-canonical (e.g.
uppercase) label does not survive the binary round trip. -/
theorem addr_roundtrip (a : PeerAddr) (hv : validAddr a = true) :
    (canonicalAddr a = true →
      ∃ bs, PeerAddr.pack a = some bs ∧ PeerAddr.unpack bs = some a) ∧
    PeerAddr.parse (PeerAddr.toStr a) = some a := by
  cases a with
  | IPV4 oct port =>
    rw [validAddr] at hv
    simp only [Bool.and_eq_true, decide_eq_true_iff, List.all_eq_true] at hv
    obtain ⟨h4, hall, hp⟩ := hv
    constructor
    · intro _
      exact ⟨oct ++ lePort port, rfl, unpack_pack_ipv4 oct port h4 hp⟩
    · obtain ⟨a1, a2, a3, a4, rfl⟩ : ∃ x y z w, oct = [x, y, z, w] := by
        match hm : oct with
        | [x, y, z, w] => exact ⟨x, y, z, w, rfl⟩
        | [] => simp at h4
        | [x] => simp at h4
        | [x, y] => simp at h4
        | [x, y, z] => simp at h4
        | x :: y :: z :: w :: v :: r => simp at h4
      rw [PeerAddr.toStr, PeerAddr.parse,
        parseSocketAddr_v4 a1 a2 a3 a4 port (hall a1 (by simp))
          (hall a2 (by simp)) (hall a3 (by simp)) (hall a4 (by simp)) hp]
  | IPV6 oct port =>
    rw [validAddr] at hv
    simp only [Bool.and_eq_true, decide_eq_true_iff, List.all_eq_true] at hv
    obtain ⟨h16, hall, hp⟩ := hv
    constructor
    · intro _
      exact ⟨oct ++ lePort port, rfl, unpack_pack_ipv6 oct port h16 hp⟩
    · rw [PeerAddr.toStr, PeerAddr.parse,
        parseSocketAddr_v6 oct port h16 hall hp]
  | OnionV2 s port =>
    rw [validAddr] at hv
    simp only [Bool.and_eq_true, decide_eq_true_iff, List.all_eq_true] at hv
    obtain ⟨hlab, hlen, hp⟩ := hv
    constructor
    · intro hcanon
      rw [canonicalAddr] at hcanon
      exact unpack_pack_onionV2 s port hcanon hp
    · exact parse_toStr_onionV2 s port hlab hlen hp
  | OnionV3 s port =>
    rw [validAddr] at hv
    simp only [Bool.and_eq_true, decide_eq_true_iff, List.all_eq_true] at hv
    obtain ⟨hlab, hlen, hp⟩ := hv
    constructor
    · intro hcanon
      rw [canonicalAddr] at hcanon
      exact unpack_pack_onionV3 s port hcanon hp
    · exact parse_toStr_onionV3 s port hlab hlen hp
  | I2PB32 s port =>
    rw [validAddr] at hv
    simp only [Bool.and_eq_true, decide_eq_true_iff, List.all_eq_true] at hv
    obtain ⟨hlab, hp⟩ := hv
    constructor
    · intro hcanon
      rw [canonicalAddr] at hcanon
      exact unpack_pack_i2p s port hcanon hp
    · exact parse_toStr_i2p s port hlab hp

/-- C6: the claim asserts `unpack(pack(a)) == a` for every valid
address, explicitly including overlay labels stored with uppercase
base32 characters.  On the code, `pack` lowercases the label before
base32-decoding it (src/address.rs, line 319) and `unpack` re-encodes
the body in lowercase, so the uppercase OnionV2 address below — valid,
and accepted by `pack` — unpacks to the lowercase label instead of the
original. -/
theorem c6_counterexample :
    (PeerAddr.OnionV2 "YTCNZLUHAXIDTBF4" 4321).pack =
      some [196, 196, 220, 174, 135, 5, 208, 57, 132, 188, 225, 16] ∧
    PeerAddr.unpack [196, 196, 220, 174, 135, 5, 208, 57, 132, 188, 225, 16] =
      some (PeerAddr.OnionV2 "ytcnzluhaxidtbf4" 4321) ∧
    PeerAddr.OnionV2 "ytcnzluhaxidtbf4" 4321 ≠
      PeerAddr.OnionV2 "YTCNZLUHAXIDTBF4" 4321 ∧
    validAddr (PeerAddr.OnionV2 "YTCNZLUHAXIDTBF4" 4321) = true :=
  ⟨by decide, by decide, by decide, by decide⟩

/-- C6 witness: both round trips at the canonical lowercase OnionV2
address of the repo's own test vector. -/
theorem addr_roundtrip_witness :
    validAddr (PeerAddr.OnionV2 "ytcnzluhaxidtbf4" 4321) = true ∧
    canonicalAddr (PeerAddr.OnionV2 "ytcnzluhaxidtbf4" 4321) = true ∧
    (∃ bs, PeerAddr.pack (PeerAddr.OnionV2 "ytcnzluhaxidtbf4" 4321) = some bs ∧
      PeerAddr.unpack bs = some (PeerAddr.OnionV2 "ytcnzluhaxidtbf4" 4321)) ∧
    PeerAddr.parse (PeerAddr.toStr (PeerAddr.OnionV2 "ytcnzluhaxidtbf4" 4321)) =
      some (PeerAddr.OnionV2 "ytcnzluhaxidtbf4" 4321) :=
  ⟨by decide, by decide,
    (addr_roundtrip (PeerAddr.OnionV2 "ytcnzluhaxidtbf4" 4321) (by decide)).1 (by decide),
    (addr_roundtrip (PeerAddr.OnionV2 "ytcnzluhaxidtbf4" 4321) (by decide)).2⟩
